import Mathlib

/-!
# LZ4 block decoder (`reader.go`): shallow embedding and verification

The Go source decodes one LZ4 block with a small `decoder` struct whose
cursors are `uint32`.  The embedding below keeps that arithmetic: every
`uint32` value is a `Nat` reduced modulo `2^32` at each operation.  `int`
is taken to be 64 bits wide, so `int(x)` of a `uint32` is the value itself.

Byte slices are lists.  A Go run-time panic (index or slice bounds out of
range) is the outcome `Exec.panic`; the two unbounded loops of the source
(`for ln == 255` in `getLen`, `for { ... }` in `Decode`) take a fuel
argument and give `Exec.timeout` when it runs out.
-/

namespace lz4

/-- A byte of the input or output. -/
abbrev Byte := Fin 256

/-- The two error values the package uses: `io.EOF` and `ErrCorrupt`. -/
inductive Error where
  | EOF
  | ErrCorrupt
  deriving DecidableEq, Repr

/-- Outcome of running a fragment of the Go code: it returns a value, it
panics on an out-of-range index or slice, or the fuel of the embedding is
exhausted. -/
inductive Exec (α : Type) where
  | ret : α → Exec α
  | panic : Exec α
  | timeout : Exec α
  deriving DecidableEq, Repr

/-- Sequencing of outcomes: a panic or an exhausted fuel stops the run. -/
def Exec.bind {α β : Type} (x : Exec α) (f : α → Exec β) : Exec β :=
  match x with
  | Exec.ret a => f a
  | Exec.panic => Exec.panic
  | Exec.timeout => Exec.timeout

/-- Wrap-around of `uint32` arithmetic. -/
def u32 (n : Nat) : Nat := n % 4294967296

def mlBits : Nat := 4
def mlMask : Nat := (1 <<< mlBits) - 1
def runBits : Nat := 8 - mlBits
def runMask : Nat := (1 <<< runBits) - 1

/-- The `decoder` struct; `spos`, `dpos` and `ref` are `uint32`. -/
structure decoder where
  src : List Byte
  dst : List Byte
  spos : Nat
  dpos : Nat
  ref : Nat
  deriving DecidableEq, Repr

/-- `readByte`: `io.EOF` when `int(d.spos) == len(d.src)`, else the byte
`d.src[d.spos]` (an index out of range panics) and `d.spos++`. -/
def decoder.readByte (d : decoder) : Exec ((Byte × Option Error) × decoder) :=
  if d.spos = d.src.length then
    Exec.ret ((0, some Error.EOF), d)
  else
    match d.src[d.spos]? with
    | none => Exec.panic
    | some b => Exec.ret ((b, none), { d with spos := u32 (d.spos + 1) })

/-- The loop `for ln == 255 { ... }` of `getLen`, entered with the running
`length` and the byte `ln` read last.  One unit of fuel per iteration. -/
def decoder.getLenLoop : Nat → decoder → Nat → Byte → Exec ((Nat × Option Error) × decoder)
  | 0, d, length, ln =>
    if ln.val = 255 then Exec.timeout
    else Exec.ret ((u32 (length + ln.val), none), d)
  | fuel + 1, d, length, ln =>
    if ln.val = 255 then
      d.readByte.bind fun r =>
        match r.1.2 with
        | some _ => Exec.ret ((0, some Error.ErrCorrupt), r.2)
        | none => decoder.getLenLoop fuel r.2 (u32 (length + 255)) r.1.1
    else Exec.ret ((u32 (length + ln.val), none), d)

/-- `getLen`: the size escape, bytes of value 255 each adding 255, closed
by a byte below 255.  Any failed read gives `ErrCorrupt`. -/
def decoder.getLen (d : decoder) (fuel : Nat) : Exec ((Nat × Option Error) × decoder) :=
  d.readByte.bind fun r =>
    match r.1.2 with
    | some _ => Exec.ret ((0, some Error.ErrCorrupt), r.2)
    | none => decoder.getLenLoop fuel r.2 0 r.1.1

/-- `readUint16`: two bytes, little endian.  A failed first read passes
its error (`io.EOF`) on, a failed second read is `ErrCorrupt`. -/
def decoder.readUint16 (d : decoder) : Exec ((Nat × Option Error) × decoder) :=
  d.readByte.bind fun r1 =>
    match r1.1.2 with
    | some e => Exec.ret ((0, some e), r1.2)
    | none =>
      r1.2.readByte.bind fun r2 =>
        match r2.1.2 with
        | some _ => Exec.ret ((0, some Error.ErrCorrupt), r2.2)
        | none => Exec.ret (((r2.1.1.val <<< 8) ||| r1.1.1.val, none), r2.2)

/-- The byte loop of `cp`: `n` iterations still to run, loop counter `ii`;
each appends `d.dst[d.ref+ii]` (the sum wraps as `uint32`). -/
def decoder.cpLoop : Nat → Nat → decoder → Exec decoder
  | 0, _, d => Exec.ret d
  | n + 1, ii, d =>
    match d.dst[u32 (d.ref + ii)]? with
    | none => Exec.panic
    | some b => decoder.cpLoop n (ii + 1) { d with dst := d.dst ++ [b] }

/-- `cp(length, decr)`: append `length` bytes read from index `ref` on, by
one slice append when `int(d.ref+length) < len(d.dst)` and byte by byte
otherwise; then `d.dpos += length` and `d.ref += length - decr`.  The slice
expression `d.dst[lo:hi]` panics when `lo > hi`. -/
def decoder.cp (d : decoder) (length decr : Nat) : Exec decoder :=
  (if u32 (d.ref + length) < d.dst.length then
      (if d.ref ≤ u32 (d.ref + length) then
        Exec.ret { d with dst := d.dst ++ (d.dst.drop d.ref).take (u32 (d.ref + length) - d.ref) }
      else Exec.panic)
    else decoder.cpLoop length 0 d).bind fun d1 =>
  Exec.ret { d1 with dpos := u32 (d1.dpos + length),
                     ref := u32 (d1.ref + u32 (length + 4294967296 - decr)) }

/-- `consume(length)`: copy `length` input bytes to the output, one
`readByte` each; a failed read gives `ErrCorrupt`. -/
def decoder.consume : Nat → decoder → Exec (Option Error × decoder)
  | 0, d => Exec.ret (none, d)
  | n + 1, d =>
    d.readByte.bind fun r =>
      match r.1.2 with
      | some _ => Exec.ret (some Error.ErrCorrupt, r.2)
      | none => decoder.consume n { r.2 with dst := r.2.dst ++ [r.1.1], dpos := u32 (r.2.dpos + 1) }

/-- `finish`: `io.EOF` becomes a nil error, any other error is kept. -/
def decoder.finish (_d : decoder) (err : Option Error) : Option Error :=
  match err with
  | some Error.EOF => none
  | e => e

/-- The fix-up table `decr` of `Decode`. -/
def decr : List Nat := [0, 3, 2, 3]

/-- What `Decode` returns: the output slice (`none` is the nil slice) and
the error (`none` is nil). -/
abbrev Result := Option (List Byte) × Option Error

/-- First half of the loop body of `Decode`: the control byte, the literal
length with its escape, and the literal bytes.  Either `Decode` returns
(left) or the run goes on with the control byte and the state (right). -/
def decoder.literals (d : decoder) (fuel : Nat) : Exec (Result ⊕ (Byte × decoder)) :=
  d.readByte.bind fun r =>
    match r.1.2 with
    | some e => Exec.ret (Sum.inl (some r.2.dst, r.2.finish (some e)))
    | none =>
      let code := r.1.1
      (if code.val >>> mlBits = runMask then
          (r.2.getLen fuel).bind fun g =>
            match g.1.2 with
            | some _ => Exec.ret (Sum.inl (none, some Error.ErrCorrupt))
            | none => Exec.ret (Sum.inr (u32 ((code.val >>> mlBits) + g.1.1), g.2))
        else Exec.ret (Sum.inr (code.val >>> mlBits, r.2))).bind fun l =>
      match l with
      | Sum.inl res => Exec.ret (Sum.inl res)
      | Sum.inr (length, d1) =>
        (d1.consume length).bind fun c =>
          match c.1 with
          | some _ => Exec.ret (Sum.inl (none, some Error.ErrCorrupt))
          | none => Exec.ret (Sum.inr (code, c.2))

/-- The end of the loop body of `Decode` (from `literal := d.dpos - d.ref`
on): for a distance below 4 the fix-up copy `cp(4, decr[literal])`, else
`length += 4`; then `cp(length, 0)`. -/
def decoder.expand (d : decoder) (length : Nat) : Exec decoder :=
  let literal := u32 (d.dpos + 4294967296 - d.ref)
  (if literal < 4 then
      match decr[literal]? with
      | none => Exec.panic
      | some k => (d.cp 4 k).bind fun d3 => Exec.ret (length, d3)
    else Exec.ret (u32 (length + 4), d)).bind fun p =>
  p.2.cp p.1 0

/-- Second half of the loop body of `Decode`: the offset, the match length
with its escape, and the copy (`expand`).  Either `Decode` returns (left)
or the loop goes round again (right). -/
def decoder.backref (d : decoder) (code : Byte) (fuel : Nat) : Exec (Result ⊕ decoder) :=
  d.readUint16.bind fun r =>
    match r.1.2 with
    | some e => Exec.ret (Sum.inl (some r.2.dst, r.2.finish (some e)))
    | none =>
      let d1 : decoder := { r.2 with ref := u32 (r.2.dpos + 4294967296 - r.1.1) }
      (if code.val &&& mlMask = mlMask then
          (d1.getLen fuel).bind fun g =>
            match g.1.2 with
            | some _ => Exec.ret (Sum.inl (none, some Error.ErrCorrupt))
            | none => Exec.ret (Sum.inr (u32 ((code.val &&& mlMask) + g.1.1), g.2))
        else Exec.ret (Sum.inr (code.val &&& mlMask, d1))).bind fun l =>
      match l with
      | Sum.inl res => Exec.ret (Sum.inl res)
      | Sum.inr (length, d2) => (d2.expand length).bind fun d4 => Exec.ret (Sum.inr d4)

/-- One pass through the body of the `for` loop of `Decode`. -/
def decoder.iteration (d : decoder) (fuel : Nat) : Exec (Result ⊕ decoder) :=
  (d.literals fuel).bind fun l =>
    match l with
    | Sum.inl res => Exec.ret (Sum.inl res)
    | Sum.inr (code, d1) => d1.backref code fuel

/-- The `for { ... }` loop of `Decode`, one unit of fuel per pass; the
fuel left also bounds the `getLen` loops of the pass. -/
def DecodeLoop : Nat → decoder → Exec Result
  | 0, _ => Exec.timeout
  | fuel + 1, d =>
    (d.iteration fuel).bind fun n =>
      match n with
      | Sum.inl res => Exec.ret res
      | Sum.inr d1 => DecodeLoop fuel d1

/-- The decoder `Decode(dst, src)` starts from: a nil `dst` is replaced by
`make([]byte, len(src))`, then `dst = dst[:0]`, and the cursors are zero. -/
def start (dst : Option (List Byte)) (src : List Byte) : decoder :=
  let dst1 : List Byte :=
    match dst with
    | none => List.replicate src.length 0
    | some b => b
  { src := src, dst := dst1.take 0, spos := 0, dpos := 0, ref := 0 }

/-- `Decode(dst, src)` run with the given fuel. -/
def Decode (fuel : Nat) (dst : Option (List Byte)) (src : List Byte) : Exec Result :=
  DecodeLoop fuel (start dst src)

/-- The state after `k` complete passes through the loop body, each ending
with the loop going round again; `none` when one of them returns from
`Decode`, panics or runs out of fuel. -/
def passes (fuel : Nat) : Nat → decoder → Option decoder
  | 0, d => some d
  | k + 1, d =>
    match d.iteration fuel with
    | Exec.ret (Sum.inr d1) => passes fuel k d1
    | _ => none

/-- The sequence boundaries of a run: the value of `spos` each time the
loop body is entered. -/
def boundaries : Nat → decoder → List Nat
  | 0, _ => []
  | fuel + 1, d =>
    d.spos :: (match d.iteration fuel with
      | Exec.ret (Sum.inr d1) => boundaries fuel d1
      | _ => [])

/-- The value of `spos` right after the literals of each sequence of a run,
where `readUint16` is about to read the offset. -/
def literalEnds : Nat → decoder → List Nat
  | 0, _ => []
  | fuel + 1, d =>
    match d.literals fuel with
    | Exec.ret (Sum.inr (code, d1)) =>
      d1.spos :: (match d1.backref code fuel with
        | Exec.ret (Sum.inr d2) => literalEnds fuel d2
        | _ => [])
    | _ => []

/-- The state each time `readUint16` is about to read an offset: the state
the literals of a sequence leave, for each sequence of a run. -/
def offsetStates : Nat → decoder → List decoder
  | 0, _ => []
  | fuel + 1, d =>
    match d.literals fuel with
    | Exec.ret (Sum.inr (code, d1)) =>
      d1 :: (match d1.backref code fuel with
        | Exec.ret (Sum.inr d2) => offsetStates fuel d2
        | _ => [])
    | _ => []

/-- The second half of the loop body up to the copy: the offset,
`d.ref = d.dpos - uint32(back)`, and the match length with its escape.
Either `Decode` returns (left) or the copy is entered with the offset read,
the length and the state (right); `backref` is this followed by `expand`. -/
def decoder.offsetLen (d : decoder) (code : Byte) (fuel : Nat) :
    Exec (Result ⊕ (Nat × Nat × decoder)) :=
  d.readUint16.bind fun r =>
    match r.1.2 with
    | some e => Exec.ret (Sum.inl (some r.2.dst, r.2.finish (some e)))
    | none =>
      let d1 : decoder := { r.2 with ref := u32 (r.2.dpos + 4294967296 - r.1.1) }
      (if code.val &&& mlMask = mlMask then
          (d1.getLen fuel).bind fun g =>
            match g.1.2 with
            | some _ => Exec.ret (Sum.inl (none, some Error.ErrCorrupt))
            | none => Exec.ret (Sum.inr (u32 ((code.val &&& mlMask) + g.1.1), g.2))
        else Exec.ret (Sum.inr (code.val &&& mlMask, d1))).bind fun l =>
      match l with
      | Sum.inl res => Exec.ret (Sum.inl res)
      | Sum.inr (length, d2) => Exec.ret (Sum.inr (r.1.1, length, d2))

/-- The matches of a run: for each pass that reaches the copy, the offset
read, the length (the match-length field with its escape) and the state at
`literal := d.dpos - d.ref`. -/
def matchCopies : Nat → decoder → List (Nat × Nat × decoder)
  | 0, _ => []
  | fuel + 1, d =>
    match d.literals fuel with
    | Exec.ret (Sum.inr (code, d1)) =>
      match d1.offsetLen code fuel with
      | Exec.ret (Sum.inr (back, length, d2)) =>
        (back, length, d2) :: (match d2.expand length with
          | Exec.ret d4 => matchCopies fuel d4
          | _ => [])
      | _ => []
    | _ => []

/-- The calls of `cp` that the end of the loop body (`expand`) makes: the
state each call is made on, its `length` and its `decr`. -/
def decoder.expandCalls (d : decoder) (length : Nat) : List (decoder × Nat × Nat) :=
  let literal := u32 (d.dpos + 4294967296 - d.ref)
  if literal < 4 then
    match decr[literal]? with
    | none => []
    | some k => (d, 4, k) :: (match d.cp 4 k with
      | Exec.ret d3 => [(d3, length, 0)]
      | _ => [])
  else [(d, u32 (length + 4), 0)]

/-- Every call of `cp` of a run: the state it is made on, its `length` and
its `decr`. -/
def cpCalls (fuel : Nat) (d : decoder) : List (decoder × Nat × Nat) :=
  ((matchCopies fuel d).map fun m => m.2.2.expandCalls m.2.1).flatten

/-- The states of a run of `Decode(dst, src)` between two operations on the
decoder: the state `Decode` starts from, and the state left by `readByte`,
by `getLen`, by the loop of `consume` after any number of rounds, by
`readUint16`, by the assignment `d.ref = d.dpos - uint32(back)` and by a call
of `cp` that returns, each made on such a state.  Every state a run of
`Decode` goes through between these operations is among them. -/
inductive Reach (dst : Option (List Byte)) (src : List Byte) : decoder → Prop
  | start : Reach dst src (start dst src)
  | readByte {d d1 : decoder} {r : Byte × Option Error} :
      Reach dst src d → d.readByte = Exec.ret (r, d1) → Reach dst src d1
  | getLen {d d1 : decoder} {fuel : Nat} {r : Nat × Option Error} :
      Reach dst src d → d.getLen fuel = Exec.ret (r, d1) → Reach dst src d1
  | consume {d d1 : decoder} {n : Nat} {e : Option Error} :
      Reach dst src d → decoder.consume n d = Exec.ret (e, d1) → Reach dst src d1
  | readUint16 {d d1 : decoder} {r : Nat × Option Error} :
      Reach dst src d → d.readUint16 = Exec.ret (r, d1) → Reach dst src d1
  | setRef {d : decoder} (back : Nat) :
      Reach dst src d → Reach dst src { d with ref := u32 (d.dpos + 4294967296 - back) }
  | cp {d d1 : decoder} {length k : Nat} :
      Reach dst src d → length < 4294967296 → d.cp length k = Exec.ret d1 → Reach dst src d1

/-! ## The block format, read off lists of bytes

These functions describe the input and output of the decoder without
cursors; the theorems below relate the code to them. -/

/-- The size escape as the format describes it: bytes of value 255 each
add 255, the first byte below 255 adds its value and ends the escape.  Gives
the sum and the number of bytes the escape takes, `none` when the bytes end
inside the escape. -/
def escape : List Byte → Option (Nat × Nat)
  | [] => none
  | b :: r =>
    if b.val = 255 then (escape r).map (fun p => (p.1 + 255, p.2 + 1))
    else some (b.val, 1)

/-- Byte-at-a-time copy: `n` times, append to the growing output the byte
at index `ref`, `ref + 1`, ... of that output. -/
def copyFrom (out : List Byte) (ref : Nat) : Nat → List Byte
  | 0 => out
  | n + 1 =>
    match out[ref]? with
    | some b => copyFrom (out ++ [b]) (ref + 1) n
    | none => out

/-- A 4-bit length field with its escape: the field is the length unless
it is 15, when the escape sum is added.  Gives the length and the number of
escape bytes, `none` when the bytes end inside the escape. -/
def field (nib : Nat) (rest : List Byte) : Option (Nat × Nat) :=
  if nib = 15 then (escape rest).map (fun p => (15 + p.1, p.2)) else some (nib, 0)

/-- How the bytes left in the input read as the first half of a sequence. -/
inductive LitParse where
  | eof : LitParse
  | corrupt : LitParse
  | ok (code : Byte) (lits : List Byte) (used : Nat) : LitParse
  deriving DecidableEq, Repr

/-- The first half of a sequence: control byte, literal length (as the
`uint32` the code computes), literal bytes.  `eof` when no byte is left,
`corrupt` when the bytes end inside the escape or the literals, else the
control byte, the literals and the number of bytes taken. -/
def parseLit : List Byte → LitParse
  | [] => LitParse.eof
  | c :: r =>
    match field (c.val / 16) r with
    | none => LitParse.corrupt
    | some (n, h) =>
      if u32 n ≤ r.length - h then LitParse.ok c ((r.drop h).take (u32 n)) (1 + h + u32 n)
      else LitParse.corrupt

/-- How the bytes left after the literals read as the second half of a
sequence. -/
inductive RefParse where
  | eof : RefParse
  | half : RefParse
  | corrupt : RefParse
  | ok (offset : Nat) (length : Nat) (used : Nat) : RefParse
  deriving DecidableEq, Repr

/-- The second half of a sequence: the little-endian offset and the match
length field of control byte `c` (as the `uint32` the code computes).  `eof`
when no byte is left, `half` when one byte is, `corrupt` when the bytes end
inside the escape. -/
def parseRef (c : Byte) : List Byte → RefParse
  | [] => RefParse.eof
  | [_] => RefParse.half
  | b1 :: b2 :: r =>
    match field (c.val % 16) r with
    | none => RefParse.corrupt
    | some (m, h) => RefParse.ok (b1.val + 256 * b2.val) (u32 m) (2 + h)

/-- The escape bytes of a value `n`: `n / 255` bytes of value 255, then one
byte `n % 255`. -/
def lenBytes (n : Nat) : List Byte :=
  List.replicate (n / 255) 255 ++ [⟨n % 255, by omega⟩]

/-- The bytes that follow a 4-bit field for a length `n`: nothing below 15
(the field holds `n`), else the escape bytes of `n - 15` (the field is 15). -/
def lenField (n : Nat) : List Byte :=
  if 15 ≤ n then lenBytes (n - 15) else []

/-- Where a block ends, read by the format: after complete sequences
(`complete`, the last one possibly without offset and match), or inside the
literal-length escape, the literal bytes, the two offset bytes or the
match-length escape; `badOffset` when an offset is 0 or larger than the
output produced so far. -/
inductive Shape where
  | complete
  | inLitLen
  | inLiterals
  | inOffset
  | inMatchLen
  | badOffset
  deriving DecidableEq, Repr

/-- Read a block sequence by sequence as the format describes it, with
unbounded lengths: control byte, literal length, literals, offset, match
length; a match adds its length field plus 4 bytes to the output.  The
first argument bounds the number of sequences, the second is the output
length so far.  Gives the shape of the block and the output length its
sequences call for. -/
def scanAux : Nat → Nat → List Byte → Shape × Nat
  | 0, out, _ => (Shape.complete, out)
  | _ + 1, out, [] => (Shape.complete, out)
  | f + 1, out, c :: r =>
    match field (c.val / 16) r with
    | none => (Shape.inLitLen, out)
    | some (n, h) =>
      if r.length - h < n then (Shape.inLiterals, out + n)
      else
        match r.drop (h + n) with
        | [] => (Shape.complete, out + n)
        | [_] => (Shape.inOffset, out + n)
        | b1 :: b2 :: r2 =>
          if b1.val + 256 * b2.val = 0 ∨ out + n < b1.val + 256 * b2.val then
            (Shape.badOffset, out + n)
          else
            match field (c.val % 16) r2 with
            | none => (Shape.inMatchLen, out + n)
            | some (m, k) => scanAux f (out + n + (m + 4)) (r2.drop k)

/-- The shape of a block and the output length it calls for. -/
def scan (src : List Byte) : Shape × Nat := scanAux (src.length + 1) 0 src

/-- The invariant of the decoder between two passes of the loop, for an
input below `2^32` bytes: the read cursor is inside the input and `dpos`
is the output length as a `uint32`. -/
def decoder.wf (d : decoder) : Prop :=
  d.spos ≤ d.src.length ∧ d.src.length < 4294967296 ∧ d.dpos = u32 d.dst.length

instance decoder.wf.decidable (d : decoder) : Decidable d.wf := by
  unfold decoder.wf
  infer_instance

/-! ## Inputs that reach the limits of the `uint32` cursors -/

/-- A run of `2^32 + 14` literal bytes of value 0. -/
def bigLiterals : List Byte := List.replicate 4294967310 0

/-- The literal-only block for `bigLiterals`: control byte `0xF0`, the
escape bytes of its length, the literals. -/
def bigLiteralBlock : List Byte := (0xF0 : Byte) :: (lenField bigLiterals.length ++ bigLiterals)

/-- The bytes of one sequence: the control byte `c`, the escape bytes of
the literal length, the literals `L`, the two offset bytes, and what follows
the offset (`T`, for a whole sequence the escape bytes of the match
length). -/
def seqBytes (c : Byte) (L : List Byte) (b1 b2 : Byte) (T : List Byte) : List Byte :=
  c :: (lenField L.length ++ (L ++ b1 :: b2 :: T))

/-- A far match whose length `2^32 + 14` does not fit a `uint32`: literals
`1 2 3 4`, offset 4, match-length nibble 15 with the escape bytes of
`2^32 - 1`. -/
def farOverflowBlock : List Byte := seqBytes 0x4F [1, 2, 3, 4] 4 0 (lenField 4294967310)

/-- A near match whose length `2^32 + 14` does not fit a `uint32`: the
literal `88`, offset 1, match-length nibble 15 with the escape bytes of
`2^32 - 1`. -/
def nearOverflowBlock : List Byte := seqBytes 0x1F [88] 1 0 (lenField 4294967310)

/-- An input of `2^32` bytes, all of value 255. -/
def allFF : List Byte := List.replicate 4294967296 255

/-- A block that announces `2^32 + 14` literals (control byte `0xF0`, the
escape bytes of `2^32 - 1`) and holds only 14 of them. -/
def bigLitCut : List Byte := (0xF0 : Byte) :: (lenField 4294967310 ++ List.replicate 14 0)

/-- An input of `2^32 + 1` bytes: `2^32 - 1` bytes of value 0, then the two
bytes `1 2`. -/
def wrapInput : List Byte := List.replicate 4294967295 0 ++ [1, 2]

/-! ## Outcomes and `uint32` arithmetic -/

@[simp] theorem Exec.ret_bind {α β : Type} (a : α) (f : α → Exec β) :
    (Exec.ret a).bind f = f a := rfl

@[simp] theorem Exec.panic_bind {α β : Type} (f : α → Exec β) :
    (Exec.panic : Exec α).bind f = Exec.panic := rfl

@[simp] theorem Exec.timeout_bind {α β : Type} (f : α → Exec β) :
    (Exec.timeout : Exec α).bind f = Exec.timeout := rfl

theorem Exec.bind_eq_ret {α β : Type} (x : Exec α) (f : α → Exec β) (b : β) :
    x.bind f = Exec.ret b ↔ ∃ a, x = Exec.ret a ∧ f a = Exec.ret b := by
  cases x <;> simp

theorem Exec.bind_eq_timeout {α β : Type} (x : Exec α) (f : α → Exec β) :
    x.bind f = Exec.timeout ↔ x = Exec.timeout ∨ ∃ a, x = Exec.ret a ∧ f a = Exec.timeout := by
  cases x <;> simp

theorem u32_lt (n : Nat) : u32 n < 4294967296 := Nat.mod_lt _ (by decide)

theorem u32_of_lt {n : Nat} (h : n < 4294967296) : u32 n = n := Nat.mod_eq_of_lt h

theorem u32_add_left (a b : Nat) : u32 (u32 a + b) = u32 (a + b) := by
  unfold u32; omega

theorem u32_add_right (a b : Nat) : u32 (a + u32 b) = u32 (a + b) := by
  unfold u32; omega

theorem u32_sub_of_le {a b : Nat} (h : b ≤ a) (ha : a < 4294967296) :
    u32 (a + 4294967296 - b) = a - b := by
  unfold u32; omega

theorem runMask_eq : runMask = 15 := by decide

theorem mlMask_eq : mlMask = 15 := by decide

theorem shr_mlBits (c : Byte) : c.val >>> mlBits = c.val / 16 := by
  simp [mlBits, Nat.shiftRight_eq_div_pow]

theorem and_mlMask (c : Byte) : c.val &&& mlMask = c.val % 16 := by
  rw [mlMask_eq]
  exact Nat.and_pow_two_sub_one_eq_mod c.val 4

theorem le16 (b1 b2 : Byte) : (b2.val <<< 8) ||| b1.val = b1.val + 256 * b2.val := by
  have h := Nat.mul_add_lt_is_or (show b1.val < 2 ^ 8 from b1.isLt) b2.val
  rw [Nat.shiftLeft_eq, Nat.mul_comm, ← h]
  omega

/-! ## `readByte` -/

theorem drop_cons_facts {l : List Byte} {n : Nat} {b : Byte} {r : List Byte}
    (h : l.drop n = b :: r) : n < l.length ∧ l[n]? = some b ∧ l.drop (n + 1) = r := by
  have hlt : n < l.length := by
    by_contra hc
    rw [List.drop_of_length_le (by omega)] at h
    exact List.noConfusion h
  refine ⟨hlt, ?_, ?_⟩
  · have := List.getElem?_drop (L := l) (i := n) (j := 0)
    rw [h] at this
    simpa using this.symm
  · have h2 : l.drop (n + 1) = (l.drop n).drop 1 := by
      simp [List.drop_drop, Nat.add_comm]
    rw [h2, h]; rfl

theorem readByte_eof (d : decoder) (h : d.spos = d.src.length) :
    d.readByte = Exec.ret ((0, some Error.EOF), d) := by
  simp [decoder.readByte, h]

theorem readByte_cons (d : decoder) (b : Byte) (r : List Byte)
    (h : d.src.drop d.spos = b :: r) (hb : d.spos + 1 < 4294967296) :
    d.readByte = Exec.ret ((b, none), { d with spos := d.spos + 1 }) := by
  obtain ⟨hlt, hget, -⟩ := drop_cons_facts h
  have hne : d.spos ≠ d.src.length := by omega
  simp only [decoder.readByte, hne, if_false, hget, u32_of_lt hb]

/-- A successful `readByte` never reports an error other than `io.EOF`. -/
theorem readByte_err (d : decoder) (b : Byte) (e : Error) (d1 : decoder)
    (h : d.readByte = Exec.ret ((b, some e), d1)) : e = Error.EOF ∧ d1 = d := by
  unfold decoder.readByte at h
  split at h
  · simp only [Exec.ret.injEq, Prod.mk.injEq, Option.some.injEq] at h
    exact ⟨h.1.2.symm, h.2.symm⟩
  · split at h <;> simp at h

theorem finish_cases (d : decoder) (e : Option Error) :
    d.finish e = none ∨ d.finish e = some Error.ErrCorrupt := by
  rcases e with _ | e
  · left; rfl
  · cases e
    · left; rfl
    · right; rfl

/-! ## `getLen` -/

theorem escape_pos {r : List Byte} {v c : Nat} (h : escape r = some (v, c)) :
    1 ≤ c ∧ c ≤ r.length := by
  induction r generalizing v c with
  | nil => simp [escape] at h
  | cons b r ih =>
    unfold escape at h
    split at h
    · rcases he : escape r with _ | ⟨v1, c1⟩
      · simp [he] at h
      · simp only [he, Option.map_some', Option.some.injEq, Prod.mk.injEq] at h
        have := ih he
        simp only [List.length_cons]
        omega
    · simp only [Option.some.injEq, Prod.mk.injEq] at h
      simp only [List.length_cons]
      omega

theorem getLenLoop_some (r : List Byte) : ∀ (d : decoder) (acc : Nat) (ln : Byte) (fuel v c : Nat),
    d.src.drop d.spos = r → escape (ln :: r) = some (v, c) → c ≤ fuel + 1 →
    d.spos + c ≤ 4294967296 →
    decoder.getLenLoop fuel d acc ln
      = Exec.ret ((u32 (acc + v), none), { d with spos := d.spos + (c - 1) }) := by
  induction r with
  | nil =>
    intro d acc ln fuel v c hr he hf hb
    unfold escape at he
    by_cases hln : ln.val = 255
    · simp [hln, escape] at he
    · simp only [hln, if_false, Option.some.injEq, Prod.mk.injEq] at he
      obtain ⟨rfl, rfl⟩ := he
      cases fuel <;> simp [decoder.getLenLoop, hln]
  | cons b r ih =>
    intro d acc ln fuel v c hr he hf hb
    unfold escape at he
    by_cases hln : ln.val = 255
    · simp only [hln, if_true] at he
      rcases he2 : escape (b :: r) with _ | ⟨v1, c1⟩
      · simp [he2] at he
      · simp only [he2, Option.map_some', Option.some.injEq, Prod.mk.injEq] at he
        obtain ⟨rfl, rfl⟩ := he
        have hc1 := escape_pos he2
        obtain ⟨-, -, hdrop⟩ := drop_cons_facts hr
        cases fuel with
        | zero => omega
        | succ f =>
          have hrb := readByte_cons d b r hr (by omega)
          simp only [decoder.getLenLoop, hln, if_true, hrb, Exec.ret_bind]
          rw [ih { d with spos := d.spos + 1 } (u32 (acc + 255)) b f v1 c1 hdrop he2
            (by omega) (by simp only; omega)]
          have e1 : acc + 255 + v1 = acc + (v1 + 255) := by omega
          have e2 : d.spos + 1 + (c1 - 1) = d.spos + (c1 + 1 - 1) := by omega
          simp only [u32_add_left, e1, e2]
    · simp only [hln, if_false, Option.some.injEq, Prod.mk.injEq] at he
      obtain ⟨rfl, rfl⟩ := he
      cases fuel <;> simp [decoder.getLenLoop, hln]

theorem getLenLoop_none (r : List Byte) : ∀ (d : decoder) (acc : Nat) (ln : Byte) (fuel : Nat),
    d.src.drop d.spos = r → escape (ln :: r) = none → r.length < fuel →
    d.spos + r.length = d.src.length → d.src.length < 4294967296 →
    decoder.getLenLoop fuel d acc ln
      = Exec.ret ((0, some Error.ErrCorrupt), { d with spos := d.src.length }) := by
  induction r with
  | nil =>
    intro d acc ln fuel hr he hf hp hl
    unfold escape at he
    by_cases hln : ln.val = 255
    · have hs : d.spos = d.src.length := by simpa using hp
      have hd : ({ d with spos := d.src.length } : decoder) = d := by
        cases d; simp_all
      cases fuel with
      | zero => simp at hf
      | succ f =>
        simp only [decoder.getLenLoop, hln, if_true, readByte_eof d hs, Exec.ret_bind, hd]
    · simp [hln] at he
  | cons b r ih =>
    intro d acc ln fuel hr he hf hp hl
    unfold escape at he
    by_cases hln : ln.val = 255
    · simp only [hln, if_true, Option.map_eq_none'] at he
      obtain ⟨-, -, hdrop⟩ := drop_cons_facts hr
      simp only [List.length_cons] at hf hp
      cases fuel with
      | zero => omega
      | succ f =>
        have hrb := readByte_cons d b r hr (by omega)
        simp only [decoder.getLenLoop, hln, if_true, hrb, Exec.ret_bind]
        rw [ih { d with spos := d.spos + 1 } (u32 (acc + 255)) b f hdrop he (by omega)
          (by simp only; omega) hl]
    · simp [hln] at he

theorem getLen_some (d : decoder) (rest : List Byte) (fuel v c : Nat)
    (hr : d.src.drop d.spos = rest) (he : escape rest = some (v, c)) (hf : c ≤ fuel + 1)
    (hb : d.spos + c < 4294967296) :
    d.getLen fuel = Exec.ret ((u32 v, none), { d with spos := d.spos + c }) := by
  have hc := escape_pos he
  cases rest with
  | nil => simp [escape] at he
  | cons b r =>
    obtain ⟨-, -, hdrop⟩ := drop_cons_facts hr
    have hrb := readByte_cons d b r hr (by omega)
    simp only [decoder.getLen, hrb, Exec.ret_bind]
    rw [getLenLoop_some r { d with spos := d.spos + 1 } 0 b fuel v c hdrop he hf
      (by simp only; omega)]
    have e2 : d.spos + 1 + (c - 1) = d.spos + c := by omega
    simp only [Nat.zero_add, e2]

theorem getLen_none (d : decoder) (rest : List Byte) (fuel : Nat)
    (hr : d.src.drop d.spos = rest) (he : escape rest = none) (hf : rest.length ≤ fuel)
    (hp : d.spos + rest.length = d.src.length) (hl : d.src.length < 4294967296) :
    d.getLen fuel = Exec.ret ((0, some Error.ErrCorrupt), { d with spos := d.src.length }) := by
  cases rest with
  | nil =>
    have hs : d.spos = d.src.length := by simpa using hp
    have hd : ({ d with spos := d.src.length } : decoder) = d := by
      cases d; simp_all
    simp only [decoder.getLen, readByte_eof d hs, Exec.ret_bind, hd]
  | cons b r =>
    obtain ⟨-, -, hdrop⟩ := drop_cons_facts hr
    simp only [List.length_cons] at hf hp
    have hrb := readByte_cons d b r hr (by omega)
    simp only [decoder.getLen, hrb, Exec.ret_bind]
    rw [getLenLoop_none r { d with spos := d.spos + 1 } 0 b fuel hdrop he (by omega)
      (by simp only; omega) hl]

/-! ## `consume` -/

theorem consume_ok : ∀ (n : Nat) (d : decoder) (rest : List Byte),
    d.src.drop d.spos = rest → n ≤ rest.length → d.spos + n < 4294967296 →
    d.dpos < 4294967296 →
    decoder.consume n d = Exec.ret (none,
      { d with spos := d.spos + n, dst := d.dst ++ rest.take n, dpos := u32 (d.dpos + n) }) := by
  intro n
  induction n with
  | zero =>
    intro d rest _ _ _ hd
    simp only [decoder.consume, Nat.add_zero, List.take_zero, List.append_nil, u32_of_lt hd]
  | succ n ih =>
    intro d rest hr hn hb hd
    cases rest with
    | nil => simp at hn
    | cons b r =>
      obtain ⟨-, -, hdrop⟩ := drop_cons_facts hr
      simp only [List.length_cons] at hn
      have hrb := readByte_cons d b r hr (by omega)
      simp only [decoder.consume, hrb, Exec.ret_bind]
      rw [ih _ r hdrop (by omega) (by simp only; omega) (u32_lt _)]
      have e1 : d.spos + 1 + n = d.spos + (n + 1) := by omega
      have e2 : d.dpos + 1 + n = d.dpos + (n + 1) := by omega
      simp only [u32_add_left, e1, e2, List.take_succ_cons, List.append_assoc,
        List.singleton_append]

theorem consume_short : ∀ (n : Nat) (d : decoder) (rest : List Byte),
    d.src.drop d.spos = rest → rest.length < n → d.spos + rest.length = d.src.length →
    d.src.length < 4294967296 →
    ∃ d1, decoder.consume n d = Exec.ret (some Error.ErrCorrupt, d1) := by
  intro n
  induction n with
  | zero => intro d rest _ hn; simp at hn
  | succ n ih =>
    intro d rest hr hn hp hl
    cases rest with
    | nil =>
      have hs : d.spos = d.src.length := by simpa using hp
      exact ⟨d, by simp only [decoder.consume, readByte_eof d hs, Exec.ret_bind]⟩
    | cons b r =>
      obtain ⟨-, -, hdrop⟩ := drop_cons_facts hr
      simp only [List.length_cons] at hn hp
      have hrb := readByte_cons d b r hr (by omega)
      simp only [decoder.consume, hrb, Exec.ret_bind]
      exact ih _ r hdrop (by omega) (by simp only; omega) hl

/-! ## `readUint16` -/

theorem readUint16_nil (d : decoder) (h : d.spos = d.src.length) :
    d.readUint16 = Exec.ret ((0, some Error.EOF), d) := by
  simp only [decoder.readUint16, readByte_eof d h, Exec.ret_bind]

theorem readUint16_one (d : decoder) (b : Byte) (hr : d.src.drop d.spos = [b])
    (hl : d.src.length < 4294967296) :
    d.readUint16 = Exec.ret ((0, some Error.ErrCorrupt), { d with spos := d.spos + 1 }) := by
  obtain ⟨hlt, -, hdrop⟩ := drop_cons_facts hr
  have hrb := readByte_cons d b [] hr (by omega)
  have hlen : (d.src.drop (d.spos + 1)).length = 0 := by rw [hdrop]; rfl
  rw [List.length_drop] at hlen
  have h2 := readByte_eof { d with spos := d.spos + 1 } (by simp only; omega)
  simp only [decoder.readUint16, hrb, Exec.ret_bind, h2]

theorem readUint16_two (d : decoder) (b1 b2 : Byte) (r : List Byte)
    (hr : d.src.drop d.spos = b1 :: b2 :: r) (hb : d.spos + 2 < 4294967296) :
    d.readUint16 = Exec.ret ((b1.val + 256 * b2.val, none), { d with spos := d.spos + 2 }) := by
  obtain ⟨-, -, hdrop⟩ := drop_cons_facts hr
  have hrb := readByte_cons d b1 (b2 :: r) hr (by omega)
  have h2 := readByte_cons { d with spos := d.spos + 1 } b2 r hdrop (by simp only; omega)
  simp only [decoder.readUint16, hrb, Exec.ret_bind, h2, le16]

/-! ## `cp` and the byte-at-a-time copy -/

theorem copyFrom_length : ∀ (n : Nat) (out : List Byte) (ref : Nat), ref < out.length →
    (copyFrom out ref n).length = out.length + n := by
  intro n
  induction n with
  | zero => intro out ref _; rfl
  | succ n ih =>
    intro out ref h
    have hg : out[ref]? = some out[ref] := List.getElem?_eq_getElem h
    simp only [copyFrom, hg]
    rw [ih _ _ (by simp only [List.length_append, List.length_singleton]; omega)]
    simp only [List.length_append, List.length_singleton]
    omega

theorem copyFrom_get_lt : ∀ (n : Nat) (out : List Byte) (ref i : Nat), i < out.length →
    (copyFrom out ref n)[i]? = out[i]? := by
  intro n
  induction n with
  | zero => intro out ref i _; rfl
  | succ n ih =>
    intro out ref i h
    simp only [copyFrom]
    split
    · rw [ih _ _ i (by simp only [List.length_append, List.length_singleton]; omega)]
      exact List.getElem?_append_left h
    · rfl

/-- Each byte the copy appends equals the byte `out.length - ref` places
before it in the result. -/
theorem copyFrom_get : ∀ (n : Nat) (out : List Byte) (ref p : Nat), ref < out.length → p < n →
    (copyFrom out ref n)[out.length + p]? = (copyFrom out ref n)[ref + p]? := by
  intro n
  induction n with
  | zero => intro out ref p _ hp; omega
  | succ n ih =>
    intro out ref p h hp
    have hg : out[ref]? = some out[ref] := List.getElem?_eq_getElem h
    simp only [copyFrom, hg]
    have hl : (out ++ [out[ref]]).length = out.length + 1 := by simp
    cases p with
    | zero =>
      rw [copyFrom_get_lt _ _ _ _ (by omega), copyFrom_get_lt _ _ _ _ (by omega)]
      simp only [Nat.add_zero]
      rw [List.getElem?_append_left h, hg]
      simp
    | succ p =>
      have := ih (out ++ [out[ref]]) (ref + 1) p (by omega) (by omega)
      rw [hl] at this
      have e1 : out.length + (p + 1) = out.length + 1 + p := by omega
      have e2 : ref + (p + 1) = ref + 1 + p := by omega
      rw [e1, e2]
      exact this

/-- The copy only appends. -/
theorem copyFrom_append : ∀ (n : Nat) (out : List Byte) (ref : Nat),
    ∃ M, copyFrom out ref n = out ++ M := by
  intro n
  induction n with
  | zero => intro out ref; exact ⟨[], by simp [copyFrom]⟩
  | succ n ih =>
    intro out ref
    simp only [copyFrom]
    split
    · rename_i b _
      obtain ⟨M, hM⟩ := ih (out ++ [b]) (ref + 1)
      exact ⟨b :: M, by rw [hM]; simp⟩
    · exact ⟨[], by simp⟩

/-- When the source range lies inside the output, the byte-at-a-time copy
is the append of that slice. -/
theorem copyFrom_bulk : ∀ (n : Nat) (out : List Byte) (ref : Nat), ref + n ≤ out.length →
    copyFrom out ref n = out ++ (out.drop ref).take n := by
  intro n
  induction n with
  | zero => intro out ref _; simp [copyFrom]
  | succ n ih =>
    intro out ref h
    have hlt : ref < out.length := by omega
    have hg : out[ref]? = some out[ref] := List.getElem?_eq_getElem hlt
    simp only [copyFrom, hg]
    rw [ih _ _ (by simp only [List.length_append, List.length_singleton]; omega)]
    have hd : out.drop ref = out[ref] :: out.drop (ref + 1) := by
      rw [List.drop_eq_getElem_cons hlt]
    rw [hd, List.take_succ_cons, List.drop_append_of_le_length (by omega),
      List.take_append_of_le_length (by rw [List.length_drop]; omega)]
    simp

theorem cpLoop_eq : ∀ (n ii : Nat) (d : decoder),
    (n = 0 ∨ d.ref + ii < d.dst.length) → d.ref + ii + n ≤ 4294967296 →
    decoder.cpLoop n ii d = Exec.ret { d with dst := copyFrom d.dst (d.ref + ii) n } := by
  intro n
  induction n with
  | zero => intro ii d _ _; simp [decoder.cpLoop, copyFrom]
  | succ n ih =>
    intro ii d h hb
    have hlt : d.ref + ii < d.dst.length := by
      rcases h with h | h
      · omega
      · exact h
    have hg : d.dst[d.ref + ii]? = some d.dst[d.ref + ii] := List.getElem?_eq_getElem hlt
    have hu : u32 (d.ref + ii) = d.ref + ii := u32_of_lt (by omega)
    simp only [decoder.cpLoop, hu, hg, copyFrom]
    rw [ih (ii + 1) _ (Or.inr (by simp only [List.length_append, List.length_singleton]; omega))
      (by simp only; omega)]
    simp only [Nat.add_assoc]

theorem cpLoop_panic (n ii : Nat) (d : decoder) (h : d.dst.length ≤ u32 (d.ref + ii)) :
    decoder.cpLoop (n + 1) ii d = Exec.panic := by
  have hg : d.dst[u32 (d.ref + ii)]? = none := List.getElem?_eq_none h
  simp only [decoder.cpLoop, hg]

/-- What `cp` does when its reads are in range: the byte-at-a-time copy. -/
theorem cp_eq (d : decoder) (length k : Nat) (h : length = 0 ∨ d.ref < d.dst.length)
    (hb : d.ref + length < 4294967296) :
    d.cp length k = Exec.ret { d with
      dst := copyFrom d.dst d.ref length,
      dpos := u32 (d.dpos + length),
      ref := u32 (d.ref + u32 (length + 4294967296 - k)) } := by
  have hu : u32 (d.ref + length) = d.ref + length := u32_of_lt hb
  unfold decoder.cp
  rw [hu]
  by_cases hc : d.ref + length < d.dst.length
  · have hle : d.ref ≤ d.ref + length := by omega
    simp only [hc, if_true, hle, Exec.ret_bind, Nat.add_sub_cancel_left]
    rw [copyFrom_bulk _ _ _ (by omega)]
  · simp only [hc, if_false]
    have := cpLoop_eq length 0 d (by simpa using h) (by omega)
    rw [this]
    simp only [Nat.add_zero, Exec.ret_bind]

/-- An index `ref` at or past the end of the output makes `cp` panic. -/
theorem cp_panic (d : decoder) (length k : Nat) (hl : 0 < length)
    (h : d.dst.length ≤ d.ref) (hr : d.ref < 4294967296) (hlen : length < 4294967296) :
    d.cp length k = Exec.panic := by
  unfold decoder.cp
  by_cases hc : u32 (d.ref + length) < d.dst.length
  · have hnle : ¬ d.ref ≤ u32 (d.ref + length) := by omega
    simp only [hc, if_true, hnle, if_false, Exec.panic_bind]
  · simp only [hc, if_false]
    obtain ⟨n, rfl⟩ : ∃ n, length = n + 1 := ⟨length - 1, by omega⟩
    rw [cpLoop_panic n 0 d (by rw [Nat.add_zero, u32_of_lt hr]; exact h)]
    rfl

/-! ## The two halves of the loop body -/

theorem drop_add_of_drop {l r : List Byte} {a : Nat} (k : Nat) (h : l.drop a = r) :
    l.drop (a + k) = r.drop k := by
  rw [← h, List.drop_drop, Nat.add_comm]

theorem literals_eof (d : decoder) (fuel : Nat) (h : d.spos = d.src.length) :
    d.literals fuel = Exec.ret (Sum.inl (some d.dst, none)) := by
  simp only [decoder.literals, readByte_eof d h, Exec.ret_bind, decoder.finish]

theorem literals_ok (d : decoder) (fuel : Nat) (c : Byte) (r : List Byte) (n h : Nat)
    (hr : d.src.drop d.spos = c :: r) (hfield : field (c.val / 16) r = some (n, h))
    (hn : u32 n ≤ r.length - h) (hf : h ≤ fuel + 1)
    (hb : d.spos + (1 + h + u32 n) < 4294967296) (hd : d.dpos < 4294967296) :
    d.literals fuel = Exec.ret (Sum.inr (c, { d with
      spos := d.spos + (1 + h + u32 n),
      dst := d.dst ++ (r.drop h).take (u32 n),
      dpos := u32 (d.dpos + u32 n) })) := by
  obtain ⟨-, -, hdrop⟩ := drop_cons_facts hr
  have hrb := readByte_cons d c r hr (by omega)
  simp only [decoder.literals, hrb, Exec.ret_bind, shr_mlBits, runMask_eq]
  unfold field at hfield
  by_cases hc : c.val / 16 = 15
  · simp only [hc, if_true] at hfield ⊢
    rcases he : escape r with _ | ⟨v, k⟩
    · simp [he] at hfield
    · simp only [he, Option.map_some', Option.some.injEq, Prod.mk.injEq] at hfield
      obtain ⟨rfl, rfl⟩ := hfield
      rw [getLen_some { d with spos := d.spos + 1 } r fuel v k hdrop he hf (by simp only; omega)]
      simp only [Exec.ret_bind]
      rw [u32_add_right 15 v]
      rw [consume_ok (u32 (15 + v)) { d with spos := d.spos + 1 + k } (r.drop k)
        (drop_add_of_drop k hdrop)
        (by rw [List.length_drop]; exact hn) (by simp only; omega) hd]
      simp only [Exec.ret_bind]
      have e : d.spos + 1 + k + u32 (15 + v) = d.spos + (1 + k + u32 (15 + v)) := by omega
      rw [e]
  · simp only [hc, if_false, Option.some.injEq, Prod.mk.injEq] at hfield ⊢
    obtain ⟨rfl, rfl⟩ := hfield
    have hlt : c.val / 16 < 4294967296 := by have := c.isLt; omega
    rw [u32_of_lt hlt] at hn hb ⊢
    simp only [Exec.ret_bind]
    rw [consume_ok (c.val / 16) { d with spos := d.spos + 1 } r hdrop (by simpa using hn)
      (by simp only; omega) hd]
    simp only [Exec.ret_bind, List.drop_zero]
    have e : d.spos + 1 + c.val / 16 = d.spos + (1 + 0 + c.val / 16) := by omega
    rw [e]

theorem literals_corrupt (d : decoder) (fuel : Nat) (c : Byte) (r : List Byte)
    (hr : d.src.drop d.spos = c :: r) (hp : parseLit (c :: r) = LitParse.corrupt)
    (hl : d.src.length < 4294967296) (hf : r.length ≤ fuel) :
    d.literals fuel = Exec.ret (Sum.inl (none, some Error.ErrCorrupt)) := by
  obtain ⟨hlt, -, hdrop⟩ := drop_cons_facts hr
  have hlen : (d.src.drop d.spos).length = r.length + 1 := by rw [hr]; rfl
  rw [List.length_drop] at hlen
  have hrb := readByte_cons d c r hr (by omega)
  simp only [decoder.literals, hrb, Exec.ret_bind, shr_mlBits, runMask_eq]
  unfold parseLit field at hp
  by_cases hc : c.val / 16 = 15
  · simp only [hc, if_true] at hp ⊢
    rcases he : escape r with _ | ⟨v, k⟩
    · rw [getLen_none { d with spos := d.spos + 1 } r fuel hdrop he hf (by simp only; omega) hl]
      simp only [Exec.ret_bind]
    · have hk := escape_pos he
      simp only [he, Option.map_some'] at hp
      split at hp
      · exact LitParse.noConfusion hp
      · rename_i hn
        rw [getLen_some { d with spos := d.spos + 1 } r fuel v k hdrop he (by omega)
          (by simp only; omega)]
        simp only [Exec.ret_bind]
        rw [u32_add_right 15 v]
        obtain ⟨d1, h1⟩ := consume_short (u32 (15 + v))
          { d with spos := d.spos + 1 + k } (r.drop k)
          (drop_add_of_drop k hdrop)
          (by rw [List.length_drop]; omega)
          (by simp only [List.length_drop]; omega) hl
        rw [h1]
        simp only [Exec.ret_bind]
  · simp only [hc, if_false] at hp ⊢
    split at hp
    · exact LitParse.noConfusion hp
    · rename_i hn
      have hlt2 : c.val / 16 < 4294967296 := by have := c.isLt; omega
      rw [u32_of_lt hlt2] at hn
      simp only [Exec.ret_bind]
      obtain ⟨d1, h1⟩ := consume_short (c.val / 16) { d with spos := d.spos + 1 } r hdrop
        (by omega) (by simp only; omega) hl
      rw [h1]
      simp only [Exec.ret_bind]

/-- The first half of the loop body, read off the bytes left in the input. -/
theorem literals_eq (d : decoder) (fuel : Nat) (rest : List Byte)
    (hr : d.src.drop d.spos = rest) (hs : d.spos ≤ d.src.length)
    (hl : d.src.length < 4294967296) (hd : d.dpos < 4294967296) (hf : rest.length ≤ fuel) :
    d.literals fuel =
      match parseLit rest with
      | LitParse.eof => Exec.ret (Sum.inl (some d.dst, none))
      | LitParse.corrupt => Exec.ret (Sum.inl (none, some Error.ErrCorrupt))
      | LitParse.ok c lits used => Exec.ret (Sum.inr (c, { d with
          spos := d.spos + used, dst := d.dst ++ lits, dpos := u32 (d.dpos + lits.length) })) := by
  cases rest with
  | nil =>
    have hlen : (d.src.drop d.spos).length = 0 := by rw [hr]; rfl
    rw [List.length_drop] at hlen
    simp only [parseLit]
    exact literals_eof d fuel (by omega)
  | cons c r =>
    have hlen : (d.src.drop d.spos).length = r.length + 1 := by rw [hr]; rfl
    rw [List.length_drop] at hlen
    simp only [List.length_cons] at hf
    rcases hp : parseLit (c :: r) with _ | _ | ⟨c1, lits, used⟩
    · simp [parseLit] at hp
      split at hp <;> try split at hp
      all_goals simp at hp
    · simp only
      exact literals_corrupt d fuel c r hr hp hl (by omega)
    · simp only
      unfold parseLit at hp
      rcases hfield : field (c.val / 16) r with _ | ⟨n, h⟩
      · simp [hfield] at hp
      · simp only [hfield] at hp
        split at hp
        · rename_i hn
          simp only [LitParse.ok.injEq] at hp
          obtain ⟨rfl, rfl, rfl⟩ := hp
          have hh : h ≤ r.length := by
            unfold field at hfield
            split at hfield
            · rcases he : escape r with _ | ⟨v, k⟩
              · simp [he] at hfield
              · simp only [he, Option.map_some', Option.some.injEq, Prod.mk.injEq] at hfield
                have := escape_pos he
                omega
            · simp only [Option.some.injEq, Prod.mk.injEq] at hfield
              omega
          rw [literals_ok d fuel c r n h hr hfield hn (by omega) (by omega) hd]
          have hlen2 : ((r.drop h).take (u32 n)).length = u32 n := by
            rw [List.length_take, List.length_drop]; omega
          rw [hlen2]
        · exact LitParse.noConfusion hp

theorem backref_eof (d : decoder) (code : Byte) (fuel : Nat) (h : d.spos = d.src.length) :
    d.backref code fuel = Exec.ret (Sum.inl (some d.dst, none)) := by
  simp only [decoder.backref, readUint16_nil d h, Exec.ret_bind, decoder.finish]

theorem backref_half (d : decoder) (code : Byte) (fuel : Nat) (b : Byte)
    (hr : d.src.drop d.spos = [b]) (hl : d.src.length < 4294967296) :
    d.backref code fuel = Exec.ret (Sum.inl (some d.dst, some Error.ErrCorrupt)) := by
  simp only [decoder.backref, readUint16_one d b hr hl, Exec.ret_bind, decoder.finish]

theorem backref_ok (d : decoder) (code : Byte) (fuel : Nat) (b1 b2 : Byte) (r : List Byte)
    (m h : Nat) (hr : d.src.drop d.spos = b1 :: b2 :: r)
    (hfield : field (code.val % 16) r = some (m, h)) (hf : h ≤ fuel + 1)
    (hb : d.spos + (2 + h) < 4294967296) :
    d.backref code fuel =
      (decoder.expand { d with spos := d.spos + (2 + h),
                               ref := u32 (d.dpos + 4294967296 - (b1.val + 256 * b2.val)) }
        (u32 m)).bind fun d4 => Exec.ret (Sum.inr d4) := by
  have hdrop : d.src.drop (d.spos + 2) = r := by
    rw [drop_add_of_drop 2 hr]; rfl
  simp only [decoder.backref, readUint16_two d b1 b2 r hr (by omega), Exec.ret_bind,
    and_mlMask]
  simp only [mlMask_eq]
  unfold field at hfield
  by_cases hc : code.val % 16 = 15
  · simp only [hc, if_true] at hfield ⊢
    rcases he : escape r with _ | ⟨v, k⟩
    · simp [he] at hfield
    · simp only [he, Option.map_some', Option.some.injEq, Prod.mk.injEq] at hfield
      obtain ⟨rfl, rfl⟩ := hfield
      have hg := getLen_some
        (decoder.mk d.src d.dst (d.spos + 2) d.dpos
          (u32 (d.dpos + 4294967296 - (b1.val + 256 * b2.val))))
        r fuel v k hdrop he hf (by simp only; omega)
      rw [hg]
      simp only [Exec.ret_bind]
      rw [u32_add_right 15 v]
      have e : d.spos + 2 + k = d.spos + (2 + k) := by omega
      rw [e]
  · simp only [hc, if_false, Option.some.injEq, Prod.mk.injEq] at hfield ⊢
    obtain ⟨rfl, rfl⟩ := hfield
    have hlt : code.val % 16 < 4294967296 := by omega
    rw [u32_of_lt hlt]
    simp only [Exec.ret_bind, Nat.add_zero]

theorem backref_corrupt (d : decoder) (code : Byte) (fuel : Nat) (b1 b2 : Byte) (r : List Byte)
    (hr : d.src.drop d.spos = b1 :: b2 :: r)
    (hfield : field (code.val % 16) r = none) (hf : r.length ≤ fuel)
    (hl : d.src.length < 4294967296) :
    d.backref code fuel = Exec.ret (Sum.inl (none, some Error.ErrCorrupt)) := by
  have hdrop : d.src.drop (d.spos + 2) = r := by
    rw [drop_add_of_drop 2 hr]; rfl
  have hlen : (d.src.drop d.spos).length = r.length + 2 := by rw [hr]; rfl
  rw [List.length_drop] at hlen
  simp only [decoder.backref, readUint16_two d b1 b2 r hr (by omega), Exec.ret_bind,
    and_mlMask]
  simp only [mlMask_eq]
  unfold field at hfield
  by_cases hc : code.val % 16 = 15
  · simp only [hc, if_true, Option.map_eq_none'] at hfield ⊢
    have hg := getLen_none
      (decoder.mk d.src d.dst (d.spos + 2) d.dpos
        (u32 (d.dpos + 4294967296 - (b1.val + 256 * b2.val))))
      r fuel hdrop hfield hf (by simp only; omega) hl
    rw [hg]
    simp only [Exec.ret_bind]
  · simp [hc] at hfield

/-- The second half of the loop body, read off the bytes left in the input. -/
theorem backref_eq (d : decoder) (code : Byte) (fuel : Nat) (rest : List Byte)
    (hr : d.src.drop d.spos = rest) (hs : d.spos ≤ d.src.length)
    (hl : d.src.length < 4294967296) (hf : rest.length ≤ fuel) :
    d.backref code fuel =
      match parseRef code rest with
      | RefParse.eof => Exec.ret (Sum.inl (some d.dst, none))
      | RefParse.half => Exec.ret (Sum.inl (some d.dst, some Error.ErrCorrupt))
      | RefParse.corrupt => Exec.ret (Sum.inl (none, some Error.ErrCorrupt))
      | RefParse.ok o m used =>
        (decoder.expand { d with spos := d.spos + used,
                                 ref := u32 (d.dpos + 4294967296 - o) } m).bind
          fun d4 => Exec.ret (Sum.inr d4) := by
  have hlen : (d.src.drop d.spos).length = rest.length := by rw [hr]
  rw [List.length_drop] at hlen
  match rest, hr, hf, hlen with
  | [], hr, hf, hlen =>
    simp only [parseRef]
    exact backref_eof d code fuel (by simp only [List.length_nil] at hlen; omega)
  | [b], hr, hf, hlen =>
    simp only [parseRef]
    exact backref_half d code fuel b hr hl
  | b1 :: b2 :: r, hr, hf, hlen =>
    simp only [List.length_cons] at hf hlen
    simp only [parseRef]
    rcases hfield : field (code.val % 16) r with _ | ⟨m, h⟩
    · simp only
      exact backref_corrupt d code fuel b1 b2 r hr hfield (by omega) hl
    · simp only
      have hh : h ≤ r.length := by
        unfold field at hfield
        split at hfield
        · rcases he : escape r with _ | ⟨v, k⟩
          · simp [he] at hfield
          · simp only [he, Option.map_some', Option.some.injEq, Prod.mk.injEq] at hfield
            have := escape_pos he
            omega
        · simp only [Option.some.injEq, Prod.mk.injEq] at hfield
          omega
      exact backref_ok d code fuel b1 b2 r m h hr hfield (by omega) (by omega)

/-! ## `expand`: the match copy -/

theorem decr_cases {o k : Nat} (h1 : 1 ≤ o) (h3 : o ≤ 3) (hk : decr[o]? = some k) :
    (o = 1 ∧ k = 3) ∨ (o = 2 ∧ k = 2) ∨ (o = 3 ∧ k = 3) := by
  have : o = 1 ∨ o = 2 ∨ o = 3 := by omega
  rcases this with rfl | rfl | rfl <;> simp [decr] at hk <;> omega

/-- A match at distance 4 or more: one copy of `length + 4` bytes. -/
theorem expand_far (d : decoder) (length o : Nat) (hd : d.dpos = d.dst.length)
    (href : d.ref = d.dst.length - o) (ho : 4 ≤ o) (ho2 : o ≤ d.dst.length)
    (hb : d.dst.length + length + 4 < 4294967296) :
    d.expand length = Exec.ret { d with
      dst := copyFrom d.dst (d.dst.length - o) (length + 4),
      dpos := d.dst.length + (length + 4),
      ref := d.dst.length - o + (length + 4) } := by
  have hlit : u32 (d.dpos + 4294967296 - d.ref) = o := by
    rw [hd, href]; unfold u32; omega
  have hnl : ¬ o < 4 := by omega
  have hu : u32 (length + 4) = length + 4 := u32_of_lt (by omega)
  simp only [decoder.expand, hlit, hnl, if_false, Exec.ret_bind, hu]
  rw [cp_eq d (length + 4) 0 (Or.inr (by omega)) (by omega)]
  have e1 : u32 (d.dpos + (length + 4)) = d.dst.length + (length + 4) := by
    rw [hd]; exact u32_of_lt (by omega)
  have e2 : u32 (d.ref + u32 (length + 4 + 4294967296 - 0)) = d.dst.length - o + (length + 4) := by
    rw [href]; unfold u32; omega
  rw [e1, e2, href]

/-- A match at distance 1, 2 or 3: the fix-up copy of 4 bytes, then a copy
of `length` bytes from the corrected index. -/
theorem expand_near (d : decoder) (length o k : Nat) (hd : d.dpos = d.dst.length)
    (href : d.ref = d.dst.length - o) (ho : 1 ≤ o) (ho3 : o ≤ 3) (ho2 : o ≤ d.dst.length)
    (hk : decr[o]? = some k) (hb : d.dst.length + length + 4 < 4294967296) :
    d.expand length = Exec.ret { d with
      dst := copyFrom (copyFrom d.dst (d.dst.length - o) 4) (d.dst.length - o + (4 - k)) length,
      dpos := d.dst.length + 4 + length,
      ref := d.dst.length - o + (4 - k) + length } := by
  have hlit : u32 (d.dpos + 4294967296 - d.ref) = o := by
    rw [hd, href]; unfold u32; omega
  have hl : o < 4 := by omega
  have hk4 : k ≤ 3 := by rcases decr_cases ho ho3 hk with h | h | h <;> omega
  simp only [decoder.expand, hlit, hl, if_true, hk, Exec.ret_bind]
  rw [cp_eq d 4 k (Or.inr (by omega)) (by omega)]
  simp only [Exec.ret_bind]
  have e1 : u32 (d.dpos + 4) = d.dst.length + 4 := by
    rw [hd]; exact u32_of_lt (by omega)
  have e2 : u32 (d.ref + u32 (4 + 4294967296 - k)) = d.dst.length - o + (4 - k) := by
    rw [href]; unfold u32; omega
  rw [e1, e2, href]
  have hlen1 : (copyFrom d.dst (d.dst.length - o) 4).length = d.dst.length + 4 :=
    copyFrom_length 4 d.dst _ (by omega)
  rw [cp_eq _ length 0 (Or.inr (by simp only; rw [hlen1]; omega)) (by simp only; omega)]
  simp only
  have e3 : u32 (d.dst.length + 4 + length) = d.dst.length + 4 + length :=
    u32_of_lt (by omega)
  have e4 : u32 (d.dst.length - o + (4 - k) + u32 (length + 4294967296 - 0))
      = d.dst.length - o + (4 - k) + length := by
    unfold u32; omega
  rw [e3, e4]

/-- An offset that is 0 or reaches before the start of the output makes the
copy read out of range. -/
theorem expand_bad (d : decoder) (length o : Nat) (hd : d.dpos = d.dst.length)
    (href : d.ref = u32 (d.dpos + 4294967296 - o)) (ho : o = 0 ∨ d.dst.length < o)
    (ho16 : o < 65536) (hb : d.dst.length + length + 4 < 4294967296) :
    d.expand length = Exec.panic := by
  have hrlt : d.ref < 4294967296 := by rw [href]; exact u32_lt _
  have hlit : u32 (d.dpos + 4294967296 - d.ref) = o := by
    rw [href, hd]; unfold u32; omega
  have hge : d.dst.length ≤ d.ref := by
    rw [href, hd]; unfold u32; omega
  simp only [decoder.expand, hlit]
  by_cases hl : o < 4
  · simp only [hl, if_true]
    have : o = 0 ∨ o = 1 ∨ o = 2 ∨ o = 3 := by omega
    rcases this with rfl | rfl | rfl | rfl <;>
      simp [decr, cp_panic d 4 _ (by omega) hge hrlt (by omega)]
  · simp only [hl, if_false, Exec.ret_bind]
    have hu : u32 (length + 4) = length + 4 := u32_of_lt (by omega)
    rw [hu]
    exact cp_panic d (length + 4) 0 (by omega) hge hrlt (by omega)

/-! ## Periodicity of the copied bytes -/

theorem far_periodic (dst : List Byte) (o n : Nat) (ho : 1 ≤ o) (ho2 : o ≤ dst.length) :
    (copyFrom dst (dst.length - o) n).length = dst.length + n ∧
    ∀ p, p < n → (copyFrom dst (dst.length - o) n)[dst.length + p]?
      = (copyFrom dst (dst.length - o) n)[dst.length + p - o]? := by
  refine ⟨copyFrom_length n dst _ (by omega), ?_⟩
  intro p hp
  rw [copyFrom_get n dst _ p (by omega) hp]
  congr 1
  omega

theorem near_periodic (dst : List Byte) (o k n : Nat) (ho : 1 ≤ o) (ho3 : o ≤ 3)
    (hk : decr[o]? = some k) (ho2 : o ≤ dst.length) :
    (copyFrom (copyFrom dst (dst.length - o) 4) (dst.length - o + (4 - k)) n).length
      = dst.length + 4 + n ∧
    ∀ p, p < 4 + n →
      (copyFrom (copyFrom dst (dst.length - o) 4) (dst.length - o + (4 - k)) n)[dst.length + p]?
      = (copyFrom (copyFrom dst (dst.length - o) 4) (dst.length - o + (4 - k)) n)[dst.length + p - o]? := by
  have hlen1 : (copyFrom dst (dst.length - o) 4).length = dst.length + 4 :=
    copyFrom_length 4 dst _ (by omega)
  have hk4 := decr_cases ho ho3 hk
  have hlen2 : (copyFrom (copyFrom dst (dst.length - o) 4) (dst.length - o + (4 - k)) n).length
      = dst.length + 4 + n := by
    rw [copyFrom_length n _ _ (by rw [hlen1]; omega), hlen1]
  refine ⟨hlen2, ?_⟩
  generalize hout : copyFrom (copyFrom dst (dst.length - o) 4) (dst.length - o + (4 - k)) n = out
  have hfirst : ∀ p, p < 4 → out[dst.length + p]? = out[dst.length + p - o]? := by
    intro p hp
    rw [← hout, copyFrom_get_lt n _ _ _ (by rw [hlen1]; omega),
      copyFrom_get_lt n _ _ _ (by rw [hlen1]; omega),
      copyFrom_get 4 dst _ p (by omega) hp]
    congr 1
    omega
  have hlater : ∀ q, q < n → out[dst.length + 4 + q]? = out[dst.length - o + (4 - k) + q]? := by
    intro q hq
    have := copyFrom_get n (copyFrom dst (dst.length - o) 4) (dst.length - o + (4 - k)) q
      (by rw [hlen1]; omega) hq
    rw [hlen1, hout] at this
    exact this
  intro p
  induction p using Nat.strong_induction_on with
  | _ p ih =>
    intro hp
    by_cases h4 : p < 4
    · exact hfirst p h4
    · obtain ⟨q, rfl⟩ : ∃ q, p = 4 + q := ⟨p - 4, by omega⟩
      have hq : q < n := by omega
      have hl := hlater q hq
      have e0 : dst.length + (4 + q) = dst.length + 4 + q := by omega
      rcases hk4 with ⟨rfl, rfl⟩ | ⟨rfl, rfl⟩ | ⟨rfl, rfl⟩
      · have h1 := ih (4 + q - 1) (by omega) (by omega)
        have h2 := ih (4 + q - 2) (by omega) (by omega)
        have h3 := ih (4 + q - 3) (by omega) (by omega)
        calc out[dst.length + (4 + q)]?
            = out[dst.length - 1 + (4 - 3) + q]? := by rw [e0]; exact hl
          _ = out[dst.length + (4 + q - 3) - 1]? := by congr 1; omega
          _ = out[dst.length + (4 + q - 3)]? := h3.symm
          _ = out[dst.length + (4 + q - 2) - 1]? := by congr 1; omega
          _ = out[dst.length + (4 + q - 2)]? := h2.symm
          _ = out[dst.length + (4 + q - 1) - 1]? := by congr 1; omega
          _ = out[dst.length + (4 + q - 1)]? := h1.symm
          _ = out[dst.length + (4 + q) - 1]? := by congr 1; omega
      · have h1 := ih (4 + q - 2) (by omega) (by omega)
        calc out[dst.length + (4 + q)]?
            = out[dst.length - 2 + (4 - 2) + q]? := by rw [e0]; exact hl
          _ = out[dst.length + (4 + q - 2) - 2]? := by congr 1; omega
          _ = out[dst.length + (4 + q - 2)]? := h1.symm
          _ = out[dst.length + (4 + q) - 2]? := by congr 1; omega
      · have h1 := ih (4 + q - 3) (by omega) (by omega)
        calc out[dst.length + (4 + q)]?
            = out[dst.length - 3 + (4 - 3) + q]? := by rw [e0]; exact hl
          _ = out[dst.length + (4 + q - 3) - 3]? := by congr 1; omega
          _ = out[dst.length + (4 + q - 3)]? := h1.symm
          _ = out[dst.length + (4 + q) - 3]? := by congr 1; omega

/-! ## What `cp` and `expand` leave alone -/

theorem cpLoop_frame : ∀ (n ii : Nat) (d d1 : decoder), decoder.cpLoop n ii d = Exec.ret d1 →
    d1.src = d.src ∧ d1.spos = d.spos ∧ d1.dpos = d.dpos ∧ d1.ref = d.ref ∧
    ∃ M, d1.dst = d.dst ++ M ∧ M.length = n := by
  intro n
  induction n with
  | zero =>
    intro ii d d1 h
    simp only [decoder.cpLoop, Exec.ret.injEq] at h
    subst h
    exact ⟨rfl, rfl, rfl, rfl, [], by simp, rfl⟩
  | succ n ih =>
    intro ii d d1 h
    simp only [decoder.cpLoop] at h
    split at h
    · exact Exec.noConfusion h
    · rename_i b _
      obtain ⟨h1, h2, h3, h4, M, h5, h6⟩ := ih _ _ _ h
      exact ⟨h1, h2, h3, h4, b :: M, by rw [h5]; simp, by simp [h6]⟩

theorem cpLoop_ne_timeout : ∀ (n ii : Nat) (d : decoder),
    decoder.cpLoop n ii d ≠ Exec.timeout := by
  intro n
  induction n with
  | zero => intro ii d h; simp [decoder.cpLoop] at h
  | succ n ih =>
    intro ii d h
    simp only [decoder.cpLoop] at h
    split at h
    · exact Exec.noConfusion h
    · exact ih _ _ h

/-- A `cp` that returns has appended exactly `length` bytes and moved
`dpos` by `length`; it touches neither the input nor `spos`. -/
theorem cp_frame (d d1 : decoder) (length k : Nat) (h : d.cp length k = Exec.ret d1)
    (hr : d.ref < 4294967296) (hl : length < 4294967296) :
    d1.src = d.src ∧ d1.spos = d.spos ∧ d1.dpos = u32 (d.dpos + length) ∧
    d1.ref < 4294967296 ∧ ∃ M, d1.dst = d.dst ++ M ∧ M.length = length := by
  unfold decoder.cp at h
  rw [Exec.bind_eq_ret] at h
  obtain ⟨d0, h0, h1⟩ := h
  simp only [Exec.ret.injEq] at h1
  subst h1
  simp only
  split at h0
  · rename_i hc
    split at h0
    · rename_i hle
      simp only [Exec.ret.injEq] at h0
      subst h0
      refine ⟨rfl, rfl, rfl, u32_lt _, _, rfl, ?_⟩
      have hnw : u32 (d.ref + length) = d.ref + length := by
        unfold u32 at hle ⊢; omega
      rw [hnw] at hc
      rw [List.length_take, List.length_drop, hnw]
      omega
    · exact Exec.noConfusion h0
  · obtain ⟨h1, h2, h3, h4, M, h5, h6⟩ := cpLoop_frame _ _ _ _ h0
    exact ⟨h1, h2, by rw [h3], u32_lt _, M, h5, h6⟩

theorem cp_ne_timeout (d : decoder) (length k : Nat) : d.cp length k ≠ Exec.timeout := by
  unfold decoder.cp
  intro h
  rw [Exec.bind_eq_timeout] at h
  rcases h with h | ⟨a, -, h⟩
  · split at h
    · split at h <;> exact Exec.noConfusion h
    · exact cpLoop_ne_timeout _ _ _ h
  · exact Exec.noConfusion h

/-- An `expand` that returns has only appended to the output; it touches
neither the input nor `spos`, and `dpos` follows the output length. -/
theorem expand_frame (d d1 : decoder) (length : Nat) (h : d.expand length = Exec.ret d1)
    (hr : d.ref < 4294967296) (hl : length < 4294967296) :
    d1.src = d.src ∧ d1.spos = d.spos ∧ d1.dpos < 4294967296 ∧
    ∃ M, d1.dst = d.dst ++ M ∧ d1.dpos = u32 (d.dpos + M.length) := by
  unfold decoder.expand at h
  rw [Exec.bind_eq_ret] at h
  obtain ⟨p, hp, hcp⟩ := h
  split at hp
  · split at hp
    · exact Exec.noConfusion hp
    · rename_i k _
      rw [Exec.bind_eq_ret] at hp
      obtain ⟨d3, h3, hp⟩ := hp
      simp only [Exec.ret.injEq] at hp
      subst hp
      obtain ⟨a1, a2, a3, a4, M1, a5, a6⟩ := cp_frame d d3 4 k h3 hr (by omega)
      obtain ⟨b1, b2, b3, -, M2, b5, b6⟩ := cp_frame d3 d1 length 0 hcp a4 hl
      refine ⟨by rw [b1, a1], by rw [b2, a2], by rw [b3]; exact u32_lt _, M1 ++ M2,
        by rw [b5, a5, List.append_assoc], ?_⟩
      rw [b3, a3, List.length_append, a6, b6, u32_add_left, Nat.add_assoc]
  · simp only [Exec.ret.injEq] at hp
    subst hp
    obtain ⟨b1, b2, b3, -, M2, b5, b6⟩ := cp_frame d d1 (u32 (length + 4)) 0 hcp hr (u32_lt _)
    exact ⟨b1, b2, by rw [b3]; exact u32_lt _, M2, b5, by rw [b3, b6]⟩

theorem expand_ne_timeout (d : decoder) (length : Nat) : d.expand length ≠ Exec.timeout := by
  unfold decoder.expand
  intro h
  rw [Exec.bind_eq_timeout] at h
  rcases h with h | ⟨a, -, h⟩
  · split at h
    · split at h
      · exact Exec.noConfusion h
      · rw [Exec.bind_eq_timeout] at h
        rcases h with h | ⟨a, -, h⟩
        · exact cp_ne_timeout _ _ _ h
        · exact Exec.noConfusion h
    · exact Exec.noConfusion h
  · exact cp_ne_timeout _ _ _ h

/-! ## The loop body, read off the bytes left in the input -/

theorem field_count_le {nib : Nat} {r : List Byte} {n h : Nat}
    (hf : field nib r = some (n, h)) : h ≤ r.length := by
  unfold field at hf
  split at hf
  · rcases he : escape r with _ | ⟨v, k⟩
    · simp [he] at hf
    · simp only [he, Option.map_some', Option.some.injEq, Prod.mk.injEq] at hf
      have := escape_pos he
      omega
  · simp only [Option.some.injEq, Prod.mk.injEq] at hf
    omega

theorem parseLit_ok {rest : List Byte} {c : Byte} {lits : List Byte} {used : Nat}
    (hp : parseLit rest = LitParse.ok c lits used) :
    1 ≤ used ∧ used ≤ rest.length ∧ lits.length ≤ used - 1 ∧
    ∃ r n h, rest = c :: r ∧ field (c.val / 16) r = some (n, h) ∧ u32 n ≤ r.length - h ∧
      used = 1 + h + u32 n ∧ lits = (r.drop h).take (u32 n) ∧ lits.length = u32 n := by
  cases rest with
  | nil => simp [parseLit] at hp
  | cons c0 r =>
    unfold parseLit at hp
    rcases hfield : field (c0.val / 16) r with _ | ⟨n, h⟩
    · simp [hfield] at hp
    · simp only [hfield] at hp
      split at hp
      · rename_i hn
        simp only [LitParse.ok.injEq] at hp
        obtain ⟨rfl, rfl, rfl⟩ := hp
        have hh := field_count_le hfield
        have hlen2 : ((r.drop h).take (u32 n)).length = u32 n := by
          rw [List.length_take, List.length_drop]; omega
        refine ⟨by omega, by simp only [List.length_cons]; omega, by rw [hlen2]; omega,
          r, n, h, rfl, hfield, hn, rfl, rfl, hlen2⟩
      · exact LitParse.noConfusion hp

theorem parseRef_ok {c : Byte} {rest : List Byte} {o m used : Nat}
    (hp : parseRef c rest = RefParse.ok o m used) :
    2 ≤ used ∧ used ≤ rest.length ∧ o < 65536 ∧ m < 4294967296 ∧
    ∃ b1 b2 r m0 h, rest = b1 :: b2 :: r ∧ o = b1.val + 256 * b2.val ∧
      field (c.val % 16) r = some (m0, h) ∧ m = u32 m0 ∧ used = 2 + h := by
  match rest, hp with
  | [], hp => simp [parseRef] at hp
  | [_], hp => simp [parseRef] at hp
  | b1 :: b2 :: r, hp =>
    unfold parseRef at hp
    rcases hfield : field (c.val % 16) r with _ | ⟨m0, h⟩
    · simp [hfield] at hp
    · simp only [hfield, RefParse.ok.injEq] at hp
      obtain ⟨rfl, rfl, rfl⟩ := hp
      have hh := field_count_le hfield
      have h1 := b1.isLt
      have h2 := b2.isLt
      refine ⟨by omega, by simp only [List.length_cons]; omega, by omega, u32_lt _,
        b1, b2, r, m0, h, rfl, rfl, hfield, rfl, rfl⟩

/-- One pass through the loop body, read off the bytes left in the input:
the parse decides how `Decode` goes on, `expand` does the copy. -/
theorem iteration_eq (d : decoder) (fuel : Nat) (rest : List Byte)
    (hr : d.src.drop d.spos = rest) (hs : d.spos ≤ d.src.length)
    (hl : d.src.length < 4294967296) (hd : d.dpos < 4294967296) (hf : rest.length ≤ fuel) :
    d.iteration fuel =
      match parseLit rest with
      | LitParse.eof => Exec.ret (Sum.inl (some d.dst, none))
      | LitParse.corrupt => Exec.ret (Sum.inl (none, some Error.ErrCorrupt))
      | LitParse.ok c lits used =>
        match parseRef c (rest.drop used) with
        | RefParse.eof => Exec.ret (Sum.inl (some (d.dst ++ lits), none))
        | RefParse.half => Exec.ret (Sum.inl (some (d.dst ++ lits), some Error.ErrCorrupt))
        | RefParse.corrupt => Exec.ret (Sum.inl (none, some Error.ErrCorrupt))
        | RefParse.ok o m used2 =>
          (decoder.expand
            (decoder.mk d.src (d.dst ++ lits) (d.spos + used + used2)
              (u32 (d.dpos + lits.length))
              (u32 (u32 (d.dpos + lits.length) + 4294967296 - o))) m).bind
            fun d4 => Exec.ret (Sum.inr d4) := by
  have hlen : (d.src.drop d.spos).length = rest.length := by rw [hr]
  rw [List.length_drop] at hlen
  unfold decoder.iteration
  rw [literals_eq d fuel rest hr hs hl hd hf]
  rcases hp : parseLit rest with _ | _ | ⟨c, lits, used⟩
  · simp only [Exec.ret_bind]
  · simp only [Exec.ret_bind]
  · simp only [Exec.ret_bind]
    obtain ⟨hu1, hu2, -, -⟩ := parseLit_ok hp
    rw [backref_eq (decoder.mk d.src (d.dst ++ lits) (d.spos + used) (u32 (d.dpos + lits.length))
        d.ref) c fuel (rest.drop used) (drop_add_of_drop used hr) (by simp only; omega) hl
      (by rw [List.length_drop]; omega)]

/-! ## The loop -/

theorem DecodeLoop_succ (fuel : Nat) (d : decoder) :
    DecodeLoop (fuel + 1) d = (d.iteration fuel).bind fun n =>
      match n with
      | Sum.inl res => Exec.ret res
      | Sum.inr d1 => DecodeLoop fuel d1 := rfl

theorem start_eq (dst : Option (List Byte)) (src : List Byte) :
    start dst src = decoder.mk src [] 0 0 0 := by
  simp [start]

theorem literals_err (d : decoder) (fuel : Nat) (out : Option (List Byte)) (err : Option Error)
    (h : d.literals fuel = Exec.ret (Sum.inl (out, err))) :
    err = none ∨ err = some Error.ErrCorrupt := by
  unfold decoder.literals at h
  rw [Exec.bind_eq_ret] at h
  obtain ⟨r, -, h⟩ := h
  split at h
  · simp only [Exec.ret.injEq, Sum.inl.injEq, Prod.mk.injEq] at h
    rw [← h.2]
    exact finish_cases _ _
  · rw [Exec.bind_eq_ret] at h
    obtain ⟨l, hl, h⟩ := h
    split at h
    · rename_i res
      simp only [Exec.ret.injEq, Sum.inl.injEq] at h
      subst h
      split at hl
      · rw [Exec.bind_eq_ret] at hl
        obtain ⟨g, -, hl⟩ := hl
        split at hl
        · simp only [Exec.ret.injEq, Sum.inl.injEq, Prod.mk.injEq] at hl
          right; exact hl.2.symm
        · simp at hl
      · simp at hl
    · rw [Exec.bind_eq_ret] at h
      obtain ⟨c, -, h⟩ := h
      split at h
      · simp only [Exec.ret.injEq, Sum.inl.injEq, Prod.mk.injEq] at h
        right; exact h.2.symm
      · simp at h

theorem backref_err (d : decoder) (code : Byte) (fuel : Nat) (out : Option (List Byte))
    (err : Option Error) (h : d.backref code fuel = Exec.ret (Sum.inl (out, err))) :
    err = none ∨ err = some Error.ErrCorrupt := by
  unfold decoder.backref at h
  rw [Exec.bind_eq_ret] at h
  obtain ⟨r, -, h⟩ := h
  split at h
  · simp only [Exec.ret.injEq, Sum.inl.injEq, Prod.mk.injEq] at h
    rw [← h.2]
    exact finish_cases _ _
  · rw [Exec.bind_eq_ret] at h
    obtain ⟨l, hl, h⟩ := h
    split at h
    · rename_i res
      simp only [Exec.ret.injEq, Sum.inl.injEq] at h
      subst h
      split at hl
      · rw [Exec.bind_eq_ret] at hl
        obtain ⟨g, -, hl⟩ := hl
        split at hl
        · simp only [Exec.ret.injEq, Sum.inl.injEq, Prod.mk.injEq] at hl
          right; exact hl.2.symm
        · simp at hl
      · simp at hl
    · rw [Exec.bind_eq_ret] at h
      obtain ⟨d4, -, h⟩ := h
      simp at h

theorem iteration_err (d : decoder) (fuel : Nat) (out : Option (List Byte)) (err : Option Error)
    (h : d.iteration fuel = Exec.ret (Sum.inl (out, err))) :
    err = none ∨ err = some Error.ErrCorrupt := by
  unfold decoder.iteration at h
  rw [Exec.bind_eq_ret] at h
  obtain ⟨l, hl, h⟩ := h
  split at h
  · simp only [Exec.ret.injEq, Sum.inl.injEq] at h
    subst h
    exact literals_err d fuel out err hl
  · exact backref_err _ _ _ out err h

theorem DecodeLoop_err : ∀ (fuel : Nat) (d : decoder) (out : Option (List Byte))
    (err : Option Error), DecodeLoop fuel d = Exec.ret (out, err) →
    err = none ∨ err = some Error.ErrCorrupt := by
  intro fuel
  induction fuel with
  | zero => intro d out err h; exact Exec.noConfusion h
  | succ f ih =>
    intro d out err h
    rw [DecodeLoop_succ, Exec.bind_eq_ret] at h
    obtain ⟨n, hn, h⟩ := h
    split at h
    · simp only [Exec.ret.injEq] at h
      subst h
      exact iteration_err d f out err hn
    · exact ih _ out err h

/-! ## The parse looks only at the bytes it takes -/

theorem escape_local : ∀ (r r1 : List Byte) (v k : Nat), escape r = some (v, k) →
    r1.take k = r.take k → escape r1 = some (v, k) := by
  intro r
  induction r with
  | nil => intro r1 v k h; simp [escape] at h
  | cons b r ih =>
    intro r1 v k h ht
    unfold escape at h
    by_cases hb : b.val = 255
    · simp only [hb, if_true] at h
      rcases he : escape r with _ | ⟨v0, k0⟩
      · simp [he] at h
      · simp only [he, Option.map_some', Option.some.injEq, Prod.mk.injEq] at h
        obtain ⟨rfl, rfl⟩ := h
        cases r1 with
        | nil => simp at ht
        | cons b1 r2 =>
          simp only [List.take_succ_cons, List.cons.injEq] at ht
          obtain ⟨rfl, ht⟩ := ht
          unfold escape
          simp only [hb, if_true, ih r2 v0 k0 he ht, Option.map_some']
    · simp only [hb, if_false, Option.some.injEq, Prod.mk.injEq] at h
      obtain ⟨rfl, rfl⟩ := h
      cases r1 with
      | nil => simp at ht
      | cons b1 r2 =>
        simp only [List.take_succ_cons, List.take_zero, List.cons.injEq, and_true] at ht
        subst ht
        unfold escape
        simp only [hb, if_false]

theorem escape_cut : ∀ (r : List Byte) (v k j : Nat), escape r = some (v, k) → j < k →
    escape (r.take j) = none := by
  intro r
  induction r with
  | nil => intro v k j h; simp [escape] at h
  | cons b r ih =>
    intro v k j h hj
    cases j with
    | zero => simp [escape]
    | succ j =>
      unfold escape at h
      by_cases hb : b.val = 255
      · simp only [hb, if_true] at h
        rcases he : escape r with _ | ⟨v0, k0⟩
        · simp [he] at h
        · simp only [he, Option.map_some', Option.some.injEq, Prod.mk.injEq] at h
          obtain ⟨rfl, rfl⟩ := h
          simp only [List.take_succ_cons]
          unfold escape
          simp only [hb, if_true, ih v0 k0 j he (by omega), Option.map_none']
      · simp only [hb, if_false, Option.some.injEq, Prod.mk.injEq] at h
        omega

theorem field_local (nib : Nat) (r r1 : List Byte) (n h : Nat) (hf : field nib r = some (n, h))
    (ht : r1.take h = r.take h) : field nib r1 = some (n, h) := by
  unfold field at hf ⊢
  by_cases hn : nib = 15
  · simp only [hn, if_true] at hf ⊢
    rcases he : escape r with _ | ⟨v, k⟩
    · simp [he] at hf
    · simp only [he, Option.map_some', Option.some.injEq, Prod.mk.injEq] at hf
      obtain ⟨rfl, rfl⟩ := hf
      simp only [escape_local r r1 v k he ht, Option.map_some']
  · simp only [hn, if_false] at hf ⊢
    exact hf

theorem field_cut (nib : Nat) (r : List Byte) (n h j : Nat) (hf : field nib r = some (n, h))
    (hj : j < h) : field nib (r.take j) = none := by
  unfold field at hf ⊢
  by_cases hn : nib = 15
  · simp only [hn, if_true] at hf ⊢
    rcases he : escape r with _ | ⟨v, k⟩
    · simp [he] at hf
    · simp only [he, Option.map_some', Option.some.injEq, Prod.mk.injEq] at hf
      obtain ⟨rfl, rfl⟩ := hf
      simp only [escape_cut r v k j he hj, Option.map_none']
  · simp only [hn, if_false, Option.some.injEq, Prod.mk.injEq] at hf
    omega

theorem take_take_le (l : List Byte) {a b : Nat} (h : a ≤ b) : (l.take b).take a = l.take a := by
  rw [List.take_take, Nat.min_eq_left h]

theorem take_eq_of_take_eq {l1 l2 : List Byte} {a b : Nat} (h : l1.take b = l2.take b)
    (hab : a ≤ b) : l1.take a = l2.take a := by
  rw [← take_take_le l1 hab, ← take_take_le l2 hab, h]

theorem drop_take_eq_of_take_eq {l1 l2 : List Byte} {a b : Nat} (h : l1.take (a + b) = l2.take (a + b)) :
    (l1.drop a).take b = (l2.drop a).take b := by
  have e1 : (l1.drop a).take b = (l1.take (a + b)).drop a := by
    rw [List.drop_take]; congr 1; omega
  have e2 : (l2.drop a).take b = (l2.take (a + b)).drop a := by
    rw [List.drop_take]; congr 1; omega
  rw [e1, e2, h]

theorem length_ge_of_take_eq {l1 l2 : List Byte} {a : Nat} (h : l1.take a = l2.take a)
    (hl : a ≤ l2.length) : a ≤ l1.length := by
  have := congrArg List.length h
  simp only [List.length_take] at this
  omega

theorem parseLit_local (rest rest1 : List Byte) (c : Byte) (lits : List Byte) (used : Nat)
    (hp : parseLit rest = LitParse.ok c lits used) (ht : rest1.take used = rest.take used) :
    parseLit rest1 = LitParse.ok c lits used := by
  obtain ⟨hu1, hu2, -, r, n, h, rfl, hfield, hn, rfl, rfl, hlen⟩ := parseLit_ok hp
  have hh := field_count_le hfield
  cases rest1 with
  | nil =>
    have := length_ge_of_take_eq ht hu2
    simp at this
  | cons c1 r1 =>
    have e : 1 + h + u32 n = (h + u32 n) + 1 := by omega
    rw [e] at ht
    simp only [List.take_succ_cons, List.cons.injEq] at ht
    obtain ⟨rfl, ht⟩ := ht
    have hlen1 : h + u32 n ≤ r1.length :=
      length_ge_of_take_eq ht (by omega)
    have hn1 : u32 n ≤ r1.length - h := by omega
    simp only [parseLit, field_local _ r r1 n h hfield (take_eq_of_take_eq ht (by omega)),
      hn1, if_true, drop_take_eq_of_take_eq ht]

theorem parseLit_cut (rest : List Byte) (c : Byte) (lits : List Byte) (used j : Nat)
    (hp : parseLit rest = LitParse.ok c lits used) (h0 : 0 < j) (hj : j < used) :
    parseLit (rest.take j) = LitParse.corrupt := by
  obtain ⟨hu1, hu2, -, r, n, h, rfl, hfield, hn, rfl, rfl, hlen⟩ := parseLit_ok hp
  obtain ⟨i, rfl⟩ : ∃ i, j = i + 1 := ⟨j - 1, by omega⟩
  simp only [List.take_succ_cons]
  by_cases hi : i < h
  · simp only [parseLit, field_cut _ r n h i hfield hi]
  · have hh := field_count_le hfield
    have : ¬ u32 n ≤ (r.take i).length - h := by
      rw [List.length_take]; omega
    simp only [parseLit, field_local _ r (r.take i) n h hfield (take_take_le r (by omega)),
      this, if_false]

theorem parseRef_local (c : Byte) (rest rest1 : List Byte) (o m used : Nat)
    (hp : parseRef c rest = RefParse.ok o m used) (ht : rest1.take used = rest.take used) :
    parseRef c rest1 = RefParse.ok o m used := by
  obtain ⟨hu1, hu2, -, -, b1, b2, r, m0, h, rfl, rfl, hfield, rfl, rfl⟩ := parseRef_ok hp
  have e : 2 + h = h + 1 + 1 := by omega
  rw [e] at ht
  rcases rest1 with _ | ⟨a1, _ | ⟨a2, r1⟩⟩
  · simp at ht
  · simp at ht
  · simp only [List.take_succ_cons, List.cons.injEq] at ht
    obtain ⟨rfl, rfl, ht⟩ := ht
    simp only [parseRef, field_local _ r r1 m0 h hfield ht]

theorem parseRef_cut (c : Byte) (rest : List Byte) (o m used j : Nat)
    (hp : parseRef c rest = RefParse.ok o m used) (h2 : 2 ≤ j) (hj : j < used) :
    parseRef c (rest.take j) = RefParse.corrupt := by
  obtain ⟨hu1, hu2, -, -, b1, b2, r, m0, h, rfl, rfl, hfield, rfl, rfl⟩ := parseRef_ok hp
  obtain ⟨i, rfl⟩ : ∃ i, j = i + 1 + 1 := ⟨j - 2, by omega⟩
  simp only [List.take_succ_cons, parseRef, field_cut _ r m0 h i hfield (by omega)]

/-! ## More fuel does not change a run that ended -/

theorem getLenLoop_mono : ∀ (a b : Nat) (d : decoder) (acc : Nat) (ln : Byte), a ≤ b →
    decoder.getLenLoop a d acc ln ≠ Exec.timeout →
    decoder.getLenLoop b d acc ln = decoder.getLenLoop a d acc ln := by
  intro a
  induction a with
  | zero =>
    intro b d acc ln _ h
    by_cases hln : ln.val = 255
    · simp [decoder.getLenLoop, hln] at h
    · cases b <;> simp [decoder.getLenLoop, hln]
  | succ a ih =>
    intro b d acc ln hab h
    obtain ⟨b, rfl⟩ : ∃ b0, b = b0 + 1 := ⟨b - 1, by omega⟩
    by_cases hln : ln.val = 255
    · simp only [decoder.getLenLoop, hln, if_true] at h ⊢
      rcases hr : d.readByte with r | _ | _
      · simp only [hr, Exec.ret_bind] at h ⊢
        split
        · rfl
        · rename_i hnone
          simp only [hnone] at h
          exact ih b _ _ _ (by omega) h
      · rfl
      · rfl
    · simp [decoder.getLenLoop, hln]

theorem getLen_mono (a b : Nat) (d : decoder) (hab : a ≤ b)
    (h : d.getLen a ≠ Exec.timeout) : d.getLen b = d.getLen a := by
  unfold decoder.getLen at h ⊢
  rcases hr : d.readByte with r | _ | _
  · simp only [hr, Exec.ret_bind] at h ⊢
    split
    · rfl
    · rename_i hnone
      simp only [hnone] at h
      exact getLenLoop_mono a b _ _ _ hab h
  · rfl
  · rfl

theorem bind_congr_left {α β : Type} {x y : Exec α} (f : α → Exec β) (h : x = y) :
    x.bind f = y.bind f := by rw [h]

theorem bind_ne_timeout_left {α β : Type} {x : Exec α} {f : α → Exec β}
    (h : x.bind f ≠ Exec.timeout) : x ≠ Exec.timeout := by
  intro hx; rw [hx] at h; exact h rfl

theorem literals_mono (a b : Nat) (d : decoder) (hab : a ≤ b)
    (h : d.literals a ≠ Exec.timeout) : d.literals b = d.literals a := by
  unfold decoder.literals at h ⊢
  rcases hr : d.readByte with r | _ | _
  · simp only [hr, Exec.ret_bind] at h ⊢
    split
    · rfl
    · rename_i hnone
      simp only [hnone] at h
      by_cases hc : r.1.1.val >>> mlBits = runMask
      · simp only [hc, if_true] at h ⊢
        have hg : r.2.getLen a ≠ Exec.timeout :=
          bind_ne_timeout_left (bind_ne_timeout_left h)
        rw [getLen_mono a b r.2 hab hg]
      · simp only [hc, if_false]
  · rfl
  · rfl

theorem backref_mono (a b : Nat) (d : decoder) (code : Byte) (hab : a ≤ b)
    (h : d.backref code a ≠ Exec.timeout) : d.backref code b = d.backref code a := by
  unfold decoder.backref at h ⊢
  rcases hr : d.readUint16 with r | _ | _
  · simp only [hr, Exec.ret_bind] at h ⊢
    split
    · rfl
    · rename_i hnone
      simp only [hnone] at h
      by_cases hc : code.val &&& mlMask = mlMask
      · simp only [hc, if_true] at h ⊢
        have hg := bind_ne_timeout_left (bind_ne_timeout_left h)
        rw [getLen_mono a b _ hab hg]
      · simp only [hc, if_false]
  · rfl
  · rfl

theorem iteration_mono (a b : Nat) (d : decoder) (hab : a ≤ b)
    (h : d.iteration a ≠ Exec.timeout) : d.iteration b = d.iteration a := by
  unfold decoder.iteration at h ⊢
  have hl := bind_ne_timeout_left h
  rw [literals_mono a b d hab hl]
  rcases hr : d.literals a with l | _ | _
  · simp only [hr, Exec.ret_bind] at h ⊢
    split
    · rfl
    · exact backref_mono a b _ _ hab h
  · rfl
  · rfl

theorem DecodeLoop_mono : ∀ (a b : Nat) (d : decoder), a ≤ b →
    DecodeLoop a d ≠ Exec.timeout → DecodeLoop b d = DecodeLoop a d := by
  intro a
  induction a with
  | zero => intro b d _ h; exact absurd rfl h
  | succ a ih =>
    intro b d hab h
    obtain ⟨b, rfl⟩ : ∃ b0, b = b0 + 1 := ⟨b - 1, by omega⟩
    rw [DecodeLoop_succ] at h
    rw [DecodeLoop_succ, DecodeLoop_succ]
    have hi := bind_ne_timeout_left h
    rw [iteration_mono a b d (by omega) hi]
    rcases hr : d.iteration a with n | _ | _
    · simp only [hr, Exec.ret_bind] at h ⊢
      split
      · rfl
      · rename_i d1
        exact ih b d1 (by omega) h
    · rfl
    · rfl

/-- A run of `Decode` that ends (returns or panics) ends the same way
with any larger fuel. -/
theorem Decode_mono (a b : Nat) (dst : Option (List Byte)) (src : List Byte) (hab : a ≤ b)
    (h : Decode a dst src ≠ Exec.timeout) : Decode b dst src = Decode a dst src :=
  DecodeLoop_mono a b _ hab h

/-- Two runs of `Decode` on the same input that both end give the same
outcome, whatever their fuel. -/
theorem Decode_fuel_unique (a b : Nat) (dst : Option (List Byte)) (src : List Byte)
    (ha : Decode a dst src ≠ Exec.timeout) (hb : Decode b dst src ≠ Exec.timeout) :
    Decode a dst src = Decode b dst src := by
  rcases Nat.le_total a b with h | h
  · exact (Decode_mono a b dst src h ha).symm
  · exact Decode_mono b a dst src h hb

/-! ## The copy does not look at the input -/

theorem cpLoop_src (s : List Byte) : ∀ (n ii : Nat) (d : decoder),
    decoder.cpLoop n ii { d with src := s }
      = (decoder.cpLoop n ii d).bind fun d1 => Exec.ret { d1 with src := s } := by
  intro n
  induction n with
  | zero => intro ii d; rfl
  | succ n ih =>
    intro ii d
    simp only [decoder.cpLoop]
    split
    · rfl
    · rename_i b _
      exact ih (ii + 1) { d with dst := d.dst ++ [b] }

theorem cp_src (s : List Byte) (d : decoder) (length k : Nat) :
    decoder.cp { d with src := s } length k
      = (d.cp length k).bind fun d1 => Exec.ret { d1 with src := s } := by
  unfold decoder.cp
  simp only
  by_cases hc : u32 (d.ref + length) < d.dst.length
  · simp only [hc, if_true]
    by_cases hle : d.ref ≤ u32 (d.ref + length)
    · simp only [hle, if_true, Exec.ret_bind]
    · simp only [hle, if_false, Exec.panic_bind]
  · simp only [hc, if_false]
    rw [cpLoop_src s length 0 d]
    rcases decoder.cpLoop length 0 d with d1 | _ | _ <;> rfl

theorem expand_src (s : List Byte) (d : decoder) (length : Nat) :
    decoder.expand { d with src := s } length
      = (d.expand length).bind fun d1 => Exec.ret { d1 with src := s } := by
  unfold decoder.expand
  simp only
  by_cases hl : u32 (d.dpos + 4294967296 - d.ref) < 4
  · simp only [hl, if_true]
    rcases hk : decr[u32 (d.dpos + 4294967296 - d.ref)]? with _ | k
    · rfl
    · simp only
      rw [cp_src s d 4 k]
      rcases d.cp 4 k with d3 | _ | _
      · simp only [Exec.ret_bind]
        exact cp_src s d3 length 0
      · rfl
      · rfl
  · simp only [hl, if_false, Exec.ret_bind]
    exact cp_src s d (u32 (length + 4)) 0

/-! ## The invariant of the loop -/

theorem start_wf (dst : Option (List Byte)) (src : List Byte) (h : src.length < 4294967296) :
    (start dst src).wf := by
  rw [start_eq]
  exact ⟨Nat.zero_le _, h, rfl⟩

theorem wf_dpos_lt {d : decoder} (h : d.wf) : d.dpos < 4294967296 := by
  rw [h.2.2]; exact u32_lt _

theorem wf_rest_length (d : decoder) :
    (d.src.drop d.spos).length = d.src.length - d.spos := List.length_drop _ _

/-- A pass that goes round again: the parse of the bytes left gives a whole
sequence, and the new state is what `expand` returns. -/
theorem iteration_inr (d d1 : decoder) (fuel : Nat) (hw : d.wf)
    (hf : d.src.length - d.spos ≤ fuel) (h : d.iteration fuel = Exec.ret (Sum.inr d1)) :
    ∃ c lits used o m used2,
      parseLit (d.src.drop d.spos) = LitParse.ok c lits used ∧
      parseRef c ((d.src.drop d.spos).drop used) = RefParse.ok o m used2 ∧
      decoder.expand (decoder.mk d.src (d.dst ++ lits) (d.spos + used + used2)
        (u32 (d.dpos + lits.length))
        (u32 (u32 (d.dpos + lits.length) + 4294967296 - o))) m = Exec.ret d1 := by
  rw [iteration_eq d fuel _ rfl hw.1 hw.2.1 (wf_dpos_lt hw) (by rw [wf_rest_length d]; exact hf)] at h
  rcases hp : parseLit (d.src.drop d.spos) with _ | _ | ⟨c, lits, used⟩
  · simp [hp] at h
  · simp [hp] at h
  · rw [hp] at h
    simp only [] at h
    rcases hq : parseRef c ((d.src.drop d.spos).drop used) with _ | _ | _ | ⟨o, m, used2⟩
    · rw [hq] at h; simp at h
    · rw [hq] at h; simp at h
    · rw [hq] at h; simp at h
    · rw [hq] at h
      simp only [] at h
      rw [Exec.bind_eq_ret] at h
      obtain ⟨d4, h4, h⟩ := h
      simp only [Exec.ret.injEq, Sum.inr.injEq] at h
      subst h
      exact ⟨c, lits, used, o, m, used2, rfl, hq, h4⟩

/-- A pass that goes round again keeps the invariant and the input, moves
the read cursor forward by at least 3 and only appends to the output. -/
theorem iteration_wf (d d1 : decoder) (fuel : Nat) (hw : d.wf)
    (hf : d.src.length - d.spos ≤ fuel) (h : d.iteration fuel = Exec.ret (Sum.inr d1)) :
    d1.wf ∧ d1.src = d.src ∧ d.spos + 3 ≤ d1.spos ∧ ∃ M, d1.dst = d.dst ++ M := by
  obtain ⟨c, lits, used, o, m, used2, hp, hq, he⟩ := iteration_inr d d1 fuel hw hf h
  obtain ⟨hu1, hu2, -, -⟩ := parseLit_ok hp
  obtain ⟨hv1, hv2, -, hm, -⟩ := parseRef_ok hq
  rw [List.length_drop] at hv2
  rw [wf_rest_length d] at hu2 hv2
  obtain ⟨e1, e2, e3, M, e4, e5⟩ := expand_frame _ d1 m he (u32_lt _) hm
  simp only at e1 e2 e4 e5
  refine ⟨⟨?_, ?_, ?_⟩, e1, ?_, lits ++ M, ?_⟩
  · rw [e1, e2]; have := hw.1; omega
  · rw [e1]; exact hw.2.1
  · rw [e5, e4, hw.2.2]
    simp only [List.length_append]
    unfold u32; omega
  · rw [e2]; omega
  · rw [e4, List.append_assoc]

/-! ## Several passes -/

theorem iteration_fuel (d : decoder) (a b : Nat) (hw : d.wf)
    (ha : d.src.length - d.spos ≤ a) (hb : d.src.length - d.spos ≤ b) :
    d.iteration a = d.iteration b := by
  rw [iteration_eq d a _ rfl hw.1 hw.2.1 (wf_dpos_lt hw) (by rw [wf_rest_length d]; exact ha),
    iteration_eq d b _ rfl hw.1 hw.2.1 (wf_dpos_lt hw) (by rw [wf_rest_length d]; exact hb)]

theorem passes_succ_inv {fuel k : Nat} {d d1 : decoder} (h : passes fuel (k + 1) d = some d1) :
    ∃ d2, d.iteration fuel = Exec.ret (Sum.inr d2) ∧ passes fuel k d2 = some d1 := by
  simp only [passes] at h
  split at h
  · rename_i d2 hi
    exact ⟨d2, hi, h⟩
  · exact Option.noConfusion h

/-- After `k` complete passes the invariant holds, the input is the same,
the read cursor has moved by at least `3 * k` and the output has only
grown. -/
theorem passes_wf (fuel : Nat) : ∀ (k : Nat) (d d1 : decoder), d.wf →
    d.src.length - d.spos ≤ fuel → passes fuel k d = some d1 →
    d1.wf ∧ d1.src = d.src ∧ d.spos + 3 * k ≤ d1.spos ∧ ∃ M, d1.dst = d.dst ++ M := by
  intro k
  induction k with
  | zero =>
    intro d d1 hw _ h
    simp only [passes, Option.some.injEq] at h
    subst h
    exact ⟨hw, rfl, by omega, [], by simp⟩
  | succ k ih =>
    intro d d1 hw hf h
    obtain ⟨d2, hi, h2⟩ := passes_succ_inv h
    obtain ⟨w2, s2, p2, M2, m2⟩ := iteration_wf d d2 fuel hw hf hi
    obtain ⟨w1, s1, p1, M1, m1⟩ := ih d2 d1 w2 (by rw [s2]; omega) h2
    exact ⟨w1, by rw [s1, s2], by omega, M2 ++ M1, by rw [m1, m2, List.append_assoc]⟩

/-- Complete passes over an input go the same way when more bytes follow
the input. -/
theorem passes_append (fuel : Nat) (S : List Byte) : ∀ (k : Nat) (d d1 : decoder), d.wf →
    (d.src ++ S).length < 4294967296 → (d.src ++ S).length - d.spos ≤ fuel →
    passes fuel k d = some d1 →
    passes fuel k { d with src := d.src ++ S } = some { d1 with src := d.src ++ S } := by
  intro k
  induction k with
  | zero =>
    intro d d1 _ _ _ h
    simp only [passes, Option.some.injEq] at h
    subst h
    rfl
  | succ k ih =>
    intro d d1 hw hl hf h
    obtain ⟨d2, hi, h2⟩ := passes_succ_inv h
    have hlen : (d.src ++ S).length = d.src.length + S.length := List.length_append _ _
    have hf0 : d.src.length - d.spos ≤ fuel := by omega
    obtain ⟨w2, s2, p2, -⟩ := iteration_wf d d2 fuel hw hf0 hi
    obtain ⟨c, lits, used, o, m, used2, hp, hq, he⟩ := iteration_inr d d2 fuel hw hf0 hi
    obtain ⟨hu1, hu2, -, -⟩ := parseLit_ok hp
    obtain ⟨hv1, hv2, -, -, -⟩ := parseRef_ok hq
    rw [List.length_drop] at hv2
    rw [wf_rest_length d] at hu2 hv2
    have hrest : (d.src ++ S).drop d.spos = d.src.drop d.spos ++ S :=
      List.drop_append_of_le_length hw.1
    have hp1 : parseLit ((d.src ++ S).drop d.spos) = LitParse.ok c lits used := by
      rw [hrest]
      exact parseLit_local _ _ c lits used hp
        (List.take_append_of_le_length (by rw [wf_rest_length d]; exact hu2))
    have hrest2 : ((d.src ++ S).drop d.spos).drop used = (d.src.drop d.spos).drop used ++ S := by
      rw [hrest]
      exact List.drop_append_of_le_length (by rw [wf_rest_length d]; exact hu2)
    have hq1 : parseRef c (((d.src ++ S).drop d.spos).drop used) = RefParse.ok o m used2 := by
      rw [hrest2]
      exact parseRef_local c _ _ o m used2 hq
        (List.take_append_of_le_length (by rw [List.length_drop, wf_rest_length d]; exact hv2))
    have hit : decoder.iteration { d with src := d.src ++ S } fuel
        = Exec.ret (Sum.inr { d2 with src := d.src ++ S }) := by
      rw [iteration_eq { d with src := d.src ++ S } fuel _ rfl (by simp only; have := hw.1; omega)
        hl (by simp only; exact wf_dpos_lt hw) (by simp only [List.length_drop]; exact hf)]
      simp only
      rw [hp1]
      simp only
      rw [hq1]
      simp only
      have := expand_src (d.src ++ S) (decoder.mk d.src (d.dst ++ lits) (d.spos + used + used2)
        (u32 (d.dpos + lits.length)) (u32 (u32 (d.dpos + lits.length) + 4294967296 - o))) m
      simp only at this
      rw [this, he]
      rfl
    simp only [passes, hit]
    have := ih d2 d1 w2 (by rw [s2]; exact hl) (by rw [s2]; omega) h2
    rw [s2] at this
    exact this

/-- Running the loop after `k` complete passes is running it from the
state they reach. -/
theorem DecodeLoop_passes (g : Nat) : ∀ (k F : Nat) (d d1 : decoder), d.wf →
    d.src.length - d.spos ≤ g → d.src.length - d.spos < F → passes g k d = some d1 →
    DecodeLoop F d = DecodeLoop (F - k) d1 := by
  intro k
  induction k with
  | zero =>
    intro F d d1 _ _ _ h
    simp only [passes, Option.some.injEq] at h
    subst h
    rfl
  | succ k ih =>
    intro F d d1 hw hg hF h
    obtain ⟨d2, hi, h2⟩ := passes_succ_inv h
    obtain ⟨w2, s2, p2, -⟩ := iteration_wf d d2 g hw hg hi
    obtain ⟨F, rfl⟩ : ∃ F0, F = F0 + 1 := ⟨F - 1, by omega⟩
    rw [DecodeLoop_succ, iteration_fuel d F g hw (by omega) hg, hi]
    simp only [Exec.ret_bind]
    have hs2 := w2.1
    rw [s2] at hs2
    rw [ih F d2 d1 w2 (by rw [s2]; omega) (by rw [s2]; omega) h2]
    congr 1
    omega

theorem DecodeLoop_eof (F : Nat) (d : decoder) (h : d.spos = d.src.length) :
    DecodeLoop (F + 1) d = Exec.ret (some d.dst, none) := by
  rw [DecodeLoop_succ, decoder.iteration, literals_eof d F h]
  rfl

/-! ## The bytes of a sequence -/

theorem escape_replicate (b : Byte) (t : List Byte) (hb : b.val ≠ 255) : ∀ (q : Nat),
    escape (List.replicate q (255 : Byte) ++ b :: t) = some (255 * q + b.val, q + 1) := by
  intro q
  induction q with
  | zero => simp [escape, hb]
  | succ q ih =>
    rw [List.replicate_succ, List.cons_append, escape, ih]
    have : ((255 : Byte) : Fin 256).val = 255 := rfl
    simp only [this, if_true, Option.map_some', Option.some.injEq, Prod.mk.injEq, and_true]
    omega

theorem lenBytes_length (n : Nat) : (lenBytes n).length = n / 255 + 1 := by
  simp [lenBytes]

theorem escape_lenBytes (n : Nat) (t : List Byte) :
    escape (lenBytes n ++ t) = some (n, n / 255 + 1) := by
  unfold lenBytes
  rw [List.append_assoc, List.singleton_append,
    escape_replicate ⟨n % 255, by omega⟩ t (by simp only; omega) (n / 255)]
  simp only [Option.some.injEq, Prod.mk.injEq, and_true]
  omega

theorem field_lenField (n : Nat) (t : List Byte) :
    field (min 15 n) (lenField n ++ t) = some (n, (lenField n).length) := by
  unfold field lenField
  by_cases h : 15 ≤ n
  · have hm : min 15 n = 15 := by omega
    simp only [hm, if_true, h, escape_lenBytes, Option.map_some', lenBytes_length,
      Option.some.injEq, Prod.mk.injEq, and_true]
    omega
  · have hm : min 15 n = n := by omega
    have hn : ¬ n = 15 := by omega
    simp only [hm, hn, if_false, h, List.length_nil]

theorem parseLit_seq (c : Byte) (L t : List Byte) (hc : c.val / 16 = min 15 L.length)
    (hL : L.length < 4294967296) :
    parseLit (c :: (lenField L.length ++ (L ++ t)))
      = LitParse.ok c L (1 + (lenField L.length).length + L.length) := by
  have hu : u32 L.length = L.length := u32_of_lt hL
  have hle : L.length ≤ (lenField L.length ++ (L ++ t)).length - (lenField L.length).length := by
    simp only [List.length_append]; omega
  simp only [parseLit, hc, field_lenField, hu, hle, if_true, List.drop_left,
    List.take_left]

theorem parseRef_seq (c b1 b2 : Byte) (m : Nat) (t : List Byte) (hc : c.val % 16 = min 15 m) :
    parseRef c (b1 :: b2 :: (lenField m ++ t))
      = RefParse.ok (b1.val + 256 * b2.val) (u32 m) (2 + (lenField m).length) := by
  simp only [parseRef, hc, field_lenField]

/-! ## One whole sequence, without a bound on the input length -/

theorem iteration_ok (d : decoder) (fuel : Nat) (c : Byte) (r : List Byte) (n h : Nat)
    (b1 b2 : Byte) (r2 : List Byte) (m k : Nat)
    (hr : d.src.drop d.spos = c :: r) (hfield : field (c.val / 16) r = some (n, h))
    (hn : u32 n ≤ r.length - h) (hr2 : (r.drop h).drop (u32 n) = b1 :: b2 :: r2)
    (hfield2 : field (c.val % 16) r2 = some (m, k)) (hf : h ≤ fuel + 1) (hf2 : k ≤ fuel + 1)
    (hb : d.spos + (1 + h + u32 n) + (2 + k) < 4294967296) (hd : d.dpos < 4294967296) :
    d.iteration fuel =
      (decoder.expand (decoder.mk d.src (d.dst ++ (r.drop h).take (u32 n))
        (d.spos + (1 + h + u32 n) + (2 + k)) (u32 (d.dpos + u32 n))
        (u32 (u32 (d.dpos + u32 n) + 4294967296 - (b1.val + 256 * b2.val)))) (u32 m)).bind
        fun d4 => Exec.ret (Sum.inr d4) := by
  unfold decoder.iteration
  rw [literals_ok d fuel c r n h hr hfield hn hf (by omega) hd]
  simp only [Exec.ret_bind]
  obtain ⟨-, -, hdrop⟩ := drop_cons_facts hr
  have hrest : d.src.drop (d.spos + (1 + h + u32 n)) = b1 :: b2 :: r2 := by
    have e : d.spos + (1 + h + u32 n) = d.spos + 1 + (h + u32 n) := by omega
    rw [e, drop_add_of_drop (h + u32 n) hdrop, ← hr2, List.drop_drop, Nat.add_comm]
  rw [backref_ok (decoder.mk d.src (d.dst ++ (r.drop h).take (u32 n))
      (d.spos + (1 + h + u32 n)) (u32 (d.dpos + u32 n)) d.ref) c fuel b1 b2 r2 m k hrest hfield2
      hf2 (by simp only; omega)]

/-! ## C3: the literal-only block -/

/-- C3 (amended with the size bound): the block made of a control byte
with high nibble `min(15, |L|)` and any low nibble, the escape bytes of
`|L|` when `|L| >= 15`, and the bytes of `L`, shorter than `2^32` bytes in
all, decodes to exactly `L` with a nil error. -/
theorem Decode_literal_block (L : List Byte) (c : Byte) (fuel : Nat)
    (dst : Option (List Byte)) (hc : c.val / 16 = min 15 L.length)
    (hlen : (c :: (lenField L.length ++ L)).length < 4294967296)
    (hfuel : (c :: (lenField L.length ++ L)).length < fuel) :
    Decode fuel dst (c :: (lenField L.length ++ L)) = Exec.ret (some L, none) := by
  obtain ⟨F, rfl⟩ : ∃ F, fuel = F + 1 := ⟨fuel - 1, by omega⟩
  have hw := start_wf dst _ hlen
  have hsrc : (start dst (c :: (lenField L.length ++ L))).src = c :: (lenField L.length ++ L) := by
    rw [start_eq]
  have hspos : (start dst (c :: (lenField L.length ++ L))).spos = 0 := by rw [start_eq]
  have hdst : (start dst (c :: (lenField L.length ++ L))).dst = [] := by rw [start_eq]
  have hL : L.length < 4294967296 := by
    simp only [List.length_cons, List.length_append] at hlen; omega
  have hp := parseLit_seq c L [] hc hL
  rw [List.append_nil] at hp
  unfold Decode
  rw [DecodeLoop_succ, iteration_eq _ F (c :: (lenField L.length ++ L))
    (by rw [hsrc, hspos]; rfl) hw.1 hw.2.1 (wf_dpos_lt hw) (by omega), hp]
  simp only
  have hdrop : (c :: (lenField L.length ++ L)).drop (1 + (lenField L.length).length + L.length)
      = [] := by
    apply List.drop_of_length_le
    simp only [List.length_cons, List.length_append]; omega
  rw [hdrop]
  simp only [parseRef, Exec.ret_bind, hdst, List.nil_append]

/-- Witness for C3: `0x40 'a' 'b' 'c' 'd'` decodes to `"abcd"`. -/
theorem Decode_literal_block_witness :
    Decode 6 none (0x40 :: (lenField ([97, 98, 99, 100] : List Byte).length ++ [97, 98, 99, 100]))
      = Exec.ret (some [97, 98, 99, 100], none) :=
  Decode_literal_block [97, 98, 99, 100] 0x40 6 none (by decide) (by decide) (by decide)

theorem bigLiterals_length : bigLiterals.length = 4294967310 := by
  rw [bigLiterals, List.length_replicate]

theorem lenField_big_length : (lenField 4294967310).length = 16843010 := by
  simp [lenField, lenBytes_length]

theorem bigLiteralBlock_panic (F : Nat) (hF : 16843010 ≤ F) :
    Decode (F + 1) none bigLiteralBlock = Exec.panic := by
  have hfield : field ((0xF0 : Byte).val / 16) (lenField 4294967310 ++ bigLiterals)
      = some (4294967310, 16843010) := by
    have := field_lenField 4294967310 bigLiterals
    rw [lenField_big_length] at this
    exact this
  have hu : u32 4294967310 = 14 := by decide
  have hdrop : (lenField 4294967310 ++ bigLiterals).drop 16843010 = bigLiterals := by
    rw [← lenField_big_length]; exact List.drop_left _ _
  have hrep : bigLiterals.drop 14 = 0 :: 0 :: List.replicate 4294967294 0 := by
    have e : (4294967310 - 14 : Nat) = 4294967294 + 1 + 1 := by norm_num
    rw [bigLiterals, List.drop_replicate, e, List.replicate_succ, List.replicate_succ]
  have hfield2 : field ((0xF0 : Byte).val % 16) (List.replicate 4294967294 0) = some (0, 0) := by
    have e : (0xF0 : Byte).val % 16 = 0 := by decide
    rw [e]
    rfl
  have hlenT : (List.take 14 bigLiterals).length = 14 := by
    rw [List.length_take, bigLiterals_length]; decide
  unfold Decode
  rw [start_eq, DecodeLoop_succ]
  rw [iteration_ok (decoder.mk bigLiteralBlock [] 0 0 0) F 0xF0
    (lenField 4294967310 ++ bigLiterals) 4294967310 16843010 0 0 (List.replicate 4294967294 0) 0 0
    (by simp only [List.drop_zero, bigLiteralBlock, bigLiterals_length])
    hfield
    (by rw [hu, List.length_append, lenField_big_length, bigLiterals_length]; omega)
    (by rw [hu, hdrop, hrep])
    hfield2 (by omega) (by omega)
    (by rw [hu]; show 0 + (1 + 16843010 + 14) + (2 + 0) < 4294967296; omega)
    (by show (0 : Nat) < 4294967296; omega)]
  simp only [hu, hdrop, List.nil_append]
  have hx := expand_bad (decoder.mk bigLiteralBlock (List.take 14 bigLiterals)
      (0 + (1 + 16843010 + 14) + (2 + 0)) (u32 (0 + 14))
      (u32 (u32 (0 + 14) + 4294967296 - ((0 : Byte).val + 256 * (0 : Byte).val))))
    (u32 0) ((0 : Byte).val + 256 * (0 : Byte).val)
    (by simp only [hlenT]; decide) rfl (Or.inl rfl) (by decide)
    (by simp only [hlenT]; decide)
  rw [hx]
  rfl

/-- Counterexample to C3 as stated: for the `2^32 + 14` literals of
`bigLiterals` the length wraps to 14 in `uint32`, the next two literal bytes
are read as offset 0, and `Decode` panics; no fuel makes it return the
literals. -/
theorem Decode_literal_block_overflow :
    (0xF0 : Byte).val / 16 = min 15 bigLiterals.length ∧
    bigLiteralBlock = (0xF0 : Byte) :: (lenField bigLiterals.length ++ bigLiterals) ∧
    Decode 16843011 none bigLiteralBlock = Exec.panic ∧
    ¬ ∃ fuel, Decode fuel none bigLiteralBlock = Exec.ret (some bigLiterals, none) := by
  have hp := bigLiteralBlock_panic 16843010 (Nat.le_refl _)
  refine ⟨by rw [bigLiterals_length]; decide, rfl, hp, ?_⟩
  rintro ⟨fuel, hfuel⟩
  have := Decode_fuel_unique fuel 16843011 none bigLiteralBlock (by rw [hfuel]; simp)
    (by rw [hp]; simp)
  rw [hfuel, hp] at this
  exact Exec.noConfusion this

/-! ## The last sequence of an input -/

theorem seqBytes_length (c : Byte) (L : List Byte) (b1 b2 : Byte) (T : List Byte) :
    (seqBytes c L b1 b2 T).length = 1 + (lenField L.length).length + L.length + 2 + T.length := by
  simp only [seqBytes, List.length_cons, List.length_append]
  omega

/-- The run on `P ++ S` after `k` complete passes over `P`: the loop goes on
from the state the passes reach, with `S` left to read. -/
theorem Decode_after_passes (P S O : List Byte) (k fuel : Nat) (dst : Option (List Byte))
    (d : decoder) (hpass : passes fuel k (start dst P) = some d) (hspos : d.spos = P.length)
    (hdst : d.dst = O) (hlen : (P ++ S).length < 4294967296) (hfuel : (P ++ S).length < fuel) :
    Decode fuel dst (P ++ S)
      = DecodeLoop (fuel - k) (decoder.mk (P ++ S) O P.length (u32 O.length) d.ref) ∧
    S.length < fuel - k := by
  have hl : (P ++ S).length = P.length + S.length := List.length_append _ _
  have hw0 : (start dst P).wf := start_wf dst P (by omega)
  have hsrc0 : (start dst P).src = P := by rw [start_eq]
  have hspos0 : (start dst P).spos = 0 := by rw [start_eq]
  obtain ⟨hw, hsrc, hk, -⟩ := passes_wf fuel k _ d hw0 (by rw [hsrc0, hspos0]; omega) hpass
  rw [hspos0] at hk
  have happ := passes_append fuel S k (start dst P) d hw0 (by rw [hsrc0]; exact hlen)
    (by rw [hsrc0, hspos0]; omega) hpass
  have hst : ({ start dst P with src := (start dst P).src ++ S } : decoder) = start dst (P ++ S) := by
    rw [start_eq, start_eq]
  rw [hst, hsrc0] at happ
  have hd : ({ d with src := P ++ S } : decoder)
      = decoder.mk (P ++ S) O P.length (u32 O.length) d.ref := by
    rw [← hdst, ← hspos, ← hw.2.2]
  rw [hd] at happ
  have hw1 : (start dst (P ++ S)).wf := start_wf dst _ hlen
  have hsrc1 : (start dst (P ++ S)).src = P ++ S := by rw [start_eq]
  have hspos1 : (start dst (P ++ S)).spos = 0 := by rw [start_eq]
  refine ⟨?_, by omega⟩
  unfold Decode
  exact DecodeLoop_passes fuel k fuel _ _ hw1 (by rw [hsrc1, hspos1]; omega)
    (by rw [hsrc1, hspos1]; omega) happ

/-- One pass over the bytes of a sequence: corrupt when the bytes end
inside the match-length escape, else the copy `expand` does. -/
theorem iteration_seq (d : decoder) (F : Nat) (c : Byte) (L : List Byte) (b1 b2 : Byte)
    (T : List Byte) (hw : d.wf) (hr : d.src.drop d.spos = seqBytes c L b1 b2 T)
    (hc : c.val / 16 = min 15 L.length) (hF : (seqBytes c L b1 b2 T).length ≤ F) :
    d.iteration F =
      match field (c.val % 16) T with
      | none => Exec.ret (Sum.inl (none, some Error.ErrCorrupt))
      | some (m, h) =>
        (decoder.expand (decoder.mk d.src (d.dst ++ L)
          (d.spos + (1 + (lenField L.length).length + L.length) + (2 + h))
          (u32 (d.dpos + L.length))
          (u32 (u32 (d.dpos + L.length) + 4294967296 - (b1.val + 256 * b2.val)))) (u32 m)).bind
          fun d4 => Exec.ret (Sum.inr d4) := by
  have hlen : (d.src.drop d.spos).length = (seqBytes c L b1 b2 T).length := by rw [hr]
  rw [List.length_drop, seqBytes_length] at hlen
  have hL : L.length < 4294967296 := by have := hw.2.1; omega
  rw [iteration_eq d F _ hr hw.1 hw.2.1 (wf_dpos_lt hw) hF]
  have hp : parseLit (seqBytes c L b1 b2 T)
      = LitParse.ok c L (1 + (lenField L.length).length + L.length) :=
    parseLit_seq c L (b1 :: b2 :: T) hc hL
  rw [hp]
  simp only
  have hdrop : (seqBytes c L b1 b2 T).drop (1 + (lenField L.length).length + L.length)
      = b1 :: b2 :: T := by
    have e : 1 + (lenField L.length).length + L.length
        = ((lenField L.length).length + L.length) + 1 := by omega
    rw [e, seqBytes, List.drop_succ_cons, ← List.append_assoc]
    have e2 : (lenField L.length).length + L.length = (lenField L.length ++ L).length := by
      rw [List.length_append]
    rw [e2, List.drop_left]
  rw [hdrop]
  simp only [parseRef]
  rcases field (c.val % 16) T with _ | ⟨m, h⟩ <;> rfl

/-- The run on an input that ends with a whole sequence, after `k` complete
passes over what comes before: the copy of the last match, then a clean
return at the end of the input. -/
theorem Decode_last_seq (P O L : List Byte) (c b1 b2 : Byte) (T : List Byte) (m0 k fuel : Nat)
    (dst : Option (List Byte)) (d : decoder)
    (hpass : passes fuel k (start dst P) = some d) (hspos : d.spos = P.length)
    (hdst : d.dst = O) (hc : c.val / 16 = min 15 L.length)
    (hT : field (c.val % 16) T = some (m0, T.length))
    (hlen : (P ++ seqBytes c L b1 b2 T).length < 4294967296)
    (hfuel : (P ++ seqBytes c L b1 b2 T).length < fuel) :
    Decode fuel dst (P ++ seqBytes c L b1 b2 T) =
      (decoder.expand (decoder.mk (P ++ seqBytes c L b1 b2 T) (O ++ L)
        (P ++ seqBytes c L b1 b2 T).length (u32 (O.length + L.length))
        (u32 (u32 (O.length + L.length) + 4294967296 - (b1.val + 256 * b2.val)))) (u32 m0)).bind
        fun d4 => Exec.ret (some d4.dst, none) := by
  obtain ⟨hD, hS⟩ := Decode_after_passes P (seqBytes c L b1 b2 T) O k fuel dst d hpass hspos hdst
    hlen hfuel
  have hSl := seqBytes_length c L b1 b2 T
  have hl : (P ++ seqBytes c L b1 b2 T).length = P.length + (seqBytes c L b1 b2 T).length :=
    List.length_append _ _
  obtain ⟨F, hF⟩ : ∃ F, fuel - k = F + 1 + 1 := ⟨fuel - k - 2, by omega⟩
  have hw : (decoder.mk (P ++ seqBytes c L b1 b2 T) O P.length (u32 O.length) d.ref).wf :=
    ⟨by simp only; omega, hlen, rfl⟩
  rw [hD, hF, DecodeLoop_succ, iteration_seq _ (F + 1) c L b1 b2 T hw (List.drop_left _ _) hc
    (by omega), hT]
  simp only
  have e1 : P.length + (1 + (lenField L.length).length + L.length) + (2 + T.length)
      = (P ++ seqBytes c L b1 b2 T).length := by omega
  rw [e1, u32_add_left]
  rcases he : decoder.expand (decoder.mk (P ++ seqBytes c L b1 b2 T) (O ++ L)
      (P ++ seqBytes c L b1 b2 T).length (u32 (O.length + L.length))
      (u32 (u32 (O.length + L.length) + 4294967296 - (b1.val + 256 * b2.val)))) (u32 m0)
    with d4 | _ | _
  · obtain ⟨f1, f2, -, -⟩ := expand_frame _ d4 _ he (u32_lt _) (u32_lt _)
    simp only [Exec.ret_bind]
    exact DecodeLoop_eof F d4 (by rw [f1, f2])
  · rfl
  · rfl

/-- A last sequence with a far match, with the match length as the
`uint32` the code computes. -/
theorem Decode_far_u32 (P O L : List Byte) (c b1 b2 : Byte) (m k fuel : Nat)
    (dst : Option (List Byte)) (d : decoder)
    (hpass : passes fuel k (start dst P) = some d) (hspos : d.spos = P.length)
    (hdst : d.dst = O) (hc : c.val / 16 = min 15 L.length) (hm : c.val % 16 = min 15 m)
    (ho : 4 ≤ b1.val + 256 * b2.val) (ho2 : b1.val + 256 * b2.val ≤ O.length + L.length)
    (hlen : (P ++ seqBytes c L b1 b2 (lenField m)).length < 4294967296)
    (hout : O.length + L.length + u32 m + 4 < 4294967296)
    (hfuel : (P ++ seqBytes c L b1 b2 (lenField m)).length < fuel) :
    Decode fuel dst (P ++ seqBytes c L b1 b2 (lenField m))
      = Exec.ret (some (copyFrom (O ++ L) ((O ++ L).length - (b1.val + 256 * b2.val))
          (u32 m + 4)), none) := by
  have hT : field (c.val % 16) (lenField m) = some (m, (lenField m).length) := by
    have := field_lenField m []
    rw [List.append_nil] at this
    rw [hm]; exact this
  rw [Decode_last_seq P O L c b1 b2 (lenField m) m k fuel dst d hpass hspos hdst hc hT hlen hfuel]
  have hOL : (O ++ L).length = O.length + L.length := List.length_append _ _
  have hu1 : u32 (O.length + L.length) = (O ++ L).length := by
    rw [hOL]; exact u32_of_lt (by omega)
  have hu2 : u32 ((O ++ L).length + 4294967296 - (b1.val + 256 * b2.val))
      = (O ++ L).length - (b1.val + 256 * b2.val) := by
    rw [hOL]; unfold u32; omega
  rw [hu1, hu2]
  rw [expand_far _ (u32 m) (b1.val + 256 * b2.val) rfl rfl ho (by rw [hOL]; exact ho2)
    (by simp only [hOL]; omega)]
  simp only [Exec.ret_bind]

/-- A last sequence with a near match, with the match length as the
`uint32` the code computes. -/
theorem Decode_near_u32 (P O L : List Byte) (c b1 b2 : Byte) (m k fuel j : Nat)
    (dst : Option (List Byte)) (d : decoder)
    (hpass : passes fuel k (start dst P) = some d) (hspos : d.spos = P.length)
    (hdst : d.dst = O) (hc : c.val / 16 = min 15 L.length) (hm : c.val % 16 = min 15 m)
    (ho : 1 ≤ b1.val + 256 * b2.val) (ho3 : b1.val + 256 * b2.val ≤ 3)
    (ho2 : b1.val + 256 * b2.val ≤ O.length + L.length)
    (hj : decr[b1.val + 256 * b2.val]? = some j)
    (hlen : (P ++ seqBytes c L b1 b2 (lenField m)).length < 4294967296)
    (hout : O.length + L.length + u32 m + 4 < 4294967296)
    (hfuel : (P ++ seqBytes c L b1 b2 (lenField m)).length < fuel) :
    Decode fuel dst (P ++ seqBytes c L b1 b2 (lenField m))
      = Exec.ret (some (copyFrom
          (copyFrom (O ++ L) ((O ++ L).length - (b1.val + 256 * b2.val)) 4)
          ((O ++ L).length - (b1.val + 256 * b2.val) + (4 - j)) (u32 m)), none) := by
  have hT : field (c.val % 16) (lenField m) = some (m, (lenField m).length) := by
    have := field_lenField m []
    rw [List.append_nil] at this
    rw [hm]; exact this
  rw [Decode_last_seq P O L c b1 b2 (lenField m) m k fuel dst d hpass hspos hdst hc hT hlen hfuel]
  have hOL : (O ++ L).length = O.length + L.length := List.length_append _ _
  have hu1 : u32 (O.length + L.length) = (O ++ L).length := by
    rw [hOL]; exact u32_of_lt (by omega)
  have hu2 : u32 ((O ++ L).length + 4294967296 - (b1.val + 256 * b2.val))
      = (O ++ L).length - (b1.val + 256 * b2.val) := by
    rw [hOL]; unfold u32; omega
  rw [hu1, hu2]
  rw [expand_near _ (u32 m) (b1.val + 256 * b2.val) j rfl rfl ho ho3 (by rw [hOL]; exact ho2) hj
    (by simp only [hOL]; omega)]
  simp only [Exec.ret_bind]

/-! ## C1: far match -/

/-- C1 (amended with the size bounds): after zero or more complete
sequences `P` that decode to `O`, a last sequence with literals `L`, an
offset `o` with `4 <= o <= |O| + |L|` and match-length value `m`, the input
ending right after it and input and output shorter than `2^32` bytes:
`Decode` returns a nil error and `O ++ L ++ M` with `|M| = m + 4`, each
byte of `M` equal to the output byte `o` places before it. -/
theorem Decode_far_match (P O L : List Byte) (c b1 b2 : Byte) (m k fuel : Nat)
    (dst : Option (List Byte)) (d : decoder)
    (hpass : passes fuel k (start dst P) = some d) (hspos : d.spos = P.length)
    (hdst : d.dst = O) (hc : c.val / 16 = min 15 L.length) (hm : c.val % 16 = min 15 m)
    (ho : 4 ≤ b1.val + 256 * b2.val) (ho2 : b1.val + 256 * b2.val ≤ O.length + L.length)
    (hlen : (P ++ seqBytes c L b1 b2 (lenField m)).length < 4294967296)
    (hout : O.length + L.length + m + 4 < 4294967296)
    (hfuel : (P ++ seqBytes c L b1 b2 (lenField m)).length < fuel) :
    ∃ M, Decode fuel dst (P ++ seqBytes c L b1 b2 (lenField m))
        = Exec.ret (some (O ++ L ++ M), none) ∧
      M.length = m + 4 ∧
      ∀ p, p < m + 4 → (O ++ L ++ M)[O.length + L.length + p]?
        = (O ++ L ++ M)[O.length + L.length + p - (b1.val + 256 * b2.val)]? := by
  have hu3 : u32 m = m := u32_of_lt (by omega)
  have hOL : (O ++ L).length = O.length + L.length := List.length_append _ _
  rw [Decode_far_u32 P O L c b1 b2 m k fuel dst d hpass hspos hdst hc hm ho ho2 hlen
    (by rw [hu3]; exact hout) hfuel, hu3]
  obtain ⟨M, hM⟩ := copyFrom_append (m + 4) (O ++ L) ((O ++ L).length - (b1.val + 256 * b2.val))
  obtain ⟨hl, hper⟩ := far_periodic (O ++ L) (b1.val + 256 * b2.val) (m + 4) (by omega)
    (by rw [hOL]; exact ho2)
  rw [hM] at hl hper ⊢
  rw [hOL] at hper
  refine ⟨M, rfl, ?_, hper⟩
  rw [List.length_append] at hl
  omega

/-- Witness for C1: after the sequence `0x10 'A' 01 00` (output `AAAAA`),
the sequence `0x42 a b c d 04 00` appends `abcd` and the 6 bytes `abcdab`. -/
theorem Decode_far_match_witness :
    ∃ M, Decode 12 none ([0x10, 65, 1, 0] ++ seqBytes 0x42 [97, 98, 99, 100] 4 0 (lenField 2))
        = Exec.ret (some ([65, 65, 65, 65, 65] ++ [97, 98, 99, 100] ++ M), none) ∧
      M.length = 2 + 4 ∧
      ∀ p, p < 2 + 4 →
        (([65, 65, 65, 65, 65] : List Byte) ++ [97, 98, 99, 100] ++ M)[([65, 65, 65, 65, 65] : List Byte).length + ([97, 98, 99, 100] : List Byte).length + p]?
        = (([65, 65, 65, 65, 65] : List Byte) ++ [97, 98, 99, 100] ++ M)[([65, 65, 65, 65, 65] : List Byte).length + ([97, 98, 99, 100] : List Byte).length + p - ((4 : Byte).val + 256 * (0 : Byte).val)]? :=
  Decode_far_match [0x10, 65, 1, 0] [65, 65, 65, 65, 65] [97, 98, 99, 100] 0x42 4 0 2 1 12 none
    (decoder.mk [0x10, 65, 1, 0] [65, 65, 65, 65, 65] 4 5 1)
    (by decide) (by decide) (by decide) (by decide) (by decide) (by decide) (by decide)
    (by decide) (by decide) (by decide)

theorem lenField_big : (lenField 4294967310).length = 16843010 := lenField_big_length

theorem u32_big : u32 4294967310 = 14 := by decide

/-- Counterexample to C1 as stated: literals `1 2 3 4`, offset 4 and
match-length value `2^32 + 14` (nibble 15 plus the escape bytes of
`2^32 - 1`).  The length wraps in `uint32` and `Decode` appends 18 bytes,
not `2^32 + 18`. -/
theorem Decode_far_match_overflow :
    (0x4F : Byte).val / 16 = min 15 ([1, 2, 3, 4] : List Byte).length ∧
    (0x4F : Byte).val % 16 = min 15 4294967310 ∧
    4 ≤ (4 : Byte).val + 256 * (0 : Byte).val ∧
    (4 : Byte).val + 256 * (0 : Byte).val ≤ ([] : List Byte).length + ([1, 2, 3, 4] : List Byte).length ∧
    farOverflowBlock = [] ++ seqBytes 0x4F [1, 2, 3, 4] 4 0 (lenField 4294967310) ∧
    ¬ ∃ fuel M, Decode fuel none farOverflowBlock
        = Exec.ret (some ([] ++ [1, 2, 3, 4] ++ M), none) ∧ M.length = 4294967310 + 4 := by
  have hlen : (([] : List Byte) ++ seqBytes 0x4F [1, 2, 3, 4] 4 0 (lenField 4294967310)).length
      = 16843017 := by
    rw [List.nil_append, seqBytes_length, lenField_big]
    rfl
  have h := Decode_far_u32 [] [] [1, 2, 3, 4] 0x4F 4 0 4294967310 0 16843018 none (start none [])
    rfl rfl rfl (by decide) (by decide) (by decide) (by decide) (by rw [hlen]; decide)
    (by rw [u32_big]; decide) (by rw [hlen]; decide)
  refine ⟨by decide, by decide, by decide, by decide, rfl, ?_⟩
  rintro ⟨fuel, M, hD, hM⟩
  have hb : farOverflowBlock = [] ++ seqBytes 0x4F [1, 2, 3, 4] 4 0 (lenField 4294967310) := rfl
  rw [hb] at hD
  have hu := Decode_fuel_unique fuel 16843018 none _ (by rw [hD]; simp) (by rw [h]; simp)
  rw [hD, h, u32_big] at hu
  simp only [Exec.ret.injEq, Prod.mk.injEq, Option.some.injEq, and_true] at hu
  have hl := congrArg List.length hu
  rw [copyFrom_length _ _ _ (by decide)] at hl
  simp only [List.length_append, List.length_cons, List.length_nil] at hl
  omega

/-! ## C2: near match -/

theorem decr_some {o : Nat} (h1 : 1 ≤ o) (h3 : o ≤ 3) : ∃ j, decr[o]? = some j := by
  have : o = 1 ∨ o = 2 ∨ o = 3 := by omega
  rcases this with h | h | h <;> rw [h] <;> exact ⟨_, rfl⟩

/-- C2 (amended with the size bounds): after zero or more complete
sequences `P` that decode to `O`, a last sequence with literals `L`, an
offset `o` in 1..3 with `o <= |O| + |L|` and match-length value `m`, the
input ending right after it and input and output shorter than `2^32` bytes:
`Decode` returns a nil error and `O ++ L ++ M` with `|M| = 4 + m`, each
byte of `M` equal to the output byte `o` places before it. -/
theorem Decode_near_match (P O L : List Byte) (c b1 b2 : Byte) (m k fuel : Nat)
    (dst : Option (List Byte)) (d : decoder)
    (hpass : passes fuel k (start dst P) = some d) (hspos : d.spos = P.length)
    (hdst : d.dst = O) (hc : c.val / 16 = min 15 L.length) (hm : c.val % 16 = min 15 m)
    (ho : 1 ≤ b1.val + 256 * b2.val) (ho3 : b1.val + 256 * b2.val ≤ 3)
    (ho2 : b1.val + 256 * b2.val ≤ O.length + L.length)
    (hlen : (P ++ seqBytes c L b1 b2 (lenField m)).length < 4294967296)
    (hout : O.length + L.length + m + 4 < 4294967296)
    (hfuel : (P ++ seqBytes c L b1 b2 (lenField m)).length < fuel) :
    ∃ M, Decode fuel dst (P ++ seqBytes c L b1 b2 (lenField m))
        = Exec.ret (some (O ++ L ++ M), none) ∧
      M.length = 4 + m ∧
      ∀ p, p < 4 + m → (O ++ L ++ M)[O.length + L.length + p]?
        = (O ++ L ++ M)[O.length + L.length + p - (b1.val + 256 * b2.val)]? := by
  have hu3 : u32 m = m := u32_of_lt (by omega)
  have hOL : (O ++ L).length = O.length + L.length := List.length_append _ _
  obtain ⟨j, hj⟩ := decr_some ho ho3
  rw [Decode_near_u32 P O L c b1 b2 m k fuel j dst d hpass hspos hdst hc hm ho ho3 ho2 hj hlen
    (by rw [hu3]; exact hout) hfuel, hu3]
  obtain ⟨M1, hM1⟩ := copyFrom_append 4 (O ++ L) ((O ++ L).length - (b1.val + 256 * b2.val))
  obtain ⟨M2, hM2⟩ := copyFrom_append m
    (copyFrom (O ++ L) ((O ++ L).length - (b1.val + 256 * b2.val)) 4)
    ((O ++ L).length - (b1.val + 256 * b2.val) + (4 - j))
  obtain ⟨hl, hper⟩ := near_periodic (O ++ L) (b1.val + 256 * b2.val) j m ho ho3 hj
    (by rw [hOL]; exact ho2)
  have hM : copyFrom (copyFrom (O ++ L) ((O ++ L).length - (b1.val + 256 * b2.val)) 4)
      ((O ++ L).length - (b1.val + 256 * b2.val) + (4 - j)) m = O ++ L ++ (M1 ++ M2) := by
    rw [hM2, hM1, List.append_assoc (O ++ L)]
  rw [hM] at hl hper ⊢
  rw [hOL] at hper
  refine ⟨M1 ++ M2, rfl, ?_, hper⟩
  rw [List.length_append (O ++ L)] at hl
  omega

/-- Witness for C2: `0x13 'X' 01 00` (offset 1, match length 3) appends 7
copies of `X` to the literal `X`. -/
theorem Decode_near_match_witness :
    Decode 6 none ([] ++ seqBytes 0x13 [88] 1 0 (lenField 3))
      = Exec.ret (some [88, 88, 88, 88, 88, 88, 88, 88], none) ∧
    ∃ M, Decode 6 none ([] ++ seqBytes 0x13 [88] 1 0 (lenField 3))
        = Exec.ret (some ([] ++ [88] ++ M), none) ∧
      M.length = 4 + 3 ∧
      ∀ p, p < 4 + 3 →
        (([] : List Byte) ++ [88] ++ M)[([] : List Byte).length + ([88] : List Byte).length + p]?
        = (([] : List Byte) ++ [88] ++ M)[([] : List Byte).length + ([88] : List Byte).length + p - ((1 : Byte).val + 256 * (0 : Byte).val)]? :=
  ⟨by decide,
   Decode_near_match [] [] [88] 0x13 1 0 3 0 6 none (start none [])
    (by decide) (by decide) (by decide) (by decide) (by decide) (by decide) (by decide)
    (by decide) (by decide) (by decide) (by decide)⟩

/-- Counterexample to C2 as stated: the literal `88`, offset 1 and
match-length value `2^32 + 14` (nibble 15 plus the escape bytes of
`2^32 - 1`).  The length wraps in `uint32` and `Decode` appends 18 bytes,
not `2^32 + 18`. -/
theorem Decode_near_match_overflow :
    (0x1F : Byte).val / 16 = min 15 ([88] : List Byte).length ∧
    (0x1F : Byte).val % 16 = min 15 4294967310 ∧
    1 ≤ (1 : Byte).val + 256 * (0 : Byte).val ∧
    (1 : Byte).val + 256 * (0 : Byte).val ≤ 3 ∧
    (1 : Byte).val + 256 * (0 : Byte).val ≤ ([] : List Byte).length + ([88] : List Byte).length ∧
    nearOverflowBlock = [] ++ seqBytes 0x1F [88] 1 0 (lenField 4294967310) ∧
    ¬ ∃ fuel M, Decode fuel none nearOverflowBlock
        = Exec.ret (some ([] ++ [88] ++ M), none) ∧ M.length = 4 + 4294967310 := by
  have hlen : (([] : List Byte) ++ seqBytes 0x1F [88] 1 0 (lenField 4294967310)).length
      = 16843014 := by
    rw [List.nil_append, seqBytes_length, lenField_big]
    rfl
  have h := Decode_near_u32 [] [] [88] 0x1F 1 0 4294967310 0 16843015 3 none (start none [])
    rfl rfl rfl (by decide) (by decide) (by decide) (by decide) (by decide) (by decide)
    (by rw [hlen]; decide) (by rw [u32_big]; decide) (by rw [hlen]; decide)
  refine ⟨by decide, by decide, by decide, by decide, by decide, rfl, ?_⟩
  rintro ⟨fuel, M, hD, hM⟩
  have hb : nearOverflowBlock = [] ++ seqBytes 0x1F [88] 1 0 (lenField 4294967310) := rfl
  rw [hb] at hD
  have hu := Decode_fuel_unique fuel 16843015 none _ (by rw [hD]; simp) (by rw [h]; simp)
  rw [hD, h, u32_big] at hu
  simp only [Exec.ret.injEq, Prod.mk.injEq, Option.some.injEq, and_true] at hu
  have hl := congrArg List.length hu
  rw [copyFrom_length _ _ _ (by decide), copyFrom_length _ _ _ (by decide)] at hl
  simp only [List.length_append, List.length_cons, List.length_nil] at hl
  omega

/-! ## C5: offsets that are 0 or reach before the output -/

/-- C5 (amended to what the code does): the code never checks an offset.
After zero or more complete sequences `P` that decode to `O`, for a
sequence with literals `L` whose offset is 0 or larger than `|O| + |L|`
(input shorter than `2^32` bytes), `Decode` returns `ErrCorrupt` with a nil
output only when the input ends inside the match-length escape after the
offset; when the match length `m` is complete (`|O| + |L| + m + 4 < 2^32`)
the copy reads the output out of range and `Decode` panics. -/
theorem Decode_bad_offset (P O L : List Byte) (c b1 b2 : Byte) (T : List Byte) (k fuel : Nat)
    (dst : Option (List Byte)) (d : decoder)
    (hpass : passes fuel k (start dst P) = some d) (hspos : d.spos = P.length)
    (hdst : d.dst = O) (hc : c.val / 16 = min 15 L.length)
    (hbad : b1.val + 256 * b2.val = 0 ∨ O.length + L.length < b1.val + 256 * b2.val)
    (hlen : (P ++ seqBytes c L b1 b2 T).length < 4294967296)
    (hfuel : (P ++ seqBytes c L b1 b2 T).length < fuel) :
    (field (c.val % 16) T = none →
      Decode fuel dst (P ++ seqBytes c L b1 b2 T) = Exec.ret (none, some Error.ErrCorrupt)) ∧
    (∀ m h, field (c.val % 16) T = some (m, h) → O.length + L.length + m + 4 < 4294967296 →
      Decode fuel dst (P ++ seqBytes c L b1 b2 T) = Exec.panic) := by
  obtain ⟨hD, hS⟩ := Decode_after_passes P (seqBytes c L b1 b2 T) O k fuel dst d hpass hspos hdst
    hlen hfuel
  obtain ⟨F, hF⟩ : ∃ F, fuel - k = F + 1 := ⟨fuel - k - 1, by omega⟩
  have hw : (decoder.mk (P ++ seqBytes c L b1 b2 T) O P.length (u32 O.length) d.ref).wf :=
    ⟨by simp only [List.length_append]; omega, hlen, rfl⟩
  have hit := iteration_seq _ F c L b1 b2 T hw (List.drop_left _ _) hc (by omega)
  rw [hD, hF, DecodeLoop_succ, hit]
  constructor
  · intro hnone
    rw [hnone]
    rfl
  · intro m h hsome hout
    rw [hsome]
    simp only
    have hOL : (O ++ L).length = O.length + L.length := List.length_append _ _
    have hb1 := b1.isLt
    have hb2 := b2.isLt
    rw [expand_bad _ (u32 m) (b1.val + 256 * b2.val)
      (by simp only [hOL]; unfold u32; omega) rfl
      (by simp only [hOL]; exact hbad) (by omega)
      (by simp only [hOL]; unfold u32; omega)]
    rfl

/-- Witness for C5: `0x10 'A' 02 00` (offset 2 with one byte of output)
panics, and `0x1F 'A' 02 00 FF` (cut inside the match-length escape)
returns `ErrCorrupt`. -/
theorem Decode_bad_offset_witness :
    Decode 5 none ([] ++ seqBytes 0x10 [65] 2 0 []) = Exec.panic ∧
    Decode 6 none ([] ++ seqBytes 0x1F [65] 2 0 [255])
      = Exec.ret (none, some Error.ErrCorrupt) :=
  ⟨(Decode_bad_offset [] [] [65] 0x10 2 0 [] 0 5 none (start none [])
      (by decide) (by decide) (by decide) (by decide) (by decide) (by decide) (by decide)).2
      0 0 (by decide) (by decide),
   (Decode_bad_offset [] [] [65] 0x1F 2 0 [255] 0 6 none (start none [])
      (by decide) (by decide) (by decide) (by decide) (by decide) (by decide) (by decide)).1
      (by decide)⟩

/-- Counterexample to C5 as stated: on `00 00 00` (no literals, offset 0)
and on `0x10 'A' 02 00` (offset 2, one byte of output) `Decode` reads the
output out of range and panics; with no fuel does it return `ErrCorrupt`. -/
theorem Decode_bad_offset_unchecked :
    Decode 2 none [0x00, 0x00, 0x00] = Exec.panic ∧
    Decode 2 none [0x10, 65, 0x02, 0x00] = Exec.panic ∧
    (¬ ∃ fuel out, Decode fuel none [0x00, 0x00, 0x00] = Exec.ret (out, some Error.ErrCorrupt)) ∧
    ¬ ∃ fuel out, Decode fuel none [0x10, 65, 0x02, 0x00]
      = Exec.ret (out, some Error.ErrCorrupt) := by
  have h1 : Decode 2 none [0x00, 0x00, 0x00] = Exec.panic := by decide
  have h2 : Decode 2 none [0x10, 65, 0x02, 0x00] = Exec.panic := by decide
  refine ⟨h1, h2, ?_, ?_⟩
  · rintro ⟨fuel, out, h⟩
    have hu := Decode_fuel_unique fuel 2 none _ (by rw [h]; simp) (by rw [h1]; simp)
    rw [h, h1] at hu
    exact Exec.noConfusion hu
  · rintro ⟨fuel, out, h⟩
    have hu := Decode_fuel_unique fuel 2 none _ (by rw [h]; simp) (by rw [h2]; simp)
    rw [h, h2] at hu
    exact Exec.noConfusion hu

/-! ## C10: termination -/

theorem iteration_ne_timeout (d : decoder) (F : Nat) (hw : d.wf)
    (hF : d.src.length - d.spos ≤ F) : d.iteration F ≠ Exec.timeout := by
  rw [iteration_eq d F _ rfl hw.1 hw.2.1 (wf_dpos_lt hw) (by rw [wf_rest_length d]; exact hF)]
  rcases parseLit (d.src.drop d.spos) with _ | _ | ⟨c, lits, used⟩
  · simp
  · simp
  · simp only
    rcases parseRef c ((d.src.drop d.spos).drop used) with _ | _ | _ | ⟨o, m, used2⟩
    · simp
    · simp
    · simp
    · simp only
      intro h
      rw [Exec.bind_eq_timeout] at h
      rcases h with h | ⟨a, -, h⟩
      · exact expand_ne_timeout _ _ h
      · exact Exec.noConfusion h

theorem DecodeLoop_ne_timeout : ∀ (F : Nat) (d : decoder), d.wf → d.src.length - d.spos < F →
    DecodeLoop F d ≠ Exec.timeout := by
  intro F
  induction F with
  | zero => intro d _ h; omega
  | succ F ih =>
    intro d hw hF
    rw [DecodeLoop_succ]
    rcases hi : d.iteration F with n | _ | _
    · rcases n with res | d1
      · simp
      · simp only [Exec.ret_bind]
        obtain ⟨w1, s1, p1, -⟩ := iteration_wf d d1 F hw (by omega) hi
        have := w1.1
        exact ih d1 w1 (by rw [s1] at this ⊢; omega)
    · simp
    · exact absurd hi (iteration_ne_timeout d F hw (by omega))

/-- C10 (amended with the size bound): on an input shorter than `2^32`
bytes `Decode` terminates: with one unit of fuel per pass of the main loop
and per `getLen` iteration, `len(src) + 1` units are enough.  After `k`
complete passes the read cursor is at least `3 * k` and at most `len(src)`,
so there are at most `len(src)` passes, and every further complete pass
moves the cursor strictly forward. -/
theorem Decode_terminates (src : List Byte) (dst : Option (List Byte)) (fuel : Nat)
    (hlen : src.length < 4294967296) (hfuel : src.length < fuel) :
    Decode fuel dst src ≠ Exec.timeout ∧
    ∀ k d, passes fuel k (start dst src) = some d →
      d.src = src ∧ k ≤ d.spos ∧ 3 * k ≤ d.spos ∧ d.spos ≤ src.length ∧
      ∀ d1, d.iteration fuel = Exec.ret (Sum.inr d1) →
        d1.src = src ∧ d.spos < d1.spos ∧ d1.spos ≤ src.length := by
  have hw := start_wf dst src hlen
  have hsrc : (start dst src).src = src := by rw [start_eq]
  have hspos : (start dst src).spos = 0 := by rw [start_eq]
  refine ⟨DecodeLoop_ne_timeout fuel _ hw (by rw [hsrc, hspos]; omega), ?_⟩
  intro k d hp
  obtain ⟨w1, s1, p1, -⟩ := passes_wf fuel k _ d hw (by rw [hsrc, hspos]; omega) hp
  rw [hsrc] at s1
  rw [hspos] at p1
  have hle := w1.1
  rw [s1] at hle
  refine ⟨s1, by omega, by omega, hle, ?_⟩
  intro d1 hi
  obtain ⟨w2, s2, p2, -⟩ := iteration_wf d d1 fuel w1 (by rw [s1]; omega) hi
  have hle2 := w2.1
  rw [s2, s1] at hle2
  exact ⟨by rw [s2, s1], by omega, hle2⟩

/-- Witness for C10 on `0x10 'A' 01 00 0x10 'B' 01 00`: the run ends, and
after each of the two passes the cursor has moved on. -/
theorem Decode_terminates_witness :
    Decode 9 none [0x10, 65, 1, 0, 0x10, 66, 1, 0] ≠ Exec.timeout ∧
    ∀ k d, passes 9 k (start none [0x10, 65, 1, 0, 0x10, 66, 1, 0]) = some d →
      d.src = [0x10, 65, 1, 0, 0x10, 66, 1, 0] ∧ k ≤ d.spos ∧ 3 * k ≤ d.spos ∧
      d.spos ≤ ([0x10, 65, 1, 0, 0x10, 66, 1, 0] : List Byte).length ∧
      ∀ d1, d.iteration 9 = Exec.ret (Sum.inr d1) →
        d1.src = [0x10, 65, 1, 0, 0x10, 66, 1, 0] ∧ d.spos < d1.spos ∧
        d1.spos ≤ ([0x10, 65, 1, 0, 0x10, 66, 1, 0] : List Byte).length :=
  Decode_terminates [0x10, 65, 1, 0, 0x10, 66, 1, 0] none 9 (by decide) (by decide)

theorem allFF_length : allFF.length = 4294967296 := by
  rw [allFF, List.length_replicate]

theorem allFF_get (i : Nat) (h : i < 4294967296) : allFF[i]? = some 255 := by
  rw [allFF, List.getElem?_replicate]
  simp only [h, if_true]

theorem readByte_allFF (d : decoder) (hs : d.src = allFF) (hp : d.spos < 4294967296) :
    d.readByte = Exec.ret ((255, none), { d with spos := u32 (d.spos + 1) }) := by
  have hne : d.spos ≠ allFF.length := by rw [allFF_length]; omega
  simp only [decoder.readByte, hs, hne, if_false, allFF_get d.spos hp]

theorem getLenLoop_allFF : ∀ (f : Nat) (d : decoder) (acc : Nat), d.src = allFF →
    d.spos < 4294967296 → decoder.getLenLoop f d acc 255 = Exec.timeout := by
  intro f
  induction f with
  | zero =>
    intro d acc _ _
    rfl
  | succ f ih =>
    intro d acc hs hp
    have h255 : ((255 : Byte) : Fin 256).val = 255 := rfl
    simp only [decoder.getLenLoop, h255, if_true, readByte_allFF d hs hp, Exec.ret_bind]
    exact ih _ _ hs (u32_lt _)

theorem literals_allFF (d : decoder) (f : Nat) (hs : d.src = allFF)
    (hp : d.spos < 4294967296) : d.literals f = Exec.timeout := by
  have hc : ((255 : Byte) : Fin 256).val >>> mlBits = runMask := by decide
  have hr2 := readByte_allFF { d with spos := u32 (d.spos + 1) } hs (u32_lt _)
  simp only [decoder.literals, readByte_allFF d hs hp, Exec.ret_bind, hc, if_true,
    decoder.getLen, hr2]
  rw [getLenLoop_allFF f (decoder.mk d.src d.dst (u32 (u32 (d.spos + 1) + 1)) d.dpos d.ref) 0 hs
    (u32_lt _)]
  rfl

/-- Counterexample to C10 as stated: on the input of `2^32` bytes of value
255 the read cursor wraps around in `uint32`, the end of the input is never
seen, and the `getLen` loop of the first pass does not end: `Decode` runs
out of every fuel. -/
theorem Decode_diverges :
    allFF.length = 4294967296 ∧ ¬ ∃ fuel, Decode fuel none allFF ≠ Exec.timeout := by
  refine ⟨allFF_length, ?_⟩
  rintro ⟨fuel, h⟩
  apply h
  cases fuel with
  | zero => rfl
  | succ f =>
    unfold Decode
    rw [start_eq, DecodeLoop_succ, decoder.iteration,
      literals_allFF (decoder.mk allFF [] 0 0 0) f rfl (Nat.zero_lt_succ _)]
    rfl

/-! ## A run that returns a nil error has seen the end of the input -/

theorem readByte_ret (d d1 : decoder) (b : Byte) (e : Option Error)
    (h : d.readByte = Exec.ret ((b, e), d1)) :
    d1.src = d.src ∧ (d.spos < 4294967296 → d1.spos < 4294967296) ∧
    (e ≠ none → d.spos = d.src.length) := by
  unfold decoder.readByte at h
  split at h
  · rename_i heq
    simp only [Exec.ret.injEq, Prod.mk.injEq] at h
    obtain ⟨⟨-, -⟩, rfl⟩ := h
    exact ⟨rfl, fun hp => hp, fun _ => heq⟩
  · split at h
    · exact Exec.noConfusion h
    · simp only [Exec.ret.injEq, Prod.mk.injEq] at h
      obtain ⟨⟨-, rfl⟩, rfl⟩ := h
      exact ⟨rfl, fun _ => u32_lt _, fun hne => absurd rfl hne⟩

theorem getLenLoop_ret : ∀ (f : Nat) (d d1 : decoder) (acc : Nat) (ln : Byte)
    (r : Nat × Option Error), decoder.getLenLoop f d acc ln = Exec.ret (r, d1) →
    d.spos < 4294967296 → d1.src = d.src ∧ d1.spos < 4294967296 := by
  intro f
  induction f with
  | zero =>
    intro d d1 acc ln r h hp
    simp only [decoder.getLenLoop] at h
    split at h
    · exact Exec.noConfusion h
    · simp only [Exec.ret.injEq, Prod.mk.injEq] at h
      obtain ⟨-, rfl⟩ := h
      exact ⟨rfl, hp⟩
  | succ f ih =>
    intro d d1 acc ln r h hp
    simp only [decoder.getLenLoop] at h
    split at h
    · rw [Exec.bind_eq_ret] at h
      obtain ⟨⟨⟨b, e⟩, d2⟩, hr, h⟩ := h
      obtain ⟨s2, p2, -⟩ := readByte_ret d d2 b e hr
      simp only at h
      split at h
      · simp only [Exec.ret.injEq, Prod.mk.injEq] at h
        obtain ⟨-, rfl⟩ := h
        exact ⟨s2, p2 hp⟩
      · obtain ⟨s1, p1⟩ := ih _ _ _ _ _ h (p2 hp)
        exact ⟨by rw [s1, s2], p1⟩
    · simp only [Exec.ret.injEq, Prod.mk.injEq] at h
      obtain ⟨-, rfl⟩ := h
      exact ⟨rfl, hp⟩

theorem getLen_ret (f : Nat) (d d1 : decoder) (r : Nat × Option Error)
    (h : d.getLen f = Exec.ret (r, d1)) (hp : d.spos < 4294967296) :
    d1.src = d.src ∧ d1.spos < 4294967296 := by
  unfold decoder.getLen at h
  rw [Exec.bind_eq_ret] at h
  obtain ⟨⟨⟨b, e⟩, d2⟩, hr, h⟩ := h
  obtain ⟨s2, p2, -⟩ := readByte_ret d d2 b e hr
  simp only at h
  split at h
  · simp only [Exec.ret.injEq, Prod.mk.injEq] at h
    obtain ⟨-, rfl⟩ := h
    exact ⟨s2, p2 hp⟩
  · obtain ⟨s1, p1⟩ := getLenLoop_ret _ _ _ _ _ _ h (p2 hp)
    exact ⟨by rw [s1, s2], p1⟩

theorem consume_ret : ∀ (n : Nat) (d d1 : decoder) (e : Option Error),
    decoder.consume n d = Exec.ret (e, d1) → d.spos < 4294967296 →
    d1.src = d.src ∧ d1.spos < 4294967296 := by
  intro n
  induction n with
  | zero =>
    intro d d1 e h hp
    simp only [decoder.consume, Exec.ret.injEq, Prod.mk.injEq] at h
    obtain ⟨-, rfl⟩ := h
    exact ⟨rfl, hp⟩
  | succ n ih =>
    intro d d1 e h hp
    simp only [decoder.consume] at h
    rw [Exec.bind_eq_ret] at h
    obtain ⟨⟨⟨b, e2⟩, d2⟩, hr, h⟩ := h
    obtain ⟨s2, p2, -⟩ := readByte_ret d d2 b e2 hr
    simp only at h
    split at h
    · simp only [Exec.ret.injEq, Prod.mk.injEq] at h
      obtain ⟨-, rfl⟩ := h
      exact ⟨s2, p2 hp⟩
    · obtain ⟨s1, p1⟩ := ih _ _ _ h (p2 hp)
      exact ⟨by rw [s1]; exact s2, p1⟩

theorem readUint16_ret (d d1 : decoder) (v : Nat) (e : Option Error)
    (h : d.readUint16 = Exec.ret ((v, e), d1)) (hp : d.spos < 4294967296) :
    d1.src = d.src ∧ d1.spos < 4294967296 ∧ (e = some Error.EOF → d.spos = d.src.length) := by
  unfold decoder.readUint16 at h
  rw [Exec.bind_eq_ret] at h
  obtain ⟨⟨⟨b, e1⟩, d2⟩, hr, h⟩ := h
  obtain ⟨s2, p2, q2⟩ := readByte_ret d d2 b e1 hr
  simp only at h
  split at h
  · simp only [Exec.ret.injEq, Prod.mk.injEq] at h
    obtain ⟨⟨-, -⟩, rfl⟩ := h
    exact ⟨s2, p2 hp, fun _ => q2 (by simp)⟩
  · rw [Exec.bind_eq_ret] at h
    obtain ⟨⟨⟨b2, e2⟩, d3⟩, hr3, h⟩ := h
    obtain ⟨s3, p3, -⟩ := readByte_ret d2 d3 b2 e2 hr3
    simp only at h
    split at h
    · simp only [Exec.ret.injEq, Prod.mk.injEq] at h
      obtain ⟨⟨-, rfl⟩, rfl⟩ := h
      exact ⟨by rw [s3, s2], p3 (p2 hp), fun hc => by simp at hc⟩
    · simp only [Exec.ret.injEq, Prod.mk.injEq] at h
      obtain ⟨⟨-, rfl⟩, rfl⟩ := h
      exact ⟨by rw [s3, s2], p3 (p2 hp), fun hc => by simp at hc⟩

theorem cp_src_spos (d d1 : decoder) (length k : Nat) (h : d.cp length k = Exec.ret d1) :
    d1.src = d.src ∧ d1.spos = d.spos := by
  unfold decoder.cp at h
  rw [Exec.bind_eq_ret] at h
  obtain ⟨d0, h0, h1⟩ := h
  simp only [Exec.ret.injEq] at h1
  subst h1
  simp only
  split at h0
  · split at h0
    · simp only [Exec.ret.injEq] at h0
      subst h0
      exact ⟨rfl, rfl⟩
    · exact Exec.noConfusion h0
  · obtain ⟨h1, h2, -⟩ := cpLoop_frame _ _ _ _ h0
    exact ⟨h1, h2⟩

theorem expand_src_spos (d d1 : decoder) (length : Nat) (h : d.expand length = Exec.ret d1) :
    d1.src = d.src ∧ d1.spos = d.spos := by
  unfold decoder.expand at h
  rw [Exec.bind_eq_ret] at h
  obtain ⟨p, hp, hcp⟩ := h
  obtain ⟨b1, b2⟩ := cp_src_spos _ _ _ _ hcp
  split at hp
  · split at hp
    · exact Exec.noConfusion hp
    · rw [Exec.bind_eq_ret] at hp
      obtain ⟨d3, h3, hp⟩ := hp
      simp only [Exec.ret.injEq] at hp
      subst hp
      obtain ⟨a1, a2⟩ := cp_src_spos _ _ _ _ h3
      exact ⟨by rw [b1, a1], by rw [b2, a2]⟩
  · simp only [Exec.ret.injEq] at hp
    subst hp
    exact ⟨b1, b2⟩

theorem literals_ret (d : decoder) (f : Nat) (x : Result ⊕ (Byte × decoder))
    (h : d.literals f = Exec.ret x) (hp : d.spos < 4294967296) :
    match x with
    | Sum.inl (_, e) => e = none → d.spos = d.src.length
    | Sum.inr (_, d1) => d1.src = d.src ∧ d1.spos < 4294967296 := by
  unfold decoder.literals at h
  rw [Exec.bind_eq_ret] at h
  obtain ⟨⟨⟨b, e⟩, d2⟩, hr, h⟩ := h
  obtain ⟨s2, p2, q2⟩ := readByte_ret d d2 b e hr
  simp only at h
  split at h
  · simp only [Exec.ret.injEq] at h
    subst h
    simp only
    intro _
    exact q2 (by simp)
  · rw [Exec.bind_eq_ret] at h
    obtain ⟨l, hl, h⟩ := h
    have hl2 : match l with
        | Sum.inl (_, e) => e = some Error.ErrCorrupt
        | Sum.inr (_, d3) => d3.src = d.src ∧ d3.spos < 4294967296 := by
      split at hl
      · rw [Exec.bind_eq_ret] at hl
        obtain ⟨⟨r, d3⟩, hg, hl⟩ := hl
        obtain ⟨s3, p3⟩ := getLen_ret _ _ _ _ hg (p2 hp)
        simp only at hl
        split at hl
        · simp only [Exec.ret.injEq] at hl
          subst hl
          rfl
        · simp only [Exec.ret.injEq] at hl
          subst hl
          exact ⟨by rw [s3, s2], p3⟩
      · simp only [Exec.ret.injEq] at hl
        subst hl
        exact ⟨s2, p2 hp⟩
    rcases l with ⟨o, e⟩ | ⟨length, d3⟩
    · simp only [Exec.ret.injEq] at h
      subst h
      simp only at hl2 ⊢
      intro hc
      rw [hl2] at hc
      exact Option.noConfusion hc
    · simp only at h hl2
      rw [Exec.bind_eq_ret] at h
      obtain ⟨⟨e4, d4⟩, hc4, h⟩ := h
      obtain ⟨s4, p4⟩ := consume_ret _ _ _ _ hc4 hl2.2
      simp only at h
      split at h
      · simp only [Exec.ret.injEq] at h
        subst h
        simp
      · simp only [Exec.ret.injEq] at h
        subst h
        exact ⟨by rw [s4, hl2.1], p4⟩

theorem backref_ret (d : decoder) (code : Byte) (f : Nat) (x : Result ⊕ decoder)
    (h : d.backref code f = Exec.ret x) (hp : d.spos < 4294967296) :
    match x with
    | Sum.inl (_, e) => e = none → d.spos = d.src.length
    | Sum.inr d1 => d1.src = d.src ∧ d1.spos < 4294967296 := by
  unfold decoder.backref at h
  rw [Exec.bind_eq_ret] at h
  obtain ⟨⟨⟨v, e⟩, d2⟩, hr, h⟩ := h
  obtain ⟨s2, p2, q2⟩ := readUint16_ret d d2 v e hr hp
  simp only at h
  split at h
  · rename_i e0
    simp only [Exec.ret.injEq] at h
    subst h
    simp only
    intro hf
    apply q2
    cases e0 with
    | EOF => rfl
    | ErrCorrupt => simp [decoder.finish] at hf
  · rw [Exec.bind_eq_ret] at h
    obtain ⟨l, hl, h⟩ := h
    have hl2 : match l with
        | Sum.inl (_, e) => e = some Error.ErrCorrupt
        | Sum.inr (_, d3) => d3.src = d.src ∧ d3.spos < 4294967296 := by
      split at hl
      · rw [Exec.bind_eq_ret] at hl
        obtain ⟨⟨r, d3⟩, hg, hl⟩ := hl
        obtain ⟨s3, p3⟩ := getLen_ret _ _ _ _ hg (by simp only; exact p2)
        simp only at hl
        split at hl
        · simp only [Exec.ret.injEq] at hl
          subst hl
          rfl
        · simp only [Exec.ret.injEq] at hl
          subst hl
          exact ⟨by rw [s3]; exact s2, p3⟩
      · simp only [Exec.ret.injEq] at hl
        subst hl
        exact ⟨s2, p2⟩
    rcases l with ⟨o, e⟩ | ⟨length, d3⟩
    · simp only [Exec.ret.injEq] at h
      subst h
      simp only at hl2 ⊢
      intro hc
      rw [hl2] at hc
      exact Option.noConfusion hc
    · simp only at h hl2
      rw [Exec.bind_eq_ret] at h
      obtain ⟨d4, he4, h⟩ := h
      obtain ⟨s4, p4⟩ := expand_src_spos _ _ _ he4
      simp only [Exec.ret.injEq] at h
      subst h
      exact ⟨by rw [s4, hl2.1], by rw [p4]; exact hl2.2⟩

theorem iteration_ret (d : decoder) (f : Nat) (x : Result ⊕ decoder)
    (h : d.iteration f = Exec.ret x) (hp : d.spos < 4294967296) :
    match x with
    | Sum.inl (_, e) => e = none → d.src.length < 4294967296
    | Sum.inr d1 => d1.src = d.src ∧ d1.spos < 4294967296 := by
  unfold decoder.iteration at h
  rw [Exec.bind_eq_ret] at h
  obtain ⟨l, hl, h⟩ := h
  have hl2 := literals_ret d f l hl hp
  rcases l with ⟨o, e⟩ | ⟨c, d1⟩
  · simp only [Exec.ret.injEq] at h
    subst h
    simp only at hl2 ⊢
    intro he
    rw [← hl2 he]; exact hp
  · simp only at h hl2
    have hb := backref_ret d1 c f x h hl2.2
    rcases x with ⟨o, e⟩ | d2
    · simp only at hb ⊢
      intro he
      rw [← hl2.1, ← hb he]; exact hl2.2
    · simp only at hb ⊢
      exact ⟨by rw [hb.1, hl2.1], hb.2⟩

theorem DecodeLoop_ret_nil : ∀ (F : Nat) (d : decoder) (out : Option (List Byte)),
    DecodeLoop F d = Exec.ret (out, none) → d.spos < 4294967296 →
    d.src.length < 4294967296 := by
  intro F
  induction F with
  | zero => intro d out h; exact Exec.noConfusion h
  | succ F ih =>
    intro d out h hp
    rw [DecodeLoop_succ, Exec.bind_eq_ret] at h
    obtain ⟨x, hx, h⟩ := h
    have hi := iteration_ret d F x hx hp
    rcases x with ⟨o, e⟩ | d1
    · simp only [Exec.ret.injEq, Prod.mk.injEq] at h
      simp only at hi
      exact hi h.2
    · simp only at h hi
      rw [← hi.1]
      exact ih d1 out h hi.2

/-- An input that `Decode` accepts is shorter than `2^32` bytes. -/
theorem Decode_ret_nil (fuel : Nat) (dst : Option (List Byte)) (src : List Byte)
    (out : Option (List Byte)) (h : Decode fuel dst src = Exec.ret (out, none)) :
    src.length < 4294967296 := by
  have := DecodeLoop_ret_nil fuel (start dst src) out h (by rw [start_eq]; exact Nat.zero_lt_succ _)
  rw [start_eq] at this
  exact this

/-! ## C6: truncated input -/

theorem parseLit_eof {rest : List Byte} (h : parseLit rest = LitParse.eof) : rest = [] := by
  cases rest with
  | nil => rfl
  | cons c r =>
    simp only [parseLit] at h
    split at h
    · exact LitParse.noConfusion h
    · split at h <;> exact LitParse.noConfusion h

theorem parseRef_eof {c : Byte} {rest : List Byte} (h : parseRef c rest = RefParse.eof) :
    rest = [] := by
  rcases rest with _ | ⟨b1, _ | ⟨b2, r⟩⟩
  · rfl
  · simp [parseRef] at h
  · simp only [parseRef] at h
    split at h <;> exact RefParse.noConfusion h

/-- The pass over a cut input, read off the bytes left before the cut. -/
theorem iteration_take (d : decoder) (n F : Nat) (hw : d.wf) (hn : d.spos ≤ n)
    (hn2 : n ≤ d.src.length) (hF : d.src.length - d.spos ≤ F) :
    decoder.iteration { d with src := d.src.take n } F =
      match parseLit ((d.src.drop d.spos).take (n - d.spos)) with
      | LitParse.eof => Exec.ret (Sum.inl (some d.dst, none))
      | LitParse.corrupt => Exec.ret (Sum.inl (none, some Error.ErrCorrupt))
      | LitParse.ok c lits used =>
        match parseRef c (((d.src.drop d.spos).take (n - d.spos)).drop used) with
        | RefParse.eof => Exec.ret (Sum.inl (some (d.dst ++ lits), none))
        | RefParse.half => Exec.ret (Sum.inl (some (d.dst ++ lits), some Error.ErrCorrupt))
        | RefParse.corrupt => Exec.ret (Sum.inl (none, some Error.ErrCorrupt))
        | RefParse.ok o m used2 =>
          (decoder.expand
            (decoder.mk (d.src.take n) (d.dst ++ lits) (d.spos + used + used2)
              (u32 (d.dpos + lits.length))
              (u32 (u32 (d.dpos + lits.length) + 4294967296 - o))) m).bind
            fun d4 => Exec.ret (Sum.inr d4) := by
  have hlen : (d.src.take n).length = n := by rw [List.length_take]; omega
  have hl := hw.2.1
  exact iteration_eq { d with src := d.src.take n } F _ (List.drop_take n d.spos d.src)
    (by simp only; omega) (by simp only; omega) (by simp only; exact wf_dpos_lt hw)
    (by rw [List.length_take, List.length_drop]; omega)

theorem DecodeLoop_truncated : ∀ (F : Nat) (d : decoder) (O : List Byte) (n : Nat), d.wf →
    d.spos ≤ n → n < d.src.length → d.src.length - d.spos < F →
    DecodeLoop F d = Exec.ret (some O, none) → n ∉ boundaries F d → n ∉ literalEnds F d →
    ∃ out, DecodeLoop F { d with src := d.src.take n } = Exec.ret (out, some Error.ErrCorrupt) := by
  intro F
  induction F with
  | zero => intro d O n _ _ _ _ h; exact Exec.noConfusion h
  | succ F ih =>
    intro d O n hw hn hn2 hF hret hb hle
    have hne : n ≠ d.spos := by
      intro h
      apply hb
      rw [h]
      simp only [boundaries, List.mem_cons, true_or]
    have hlt : d.spos < n := by omega
    have hrl := wf_rest_length d
    have hFr : (d.src.drop d.spos).length ≤ F := by rw [hrl]; omega
    have hit := iteration_eq d F _ rfl hw.1 hw.2.1 (wf_dpos_lt hw) hFr
    have hlit := literals_eq d F _ rfl hw.1 hw.2.1 (wf_dpos_lt hw) hFr
    have hitp := iteration_take d n F hw hn (by omega) (by omega)
    rw [DecodeLoop_succ] at hret ⊢
    rcases hp : parseLit (d.src.drop d.spos) with _ | _ | ⟨c, lits, used⟩
    · have := parseLit_eof hp
      rw [this, List.length_nil] at hrl
      omega
    · rw [hp] at hit
      rw [hit] at hret
      simp at hret
    · rw [hp] at hit hlit
      simp only [] at hit hlit
      obtain ⟨hu1, hu2, -, -⟩ := parseLit_ok hp
      rw [hrl] at hu2
      have hne2 : n ≠ d.spos + used := by
        intro h
        apply hle
        simp only [literalEnds, hlit, List.mem_cons]
        left; exact h
      by_cases hj : n - d.spos < used
      · rw [parseLit_cut _ c lits used (n - d.spos) hp (by omega) hj] at hitp
        rw [hitp]
        exact ⟨none, rfl⟩
      · rw [parseLit_local _ _ c lits used hp (take_take_le _ (by omega))] at hitp
        simp only [] at hitp
        have hdt : ((d.src.drop d.spos).take (n - d.spos)).drop used
            = ((d.src.drop d.spos).drop used).take (n - d.spos - used) :=
          List.drop_take _ _ _
        rw [hdt] at hitp
        rcases hq : parseRef c ((d.src.drop d.spos).drop used) with _ | _ | _ | ⟨o, m, used2⟩
        · have := congrArg List.length (parseRef_eof hq)
          rw [List.length_drop, hrl, List.length_nil] at this
          omega
        · rw [hq] at hit
          rw [hit] at hret
          simp at hret
        · rw [hq] at hit
          rw [hit] at hret
          simp at hret
        · rw [hq] at hit
          simp only [] at hit
          obtain ⟨hv1, hv2, -, hm, b1, b2, r, m0, h, hrest2, -, -, -, -⟩ := parseRef_ok hq
          rw [List.length_drop, hrl] at hv2
          rcases he : decoder.expand (decoder.mk d.src (d.dst ++ lits) (d.spos + used + used2)
              (u32 (d.dpos + lits.length))
              (u32 (u32 (d.dpos + lits.length) + 4294967296 - o))) m with d4 | _ | _
          · rw [he] at hit
            simp only [Exec.ret_bind] at hit
            rw [hit] at hret
            simp only [Exec.ret_bind] at hret
            obtain ⟨w4, s4, p4, -⟩ := iteration_wf d d4 F hw (by omega) hit
            obtain ⟨-, sp4⟩ := expand_src_spos _ _ _ he
            simp only at sp4
            have hb4 : n ∉ boundaries F d4 := by
              intro h
              apply hb
              simp only [boundaries, hit, List.mem_cons]
              right; exact h
            have hback : decoder.backref (decoder.mk d.src (d.dst ++ lits) (d.spos + used)
                (u32 (d.dpos + lits.length)) d.ref) c F = Exec.ret (Sum.inr d4) := by
              have := hit
              unfold decoder.iteration at this
              rw [hlit] at this
              exact this
            have hle4 : n ∉ literalEnds F d4 := by
              intro h
              apply hle
              simp only [literalEnds, hlit, hback, List.mem_cons]
              right; exact h
            by_cases hj2 : n - d.spos - used < used2
            · by_cases hone : n - d.spos - used = 1
              · rw [hone, hrest2] at hitp
                simp only [List.take_succ_cons, List.take_zero, parseRef] at hitp
                rw [hitp]
                exact ⟨_, rfl⟩
              · rw [parseRef_cut c _ o m used2 (n - d.spos - used) hq (by omega) hj2] at hitp
                rw [hitp]
                exact ⟨none, rfl⟩
            · rw [parseRef_local c _ _ o m used2 hq (take_take_le _ (by omega))] at hitp
              simp only [] at hitp
              have hes := expand_src (d.src.take n) (decoder.mk d.src (d.dst ++ lits)
                (d.spos + used + used2) (u32 (d.dpos + lits.length))
                (u32 (u32 (d.dpos + lits.length) + 4294967296 - o))) m
              simp only [] at hes
              rw [hes, he] at hitp
              simp only [Exec.ret_bind] at hitp
              rw [hitp]
              simp only [Exec.ret_bind]
              have hd4 : n ≠ d4.spos := by
                intro h
                cases F with
                | zero => exact Exec.noConfusion hret
                | succ F0 =>
                  apply hb4
                  rw [h]
                  simp only [boundaries, List.mem_cons, true_or]
              have := ih d4 O n w4 (by rw [sp4] at hd4 ⊢; omega) (by rw [s4]; exact hn2)
                (by rw [s4, sp4]; omega) hret hb4 hle4
              rw [s4] at this
              exact this
          · rw [he] at hit
            rw [hit] at hret
            simp at hret
          · rw [he] at hit
            rw [hit] at hret
            simp at hret

/-- C6 (amended: a cut right after the literals of a sequence is left
out): for every input `s` that `Decode` accepts with output `O` and every
cut `n < len(s)` that is neither a sequence boundary of `s` nor the
position right after the literals of one of its sequences, `Decode` of the
first `n` bytes returns `ErrCorrupt`: no panic, no nil error. -/
theorem Decode_truncated (s O : List Byte) (fuel n : Nat) (dst : Option (List Byte))
    (hfuel : s.length < fuel) (hs : Decode fuel dst s = Exec.ret (some O, none))
    (hn : n < s.length) (hb : n ∉ boundaries fuel (start dst s))
    (hl : n ∉ literalEnds fuel (start dst s)) :
    ∃ out, Decode fuel dst (s.take n) = Exec.ret (out, some Error.ErrCorrupt) := by
  have hlen := Decode_ret_nil fuel dst s _ hs
  have hw := start_wf dst s hlen
  have hsrc : (start dst s).src = s := by rw [start_eq]
  have hspos : (start dst s).spos = 0 := by rw [start_eq]
  have := DecodeLoop_truncated fuel (start dst s) O n hw (by rw [hspos]; omega)
    (by rw [hsrc]; exact hn) (by rw [hsrc, hspos]; omega) hs hb hl
  rw [hsrc] at this
  have hst : ({ start dst s with src := s.take n } : decoder) = start dst (s.take n) := by
    rw [start_eq, start_eq]
  rw [hst] at this
  exact this

/-- Witness for C6: `0x10 'A' 01 00` cut after 3 bytes, inside the offset. -/
theorem Decode_truncated_witness :
    ∃ out, Decode 5 none (([0x10, 65, 1, 0] : List Byte).take 3)
      = Exec.ret (out, some Error.ErrCorrupt) :=
  Decode_truncated [0x10, 65, 1, 0] [65, 65, 65, 65, 65] 5 3 none (by decide) (by decide)
    (by decide) (by decide) (by decide)

/-- Counterexample to C6 as stated: `0x10 'A' 01 00` is accepted with
output `AAAAA`; cut after 2 bytes, right after the literal and before the
offset that followed, it is accepted too, with the shorter output `A` and a
nil error. -/
theorem Decode_truncated_after_literals :
    Decode 5 none [0x10, 65, 1, 0] = Exec.ret (some [65, 65, 65, 65, 65], none) ∧
    2 < ([0x10, 65, 1, 0] : List Byte).length ∧
    2 ∉ boundaries 5 (start none [0x10, 65, 1, 0]) ∧
    Decode 5 none (([0x10, 65, 1, 0] : List Byte).take 2) = Exec.ret (some [65], none) ∧
    ¬ ∃ fuel out, Decode fuel none (([0x10, 65, 1, 0] : List Byte).take 2)
      = Exec.ret (out, some Error.ErrCorrupt) := by
  have h2 : Decode 5 none (([0x10, 65, 1, 0] : List Byte).take 2) = Exec.ret (some [65], none) := by
    decide
  refine ⟨by decide, by decide, by decide, h2, ?_⟩
  rintro ⟨fuel, out, h⟩
  have hu := Decode_fuel_unique fuel 5 none _ (by rw [h]; simp) (by rw [h2]; simp)
  rw [h, h2] at hu
  simp at hu

/-! ## C4: which inputs `Decode` accepts -/

/-- A match with a valid offset: `expand` returns, having appended exactly
`length + 4` bytes. -/
theorem expand_valid (d : decoder) (length o : Nat) (hd : d.dpos = d.dst.length)
    (href : d.ref = d.dst.length - o) (ho : 1 ≤ o) (ho2 : o ≤ d.dst.length)
    (hb : d.dst.length + length + 4 < 4294967296) :
    ∃ d4, d.expand length = Exec.ret d4 ∧ d4.src = d.src ∧ d4.spos = d.spos ∧
      d4.dst.length = d.dst.length + (length + 4) ∧ d4.dpos = d4.dst.length := by
  by_cases h4 : 4 ≤ o
  · refine ⟨_, expand_far d length o hd href h4 ho2 hb, rfl, rfl, ?_, ?_⟩
    · exact copyFrom_length _ _ _ (by omega)
    · simp only
      rw [copyFrom_length _ _ _ (by omega)]
  · obtain ⟨k, hk⟩ := decr_some ho (by omega)
    have hk4 : k ≤ 3 := by rcases decr_cases ho (by omega) hk with h | h | h <;> omega
    have hl1 : (copyFrom d.dst (d.dst.length - o) 4).length = d.dst.length + 4 :=
      copyFrom_length _ _ _ (by omega)
    have hl2 : (copyFrom (copyFrom d.dst (d.dst.length - o) 4) (d.dst.length - o + (4 - k))
        length).length = d.dst.length + (length + 4) := by
      rw [copyFrom_length _ _ _ (by rw [hl1]; omega), hl1]
      omega
    refine ⟨_, expand_near d length o k hd href ho (by omega) ho2 hk hb, rfl, rfl, hl2, ?_⟩
    simp only
    rw [hl2]
    omega

theorem scanAux_ge : ∀ (f out : Nat) (rest : List Byte), out ≤ (scanAux f out rest).2 := by
  intro f
  induction f with
  | zero => intro out rest; simp [scanAux]
  | succ f ih =>
    intro out rest
    cases rest with
    | nil => simp [scanAux]
    | cons c r =>
      simp only [scanAux]
      split
      · exact Nat.le_refl _
      · rename_i n h _
        split
        · simp only; omega
        · split
          · simp only; omega
          · simp only; omega
          · rename_i b1 b2 r2 _
            split
            · simp only; omega
            · split
              · simp only; omega
              · rename_i m k _
                have := ih (out + n + (m + 4)) (r2.drop k)
                omega

theorem DecodeLoop_scan : ∀ (f : Nat) (d : decoder) (F : Nat), d.wf →
    (d.src.drop d.spos).length < f → (d.src.drop d.spos).length < F →
    (scanAux f d.dst.length (d.src.drop d.spos)).2 < 4294967296 →
    (scanAux f d.dst.length (d.src.drop d.spos)).1 ≠ Shape.badOffset →
    ∃ out err, DecodeLoop F d = Exec.ret (out, err) ∧
      (err = none ↔ (scanAux f d.dst.length (d.src.drop d.spos)).1 = Shape.complete) ∧
      ((scanAux f d.dst.length (d.src.drop d.spos)).1 ≠ Shape.complete →
        err = some Error.ErrCorrupt) := by
  intro f
  induction f with
  | zero => intro d F _ h; omega
  | succ f ih =>
    intro d F hw hf hF hout hoff
    obtain ⟨F, rfl⟩ : ∃ F0, F = F0 + 1 := ⟨F - 1, by omega⟩
    have hge := scanAux_ge (f + 1) d.dst.length (d.src.drop d.spos)
    have hdpos : d.dpos = d.dst.length := by
      rw [hw.2.2]; exact u32_of_lt (by omega)
    have hit := iteration_eq d F _ rfl hw.1 hw.2.1 (wf_dpos_lt hw) (by omega)
    rw [DecodeLoop_succ, hit]
    rcases hrest : d.src.drop d.spos with _ | ⟨c, r⟩
    · simp [scanAux, parseLit]
    · rw [hrest] at hout hoff hf hF
      simp only [List.length_cons] at hf hF
      simp only [scanAux] at hout hoff ⊢
      simp only [parseLit]
      rcases hfield : field (c.val / 16) r with _ | ⟨n, h⟩
      · simp
      · rw [hfield] at hout hoff
        simp only [] at hout hoff ⊢
        have hh := field_count_le hfield
        by_cases hn : r.length - h < n
        · simp only [hn, if_true] at hout hoff ⊢
          have hu : u32 n = n := u32_of_lt (by omega)
          have : ¬ u32 n ≤ r.length - h := by rw [hu]; omega
          simp [this]
        · simp only [hn, if_false] at hout hoff ⊢
          have hnl : n ≤ r.length - h := by omega
          have hdd : (c :: r).drop (1 + h + n) = r.drop (h + n) := by
            have e : 1 + h + n = (h + n) + 1 := by omega
            rw [e, List.drop_succ_cons]
          have hll : ((r.drop h).take n).length = n := by
            rw [List.length_take, List.length_drop]; omega
          rcases hr2 : r.drop (h + n) with _ | ⟨b1, _ | ⟨b2, r2⟩⟩
          · rw [hr2] at hout hoff
            simp only [] at hout hoff
            have hu : u32 n = n := u32_of_lt (by omega)
            simp [hu, hnl, hdd, hr2, parseRef]
          · rw [hr2] at hout hoff
            simp only [] at hout hoff
            have hu : u32 n = n := u32_of_lt (by omega)
            simp [hu, hnl, hdd, hr2, parseRef]
          · rw [hr2] at hout hoff
            simp only [] at hout hoff
            by_cases hbad : b1.val + 256 * b2.val = 0 ∨ d.dst.length + n < b1.val + 256 * b2.val
            · rw [if_pos hbad] at hoff
              exact absurd rfl hoff
            · simp only [hbad, if_false] at hout hoff ⊢
              rcases hfield2 : field (c.val % 16) r2 with _ | ⟨m, k⟩
              · rw [hfield2] at hout
                simp only [] at hout
                have hu : u32 n = n := u32_of_lt (by omega)
                simp [hu, hnl, hdd, hr2, parseRef, hfield2]
              · rw [hfield2] at hout hoff
                simp only [] at hout hoff ⊢
                have hge2 := scanAux_ge f (d.dst.length + n + (m + 4)) (r2.drop k)
                have hu : u32 n = n := u32_of_lt (by omega)
                have hum : u32 m = m := u32_of_lt (by omega)
                have hk := field_count_le hfield2
                have hl2 : (r.drop (h + n)).length = r2.length + 2 := by rw [hr2]; rfl
                rw [List.length_drop] at hl2
                simp only [hu, hnl, if_true, hdd, hr2, parseRef, hfield2, hum, hll, hdpos]
                have hu2 : u32 (d.dst.length + n) = d.dst.length + n := u32_of_lt (by omega)
                have hu3 : u32 (d.dst.length + n + 4294967296 - (b1.val + 256 * b2.val))
                    = d.dst.length + n - (b1.val + 256 * b2.val) := by
                  unfold u32; omega
                rw [hu2, hu3]
                have hdl : (d.dst ++ (r.drop h).take n).length = d.dst.length + n := by
                  rw [List.length_append, hll]
                obtain ⟨d4, he, s4, p4, l4, q4⟩ := expand_valid
                  (decoder.mk d.src (d.dst ++ (r.drop h).take n) (d.spos + (1 + h + n) + (2 + k))
                    (d.dst.length + n) (d.dst.length + n - (b1.val + 256 * b2.val)))
                  m (b1.val + 256 * b2.val) (by simp only; rw [hdl]) (by simp only; rw [hdl])
                  (by omega) (by simp only; rw [hdl]; omega) (by simp only; rw [hdl]; omega)
                simp only at s4 p4 l4
                rw [hdl] at l4
                rw [he]
                simp only [Exec.ret_bind]
                have hlen := wf_rest_length d
                rw [hrest] at hlen
                simp only [List.length_cons] at hlen
                have hw4 : d4.wf := by
                  refine ⟨?_, by rw [s4]; exact hw.2.1, ?_⟩
                  · rw [s4, p4]; omega
                  · rw [q4]; exact (u32_of_lt (by rw [l4]; omega)).symm
                have hrest4 : d4.src.drop d4.spos = r2.drop k := by
                  rw [s4, p4]
                  have e : d.spos + (1 + h + n) + (2 + k) = d.spos + ((h + n) + 1 + (2 + k)) := by
                    omega
                  rw [e, drop_add_of_drop _ hrest, ← List.drop_drop, List.drop_succ_cons, hr2]
                  have e2 : 2 + k = k + 1 + 1 := by omega
                  rw [e2]
                  rfl
                have hih := ih d4 F hw4 (by rw [hrest4, List.length_drop]; omega)
                  (by rw [hrest4, List.length_drop]; omega)
                rw [hrest4, l4] at hih
                exact hih hout hoff

/-- C4 (amended with the size bounds): for an input shorter than `2^32`
bytes whose sequences call for fewer than `2^32` output bytes and whose
offsets all lie between 1 and the output length so far, `Decode` returns,
with a nil error exactly when the input is complete sequences (the last one
possibly ending after its literals), and with `ErrCorrupt` when the input
ends inside a literal-length escape, the literals, the offset or a
match-length escape. -/
theorem Decode_clean_exit (src : List Byte) (fuel : Nat) (dst : Option (List Byte))
    (hlen : src.length < 4294967296) (hout : (scan src).2 < 4294967296)
    (hoff : (scan src).1 ≠ Shape.badOffset) (hfuel : src.length < fuel) :
    ∃ out err, Decode fuel dst src = Exec.ret (out, err) ∧
      (err = none ↔ (scan src).1 = Shape.complete) ∧
      ((scan src).1 = Shape.inLitLen ∨ (scan src).1 = Shape.inLiterals ∨
        (scan src).1 = Shape.inOffset ∨ (scan src).1 = Shape.inMatchLen →
        err = some Error.ErrCorrupt) := by
  have hw := start_wf dst src hlen
  have h := DecodeLoop_scan (src.length + 1) (start dst src) fuel hw
    (by rw [start_eq]; simp) (by rw [start_eq]; simpa using hfuel)
  rw [start_eq] at h
  simp only [List.drop_zero, List.length_nil] at h
  obtain ⟨out, err, h1, h2, h3⟩ := h hout hoff
  refine ⟨out, err, by unfold Decode; rw [start_eq]; exact h1, h2, ?_⟩
  intro hs
  apply h3
  change (scan src).1 ≠ Shape.complete
  rcases hs with hs | hs | hs | hs <;> rw [hs] <;> simp

/-- Witness for C4: `0xF0 255 10` announces 280 literals; with 3 of them
the input ends inside the literals and `Decode` returns `ErrCorrupt`. -/
theorem Decode_clean_exit_witness :
    (scan [0xF0, 255, 10, 1, 2, 3]).1 = Shape.inLiterals ∧
    ∃ out err, Decode 7 none [0xF0, 255, 10, 1, 2, 3] = Exec.ret (out, err) ∧
      (err = none ↔ (scan [0xF0, 255, 10, 1, 2, 3]).1 = Shape.complete) ∧
      ((scan [0xF0, 255, 10, 1, 2, 3]).1 = Shape.inLitLen ∨
        (scan [0xF0, 255, 10, 1, 2, 3]).1 = Shape.inLiterals ∨
        (scan [0xF0, 255, 10, 1, 2, 3]).1 = Shape.inOffset ∨
        (scan [0xF0, 255, 10, 1, 2, 3]).1 = Shape.inMatchLen →
        err = some Error.ErrCorrupt) :=
  ⟨by decide,
   Decode_clean_exit [0xF0, 255, 10, 1, 2, 3] 7 none (by decide) (by decide) (by decide)
    (by decide)⟩

theorem bigLitCut_length : bigLitCut.length = 16843025 := by
  rw [bigLitCut, List.length_cons, List.length_append, lenField_big, List.length_replicate]

theorem bigLitCut_field :
    field ((0xF0 : Byte).val / 16) (lenField 4294967310 ++ List.replicate 14 0)
      = some (4294967310, 16843010) := by
  have := field_lenField 4294967310 (List.replicate 14 0)
  rw [lenField_big] at this
  exact this

theorem scanAux_inLiterals (f out : Nat) (c : Byte) (r : List Byte) (n h : Nat)
    (hfield : field (c.val / 16) r = some (n, h)) (hlt : r.length - h < n) :
    (scanAux (f + 1) out (c :: r)).1 = Shape.inLiterals := by
  simp only [scanAux, hfield, hlt, if_true]

theorem bigLitCut_scan : (scan bigLitCut).1 = Shape.inLiterals := by
  have hlt : (lenField 4294967310 ++ List.replicate 14 (0 : Byte)).length - 16843010
      < 4294967310 := by
    rw [List.length_append, lenField_big, List.length_replicate]
    decide
  have key := scanAux_inLiterals 16843025 0 0xF0
    (lenField 4294967310 ++ List.replicate 14 (0 : Byte)) 4294967310 16843010 bigLitCut_field hlt
  unfold scan
  rw [bigLitCut_length]
  exact key

theorem DecodeLoop_literals_eof (d d1 : decoder) (c : Byte) (F : Nat)
    (h1 : d.literals F = Exec.ret (Sum.inr (c, d1))) (h2 : d1.spos = d1.src.length) :
    DecodeLoop (F + 1) d = Exec.ret (some d1.dst, none) := by
  rw [DecodeLoop_succ, decoder.iteration, h1]
  simp only [Exec.ret_bind]
  rw [backref_eof d1 c F h2]
  rfl

theorem bigLitCut_literals (F : Nat) (hF : 16843010 ≤ F) :
    (decoder.mk bigLitCut [] 0 0 0).literals F = Exec.ret (Sum.inr (0xF0,
      decoder.mk bigLitCut (List.replicate 14 0) (0 + (1 + 16843010 + 14)) (u32 (0 + 14)) 0)) := by
  have hdrop : (lenField 4294967310 ++ List.replicate 14 (0 : Byte)).drop 16843010
      = List.replicate 14 0 := by
    rw [← lenField_big]; exact List.drop_left _ _
  have hsrc : (decoder.mk bigLitCut [] 0 0 0).src.drop (decoder.mk bigLitCut [] 0 0 0).spos
      = (0xF0 : Byte) :: (lenField 4294967310 ++ List.replicate 14 0) := by
    rw [bigLitCut]; rfl
  have hle : u32 4294967310
      ≤ (lenField 4294967310 ++ List.replicate 14 (0 : Byte)).length - 16843010 := by
    rw [u32_big, List.length_append, lenField_big, List.length_replicate]
  have hlit := literals_ok (decoder.mk bigLitCut [] 0 0 0) F 0xF0
    (lenField 4294967310 ++ List.replicate 14 0) 4294967310 16843010
    hsrc bigLitCut_field hle (by omega)
    (by rw [u32_big]; show 0 + (1 + 16843010 + 14) < 4294967296; omega)
    (by show (0 : Nat) < 4294967296; omega)
  have ht : List.take 14 (List.replicate 14 (0 : Byte)) = List.replicate 14 0 := by
    rw [List.take_replicate]; rfl
  rw [u32_big, hdrop, ht, List.nil_append] at hlit
  exact hlit

theorem bigLitCut_accepted (F : Nat) (hF : 16843010 ≤ F) :
    Decode (F + 1) none bigLitCut = Exec.ret (some (List.replicate 14 0), none) := by
  unfold Decode
  rw [start_eq]
  exact DecodeLoop_literals_eof _ _ _ F (bigLitCut_literals F hF)
    (by show 0 + (1 + 16843010 + 14) = bigLitCut.length; rw [bigLitCut_length])

/-- Counterexample to C4 as stated: `bigLitCut` announces `2^32 + 14`
literals and holds 14, so it ends inside its literals and has no offset at
all; but the length wraps to 14 in `uint32` and `Decode` accepts the input
with a nil error. -/
theorem Decode_clean_exit_overflow :
    (scan bigLitCut).1 = Shape.inLiterals ∧
    Decode 16843026 none bigLitCut = Exec.ret (some (List.replicate 14 0), none) ∧
    ¬ ∃ fuel out, Decode fuel none bigLitCut = Exec.ret (out, some Error.ErrCorrupt) := by
  have h := bigLitCut_accepted 16843025 (by omega)
  refine ⟨bigLitCut_scan, h, ?_⟩
  rintro ⟨fuel, out, hD⟩
  have hu := Decode_fuel_unique fuel 16843026 none _ (by rw [hD]; simp) (by rw [h]; simp)
  rw [hD, h] at hu
  simp only [Exec.ret.injEq, Prod.mk.injEq] at hu
  exact Option.noConfusion hu.2

/-! ## C7, C8, C9: errors, the destination argument, the empty input -/

/-- C7: whenever `Decode` returns, the error it returns is nil or
`ErrCorrupt`; the `io.EOF` of the internal reads never reaches the caller. -/
theorem Decode_error_kind (fuel : Nat) (dst : Option (List Byte)) (src : List Byte)
    (out : Option (List Byte)) (err : Option Error)
    (h : Decode fuel dst src = Exec.ret (out, err)) :
    (err = none ∨ err = some Error.ErrCorrupt) ∧ err ≠ some Error.EOF := by
  have := DecodeLoop_err fuel (start dst src) out err h
  refine ⟨this, ?_⟩
  rcases this with h1 | h1 <;> simp [h1]

/-- Witness for C7 on the input `0x10 'A' 0x01`, cut inside the offset. -/
theorem Decode_error_kind_witness :
    Decode 4 none [0x10, 65, 1] = Exec.ret (some [65], some Error.ErrCorrupt) ∧
    (((some Error.ErrCorrupt : Option Error) = none ∨
        (some Error.ErrCorrupt : Option Error) = some Error.ErrCorrupt) ∧
      (some Error.ErrCorrupt : Option Error) ≠ some Error.EOF) :=
  ⟨by decide, Decode_error_kind 4 none [0x10, 65, 1] (some [65]) (some Error.ErrCorrupt)
    (by decide)⟩

/-- C8: the destination argument is only a hint: any two destinations, nil
or holding any bytes, give the same output and the same error. -/
theorem Decode_dst_irrelevant (fuel : Nat) (dst1 dst2 : Option (List Byte)) (src : List Byte) :
    Decode fuel dst1 src = Decode fuel dst2 src := by
  unfold Decode
  rw [start_eq, start_eq]

/-- C9: the empty input decodes to an output of length 0 with a nil error,
for any destination. -/
theorem Decode_empty (fuel : Nat) (dst : Option (List Byte)) (h : 0 < fuel) :
    Decode fuel dst [] = Exec.ret (some [], none) := by
  obtain ⟨f, rfl⟩ : ∃ f, fuel = f + 1 := ⟨fuel - 1, by omega⟩
  unfold Decode
  rw [start_eq, DecodeLoop_succ, decoder.iteration, literals_eof _ _ rfl]
  rfl

/-- Witness for C9 with a non-nil destination. -/
theorem Decode_empty_witness :
    0 < 1 ∧ Decode 1 (some [7, 7]) [] = Exec.ret (some [], none) :=
  ⟨by decide, Decode_empty 1 (some [7, 7]) (by decide)⟩

/-! ## C13, C14: `getLen` and `readUint16` on their own -/

theorem escape_replicate_none : ∀ (q : Nat), escape (List.replicate q (255 : Byte)) = none := by
  intro q
  induction q with
  | zero => rfl
  | succ q ih =>
    have h255 : ((255 : Byte) : Fin 256).val = 255 := rfl
    simp only [List.replicate_succ, escape, h255, if_true, ih, Option.map_none']

/-- C13: `getLen` decodes the size escape.  With no 32-bit overflow (the
input is shorter than `2^32` bytes, so `spos` does not wrap, and the sum
`255 * k + b` is below `2^32`): when the bytes left start with `k` bytes of
value 255 followed by a byte `b < 255`, `getLen` returns `255 * k + b` with a
nil error and `spos` advanced by `k + 1`; when the bytes left are `k` bytes of
value 255 and nothing else (none at all for `k = 0`), it returns `ErrCorrupt`.
The loop of `getLen` runs `k` times, which the fuel covers. -/
theorem getLen_escape (d : decoder) (k fuel : Nat) (hs : d.spos ≤ d.src.length)
    (hl : d.src.length < 4294967296) (hf : k ≤ fuel) :
    (∀ (b : Byte) (t : List Byte), d.src.drop d.spos = List.replicate k 255 ++ b :: t →
      b.val < 255 → 255 * k + b.val < 4294967296 →
      d.getLen fuel
        = Exec.ret ((255 * k + b.val, none), { d with spos := d.spos + (k + 1) })) ∧
    (d.src.drop d.spos = List.replicate k 255 →
      d.getLen fuel
        = Exec.ret ((0, some Error.ErrCorrupt), { d with spos := d.src.length })) := by
  constructor
  · intro b t hr hb hv
    have he := escape_replicate b t (by omega) k
    have hlen : (d.src.drop d.spos).length = k + (t.length + 1) := by
      rw [hr, List.length_append, List.length_replicate, List.length_cons]
    rw [List.length_drop] at hlen
    rw [getLen_some d _ fuel _ _ hr he (by omega) (by omega), u32_of_lt hv]
  · intro hr
    have he := escape_replicate_none k
    have hlen : (d.src.drop d.spos).length = k := by
      rw [hr, List.length_replicate]
    have hlen2 := hlen
    rw [List.length_drop] at hlen2
    exact getLen_none d _ fuel hr he (by rw [List.length_replicate]; exact hf)
      (by rw [List.length_replicate]; omega) hl

/-- Witness for C13: after the control byte of `F0 FF FF 07 09` the escape
`FF FF 07` gives `255 * 2 + 7`; in `F0 FF FF` the input ends inside it. -/
theorem getLen_escape_witness :
    (decoder.mk [0xF0, 255, 255, 7, 9] [] 1 0 0).getLen 2
        = Exec.ret ((255 * 2 + 7, none), decoder.mk [0xF0, 255, 255, 7, 9] [] (1 + (2 + 1)) 0 0) ∧
      (decoder.mk [0xF0, 255, 255] [] 1 0 0).getLen 2
        = Exec.ret ((0, some Error.ErrCorrupt), decoder.mk [0xF0, 255, 255] [] 3 0 0) :=
  ⟨(getLen_escape (decoder.mk [0xF0, 255, 255, 7, 9] [] 1 0 0) 2 2 (by decide) (by decide)
      (by decide)).1 7 [9] (by decide) (by decide) (by decide),
    (getLen_escape (decoder.mk [0xF0, 255, 255] [] 1 0 0) 2 2 (by decide) (by decide)
      (by decide)).2 (by decide)⟩

/-- C14: `readUint16` on an input shorter than `2^32` bytes: with at least
two bytes `b1`, `b2` left it returns `b1 + 256 * b2` and advances `spos` by 2;
with no byte left it returns `io.EOF` and leaves the state unchanged; with
exactly one byte left it returns `ErrCorrupt`. -/
theorem readUint16_cases (d : decoder) (hl : d.src.length < 4294967296) :
    (∀ (b1 b2 : Byte) (t : List Byte), d.src.drop d.spos = b1 :: b2 :: t →
      d.readUint16 = Exec.ret ((b1.val + 256 * b2.val, none), { d with spos := d.spos + 2 })) ∧
    (d.spos = d.src.length → d.readUint16 = Exec.ret ((0, some Error.EOF), d)) ∧
    (∀ (b : Byte), d.src.drop d.spos = [b] →
      d.readUint16 = Exec.ret ((0, some Error.ErrCorrupt), { d with spos := d.spos + 1 })) := by
  refine ⟨?_, ?_, ?_⟩
  · intro b1 b2 t hr
    have hlen : (d.src.drop d.spos).length = t.length + 1 + 1 := by
      rw [hr, List.length_cons, List.length_cons]
    rw [List.length_drop] at hlen
    exact readUint16_two d b1 b2 t hr (by omega)
  · intro h
    exact readUint16_nil d h
  · intro b hr
    exact readUint16_one d b hr hl

/-- Witness for C14: two bytes `01 02` left, none left, and one left. -/
theorem readUint16_cases_witness :
    (decoder.mk [0x10, 65, 1, 2] [65] 2 1 0).readUint16
        = Exec.ret (((1 : Byte).val + 256 * (2 : Byte).val, none),
            decoder.mk [0x10, 65, 1, 2] [65] (2 + 2) 1 0) ∧
      (decoder.mk [0x10, 65] [65] 2 1 0).readUint16
        = Exec.ret ((0, some Error.EOF), decoder.mk [0x10, 65] [65] 2 1 0) ∧
      (decoder.mk [0x10, 65, 1] [65] 2 1 0).readUint16
        = Exec.ret ((0, some Error.ErrCorrupt), decoder.mk [0x10, 65, 1] [65] (2 + 1) 1 0) :=
  ⟨(readUint16_cases (decoder.mk [0x10, 65, 1, 2] [65] 2 1 0) (by decide)).1 1 2 [] (by decide),
    (readUint16_cases (decoder.mk [0x10, 65] [65] 2 1 0) (by decide)).2.1 (by decide),
    (readUint16_cases (decoder.mk [0x10, 65, 1] [65] 2 1 0) (by decide)).2.2 1 (by decide)⟩

theorem wrapInput_length : wrapInput.length = 4294967297 := by
  rw [wrapInput, List.length_append, List.length_replicate]
  rfl

theorem wrapInput_drop : wrapInput.drop 4294967295 = [1, 2] := by
  rw [wrapInput]
  exact List.drop_left' (List.length_replicate _ _)

theorem wrapInput_last : wrapInput[4294967295]? = some 1 := by
  have h := List.getElem?_drop (L := wrapInput) (i := 4294967295) (j := 0)
  rw [wrapInput_drop] at h
  exact h.symm

theorem wrapInput_first : wrapInput[0]? = some 0 := by
  rw [wrapInput, List.getElem?_append_left (by rw [List.length_replicate]; omega),
    List.getElem?_replicate]
  rfl

/-- At `spos = 2^32 - 1` the second read of `readUint16` is made at index 0:
the cursor has wrapped. -/
theorem readUint16_wrap (d : decoder) (b1 a : Byte) (hs : d.spos = 4294967295)
    (h1 : d.src[4294967295]? = some b1) (h0 : d.src[0]? = some a)
    (hl : d.src.length = 4294967297) :
    d.readUint16 = Exec.ret (((a.val <<< 8) ||| b1.val, none), { d with spos := 1 }) := by
  have hne : d.spos ≠ d.src.length := by omega
  have hu : u32 (4294967295 + 1) = 0 := rfl
  have hne0 : (0 : Nat) ≠ d.src.length := by omega
  have hu1 : u32 (0 + 1) = 1 := rfl
  have hr1 : d.readByte = Exec.ret ((b1, none), { d with spos := 0 }) := by
    simp only [decoder.readByte, hne, if_false]
    rw [hs, h1, hu]
  have hr2 : decoder.readByte { d with spos := 0 }
      = Exec.ret ((a, none), { d with spos := 1 }) := by
    simp only [decoder.readByte, hne0, if_false, h0, hu1]
  simp only [decoder.readUint16, hr1, Exec.ret_bind, hr2]

/-- C14, the limit of the `uint32` cursor: in an input of `2^32 + 1` bytes
the last two bytes are `1 2`, and with `spos = 2^32 - 1` exactly these two
bytes are left; `readUint16` returns 1, made of the last byte and the FIRST
byte of the input, not `1 + 256 * 2`, and `spos` becomes 1, not `spos + 2`. -/
theorem readUint16_cursor_wraps :
    (decoder.mk wrapInput [] 4294967295 0 0).src.drop (decoder.mk wrapInput [] 4294967295 0 0).spos
        = [1, 2] ∧
      (decoder.mk wrapInput [] 4294967295 0 0).readUint16
        = Exec.ret ((1, none), decoder.mk wrapInput [] 1 0 0) ∧
      (decoder.mk wrapInput [] 4294967295 0 0).readUint16
        ≠ Exec.ret (((1 : Byte).val + 256 * (2 : Byte).val, none),
            decoder.mk wrapInput [] (4294967295 + 2) 0 0) := by
  have h := readUint16_wrap (decoder.mk wrapInput [] 4294967295 0 0) 1 0 rfl wrapInput_last
    wrapInput_first wrapInput_length
  have hv : (((0 : Byte).val <<< 8) ||| (1 : Byte).val) = 1 := by decide
  rw [hv] at h
  refine ⟨wrapInput_drop, h, ?_⟩
  rw [h]
  intro hc
  have h2 := congrArg (fun x => match x with
    | Exec.ret r => r.1.1
    | _ => 0) hc
  simp only at h2
  revert h2
  decide

/-! ## C12, C16: `cp` on its own, its two branches and the fix-up copy -/

/-- C12: the bulk branch of `cp` refines the byte-at-a-time copy.  For a
state with `ref < len(dst)` and a length with `ref + length < 2^32`,
`cp(length, decr)` returns with `dst` equal to `copyFrom dst ref length`, the
result of appending the byte at index `ref + i` for `i = 0 .. length - 1` in
increasing order; the byte loop of `cp` run on the same state gives the same
`dst`; and when `ref + length < len(dst)`, where `cp` takes the bulk branch,
that `dst` is the single append `dst ++ dst[ref : ref + length]`. -/
theorem cp_refines_byte_loop (d : decoder) (length k : Nat) (href : d.ref < d.dst.length)
    (hb : d.ref + length < 4294967296) :
    ∃ d1 d2, d.cp length k = Exec.ret d1 ∧ decoder.cpLoop length 0 d = Exec.ret d2 ∧
      d1.dst = copyFrom d.dst d.ref length ∧ d1.dst = d2.dst ∧
      (d.ref + length < d.dst.length →
        d2.dst = d.dst ++ (d.dst.drop d.ref).take length ∧
        d.cp length k = Exec.ret { d with
          dst := d.dst ++ (d.dst.drop d.ref).take (u32 (d.ref + length) - d.ref),
          dpos := u32 (d.dpos + length),
          ref := u32 (d.ref + u32 (length + 4294967296 - k)) }) := by
  have h1 := cp_eq d length k (Or.inr href) hb
  have h2 := cpLoop_eq length 0 d (Or.inr (by omega)) (by omega)
  refine ⟨_, _, h1, h2, rfl, rfl, ?_⟩
  intro hlt
  have hu : u32 (d.ref + length) = d.ref + length := u32_of_lt hb
  refine ⟨?_, ?_⟩
  · simp only [Nat.add_zero]
    exact copyFrom_bulk _ _ _ (by omega)
  · rw [h1, hu, Nat.add_sub_cancel_left, copyFrom_bulk _ _ _ (by omega)]

/-- Witness for C12: three bytes copied from index 1 of a 5-byte output,
where `cp` takes the bulk branch. -/
theorem cp_refines_byte_loop_witness :
    ∃ d1 d2, (decoder.mk [] [1, 2, 3, 4, 5] 0 5 1).cp 3 0 = Exec.ret d1 ∧
      decoder.cpLoop 3 0 (decoder.mk [] [1, 2, 3, 4, 5] 0 5 1) = Exec.ret d2 ∧
      d1.dst = copyFrom [1, 2, 3, 4, 5] 1 3 ∧ d1.dst = d2.dst ∧
      (1 + 3 < ([1, 2, 3, 4, 5] : List Byte).length →
        d2.dst = [1, 2, 3, 4, 5] ++ (([1, 2, 3, 4, 5] : List Byte).drop 1).take 3 ∧
        (decoder.mk [] [1, 2, 3, 4, 5] 0 5 1).cp 3 0 = Exec.ret { decoder.mk [] [1, 2, 3, 4, 5] 0 5 1 with
          dst := [1, 2, 3, 4, 5] ++ (([1, 2, 3, 4, 5] : List Byte).drop 1).take (u32 (1 + 3) - 1),
          dpos := u32 (5 + 3),
          ref := u32 (1 + u32 (3 + 4294967296 - 0)) }) :=
  cp_refines_byte_loop (decoder.mk [] [1, 2, 3, 4, 5] 0 5 1) 3 0 (by decide) (by decide)

/-- C16: the fix-up copy.  In the short-distance regime, with
`literal = dpos - ref` in `{1, 2, 3}` and `k = decr[literal]`, the call
`cp(4, k)` advances `dpos` by 4 and `ref` by `4 - k`, which is 1, 2, 1 for
`literal` = 1, 2, 3: equal to `4 - literal` for 2 and 3 only.  After it the
distance `dpos - ref` is 4, 4, 6, a multiple of `literal`. -/
theorem cp_fixup (d : decoder) (literal k : Nat)
    (hlit : u32 (d.dpos + 4294967296 - d.ref) = literal) (h1 : 1 ≤ literal) (h3 : literal ≤ 3)
    (hk : decr[literal]? = some k) (href : d.ref < d.dst.length) (hr : d.ref ≤ d.dpos)
    (hd : d.dpos + 4 < 4294967296) :
    ∃ d1, d.cp 4 k = Exec.ret d1 ∧ d1.dpos = d.dpos + 4 ∧ d1.ref = d.ref + (4 - k) ∧
      4 - k = (if literal = 2 then 2 else 1) ∧
      (literal ≠ 1 → d1.ref = d.ref + (4 - literal)) ∧
      (literal = 1 → d1.ref = d.ref + 1) ∧
      (d1.dpos - d1.ref) % literal = 0 := by
  have hc := cp_eq d 4 k (Or.inr href) (by omega)
  have hlit2 : d.dpos - d.ref = literal := by
    have : d.dpos + 4294967296 - d.ref = (d.dpos - d.ref) + 4294967296 := by omega
    rw [this] at hlit
    unfold u32 at hlit
    omega
  have hkk : 4 - k = (if literal = 2 then 2 else 1) ∧ k ≤ 4 := by
    rcases decr_cases h1 h3 hk with ⟨rfl, rfl⟩ | ⟨rfl, rfl⟩ | ⟨rfl, rfl⟩ <;> decide
  have hu1 : u32 (d.dpos + 4) = d.dpos + 4 := u32_of_lt hd
  have hu2 : u32 (4 + 4294967296 - k) = 4 - k := by
    have : 4 + 4294967296 - k = (4 - k) + 4294967296 := by omega
    rw [this]
    unfold u32
    omega
  have hu3 : u32 (d.ref + (4 - k)) = d.ref + (4 - k) := u32_of_lt (by omega)
  refine ⟨_, hc, ?_, ?_, hkk.1, ?_, ?_, ?_⟩
  · simp only [hu1]
  · simp only [hu2, hu3]
  · intro hne
    simp only [hu2, hu3]
    rcases decr_cases h1 h3 hk with ⟨rfl, rfl⟩ | ⟨rfl, rfl⟩ | ⟨rfl, rfl⟩
    · exact absurd rfl hne
    · rfl
    · rfl
  · intro he
    simp only [hu2, hu3]
    rcases decr_cases h1 h3 hk with ⟨rfl, rfl⟩ | ⟨rfl, rfl⟩ | ⟨rfl, rfl⟩
    · rfl
    · exact absurd he (by decide)
    · exact absurd he (by decide)
  · simp only [hu1, hu2, hu3]
    rcases decr_cases h1 h3 hk with ⟨rfl, rfl⟩ | ⟨rfl, rfl⟩ | ⟨rfl, rfl⟩ <;> omega

/-- Witness for C16: distance 3 on the output `7 8 9`. -/
theorem cp_fixup_witness :
    ∃ d1, (decoder.mk [] [7, 8, 9] 0 3 0).cp 4 3 = Exec.ret d1 ∧ d1.dpos = 3 + 4 ∧
      d1.ref = 0 + (4 - 3) ∧ 4 - 3 = (if 3 = 2 then 2 else 1) ∧
      (3 ≠ 1 → d1.ref = 0 + (4 - 3)) ∧ (3 = 1 → d1.ref = 0 + 1) ∧
      (d1.dpos - d1.ref) % 3 = 0 :=
  cp_fixup (decoder.mk [] [7, 8, 9] 0 3 0) 3 3 (by decide) (by decide) (by decide) (by decide)
    (by decide) (by decide) (by decide)

/-- C16, the case `literal = 1`: with output `X` (one byte), `dpos = 1` and
`ref = 0` the distance is 1 and `decr[1] = 3`; the fix-up copy `cp(4, 3)`
leaves `ref = 1`, an advance of 1 and not of `4 - literal = 3`. -/
theorem cp_fixup_distance_one :
    u32 ((decoder.mk [] [88] 0 1 0).dpos + 4294967296 - (decoder.mk [] [88] 0 1 0).ref) = 1 ∧
      decr[1]? = some 3 ∧
      (decoder.mk [] [88] 0 1 0).cp 4 3
        = Exec.ret (decoder.mk [] [88, 88, 88, 88, 88] 0 5 1) ∧
      ¬ ∃ d1, (decoder.mk [] [88] 0 1 0).cp 4 3 = Exec.ret d1 ∧
        d1.ref = (decoder.mk [] [88] 0 1 0).ref + (4 - 1) := by
  have h : (decoder.mk [] [88] 0 1 0).cp 4 3
      = Exec.ret (decoder.mk [] [88, 88, 88, 88, 88] 0 5 1) := by decide
  refine ⟨by decide, by decide, h, ?_⟩
  rintro ⟨d1, h1, h2⟩
  rw [h] at h1
  cases h1
  revert h2
  decide

/-! ## C15: the output-length invariant -/

theorem readByte_out (d d1 : decoder) (r : Byte × Option Error)
    (h : d.readByte = Exec.ret (r, d1)) :
    d1.dst = d.dst ∧ d1.dpos = d.dpos ∧ d1.ref = d.ref := by
  unfold decoder.readByte at h
  split at h
  · simp only [Exec.ret.injEq, Prod.mk.injEq] at h
    obtain ⟨-, rfl⟩ := h
    exact ⟨rfl, rfl, rfl⟩
  · split at h
    · exact Exec.noConfusion h
    · simp only [Exec.ret.injEq, Prod.mk.injEq] at h
      obtain ⟨-, rfl⟩ := h
      exact ⟨rfl, rfl, rfl⟩

theorem getLenLoop_out : ∀ (f : Nat) (d d1 : decoder) (acc : Nat) (ln : Byte)
    (r : Nat × Option Error), decoder.getLenLoop f d acc ln = Exec.ret (r, d1) →
    d1.dst = d.dst ∧ d1.dpos = d.dpos ∧ d1.ref = d.ref := by
  intro f
  induction f with
  | zero =>
    intro d d1 acc ln r h
    simp only [decoder.getLenLoop] at h
    split at h
    · exact Exec.noConfusion h
    · simp only [Exec.ret.injEq, Prod.mk.injEq] at h
      obtain ⟨-, rfl⟩ := h
      exact ⟨rfl, rfl, rfl⟩
  | succ f ih =>
    intro d d1 acc ln r h
    simp only [decoder.getLenLoop] at h
    split at h
    · rw [Exec.bind_eq_ret] at h
      obtain ⟨⟨be, d2⟩, hr, h⟩ := h
      obtain ⟨a2, b2, c2⟩ := readByte_out d d2 be hr
      simp only at h
      split at h
      · simp only [Exec.ret.injEq, Prod.mk.injEq] at h
        obtain ⟨-, rfl⟩ := h
        exact ⟨a2, b2, c2⟩
      · obtain ⟨a1, b1, c1⟩ := ih _ _ _ _ _ h
        exact ⟨a1.trans a2, b1.trans b2, c1.trans c2⟩
    · simp only [Exec.ret.injEq, Prod.mk.injEq] at h
      obtain ⟨-, rfl⟩ := h
      exact ⟨rfl, rfl, rfl⟩

theorem getLen_out (f : Nat) (d d1 : decoder) (r : Nat × Option Error)
    (h : d.getLen f = Exec.ret (r, d1)) :
    d1.dst = d.dst ∧ d1.dpos = d.dpos ∧ d1.ref = d.ref := by
  unfold decoder.getLen at h
  rw [Exec.bind_eq_ret] at h
  obtain ⟨⟨be, d2⟩, hr, h⟩ := h
  obtain ⟨a2, b2, c2⟩ := readByte_out d d2 be hr
  simp only at h
  split at h
  · simp only [Exec.ret.injEq, Prod.mk.injEq] at h
    obtain ⟨-, rfl⟩ := h
    exact ⟨a2, b2, c2⟩
  · obtain ⟨a1, b1, c1⟩ := getLenLoop_out _ _ _ _ _ _ h
    exact ⟨a1.trans a2, b1.trans b2, c1.trans c2⟩

theorem readUint16_out (d d1 : decoder) (r : Nat × Option Error)
    (h : d.readUint16 = Exec.ret (r, d1)) :
    d1.dst = d.dst ∧ d1.dpos = d.dpos ∧ d1.ref = d.ref := by
  unfold decoder.readUint16 at h
  rw [Exec.bind_eq_ret] at h
  obtain ⟨⟨be, d2⟩, hr, h⟩ := h
  obtain ⟨a2, b2, c2⟩ := readByte_out d d2 be hr
  simp only at h
  split at h
  · simp only [Exec.ret.injEq, Prod.mk.injEq] at h
    obtain ⟨-, rfl⟩ := h
    exact ⟨a2, b2, c2⟩
  · rw [Exec.bind_eq_ret] at h
    obtain ⟨⟨be3, d3⟩, hr3, h⟩ := h
    obtain ⟨a3, b3, c3⟩ := readByte_out d2 d3 be3 hr3
    simp only at h
    split at h
    · simp only [Exec.ret.injEq, Prod.mk.injEq] at h
      obtain ⟨-, rfl⟩ := h
      exact ⟨a3.trans a2, b3.trans b2, c3.trans c2⟩
    · simp only [Exec.ret.injEq, Prod.mk.injEq] at h
      obtain ⟨-, rfl⟩ := h
      exact ⟨a3.trans a2, b3.trans b2, c3.trans c2⟩

/-- `consume` appends one byte for each increment of `dpos`. -/
theorem consume_out : ∀ (n : Nat) (d d1 : decoder) (e : Option Error),
    decoder.consume n d = Exec.ret (e, d1) →
    d1.ref = d.ref ∧ ∃ M, d1.dst = d.dst ++ M ∧
      (∀ L, d.dpos = u32 L → d1.dpos = u32 (L + M.length)) ∧
      M.length ≤ n ∧ (e = none → M.length = n) := by
  intro n
  induction n with
  | zero =>
    intro d d1 e h
    simp only [decoder.consume, Exec.ret.injEq, Prod.mk.injEq] at h
    obtain ⟨-, rfl⟩ := h
    exact ⟨rfl, [], by simp, fun L hL => by simpa using hL, Nat.le_refl _, fun _ => rfl⟩
  | succ n ih =>
    intro d d1 e h
    simp only [decoder.consume] at h
    rw [Exec.bind_eq_ret] at h
    obtain ⟨⟨be, d2⟩, hr, h⟩ := h
    obtain ⟨a2, b2, c2⟩ := readByte_out d d2 be hr
    simp only at h
    split at h
    · simp only [Exec.ret.injEq, Prod.mk.injEq] at h
      obtain ⟨rfl, rfl⟩ := h
      exact ⟨c2, [], by simp [a2], fun L hL => by simpa [b2] using hL, Nat.zero_le _,
        fun hc => by simp at hc⟩
    · obtain ⟨c1, M, hM, hp, hle, hn⟩ := ih _ _ _ h
      simp only at c1 hM hp
      refine ⟨c1.trans c2, be.1 :: M, ?_, ?_, ?_, ?_⟩
      · rw [hM, a2]; simp
      · intro L hL
        rw [hp (L + 1) (by rw [b2, hL, u32_add_left])]
        simp only [List.length_cons]
        congr 1
        omega
      · simp only [List.length_cons]; omega
      · intro he
        simp only [List.length_cons]
        rw [hn he]

/-- What holds in every state of a run between two operations: `dpos` is the
output length as a `uint32`, and `ref` is a `uint32`. -/
theorem reach_inv {dst : Option (List Byte)} {src : List Byte} {d : decoder}
    (h : Reach dst src d) : d.dpos = u32 d.dst.length ∧ d.ref < 4294967296 := by
  induction h with
  | start =>
    rw [start_eq]
    exact ⟨rfl, Nat.zero_lt_succ _⟩
  | readByte _ hr ih =>
    obtain ⟨a, b, c⟩ := readByte_out _ _ _ hr
    rw [a, b, c]; exact ih
  | getLen _ hr ih =>
    obtain ⟨a, b, c⟩ := getLen_out _ _ _ _ hr
    rw [a, b, c]; exact ih
  | consume _ hr ih =>
    obtain ⟨c, M, hM, hp, -, -⟩ := consume_out _ _ _ _ hr
    rw [c, hM, hp _ ih.1, List.length_append]
    exact ⟨rfl, ih.2⟩
  | readUint16 _ hr ih =>
    obtain ⟨a, b, c⟩ := readUint16_out _ _ _ hr
    rw [a, b, c]; exact ih
  | setRef back _ ih =>
    exact ⟨ih.1, u32_lt _⟩
  | cp _ hl hr ih =>
    obtain ⟨-, -, hp, href, M, hM, hlen⟩ := cp_frame _ _ _ _ hr ih.2 hl
    rw [hp, hM, List.length_append, hlen, ih.1, u32_add_left]
    exact ⟨rfl, href⟩

/-! ## The loop body, operation by operation -/

/-- The operations behind a return of `literals`: the read of the control
byte, then `getLen` when the field is 15, then `consume`. -/
theorem literals_inv (d : decoder) (f : Nat) (x : Result ⊕ (Byte × decoder))
    (h : d.literals f = Exec.ret x) :
    ∃ b e d2, d.readByte = Exec.ret ((b, e), d2) ∧
      ((∃ e1, e = some e1 ∧ x = Sum.inl (some d2.dst, d2.finish (some e1))) ∨
       (e = none ∧
        ((b.val >>> mlBits = runMask ∧ ∃ v e1 d3, d2.getLen f = Exec.ret ((v, some e1), d3) ∧
            x = Sum.inl (none, some Error.ErrCorrupt)) ∨
         (∃ length d3,
            ((b.val >>> mlBits = runMask ∧ ∃ v, d2.getLen f = Exec.ret ((v, none), d3) ∧
                length = u32 ((b.val >>> mlBits) + v)) ∨
             (b.val >>> mlBits ≠ runMask ∧ d3 = d2 ∧ length = b.val >>> mlBits)) ∧
            ∃ ec d4, decoder.consume length d3 = Exec.ret (ec, d4) ∧
              ((∃ e1, ec = some e1 ∧ x = Sum.inl (none, some Error.ErrCorrupt)) ∨
               (ec = none ∧ x = Sum.inr (b, d4))))))) := by
  unfold decoder.literals at h
  rw [Exec.bind_eq_ret] at h
  obtain ⟨⟨⟨b, e⟩, d2⟩, hr, h⟩ := h
  refine ⟨b, e, d2, hr, ?_⟩
  simp only at h
  rcases e with _ | e1
  · right
    refine ⟨rfl, ?_⟩
    simp only at h
    rw [Exec.bind_eq_ret] at h
    obtain ⟨l, hl, h⟩ := h
    by_cases hc : b.val >>> mlBits = runMask
    · simp only [hc, if_true] at hl
      rw [Exec.bind_eq_ret] at hl
      obtain ⟨⟨⟨v, eg⟩, d3⟩, hg, hl⟩ := hl
      rcases eg with _ | e1
      · simp only [Exec.ret.injEq] at hl
        subst hl
        simp only at h
        rw [Exec.bind_eq_ret] at h
        obtain ⟨⟨ec, d4⟩, hcons, h⟩ := h
        right
        refine ⟨_, d3, Or.inl ⟨hc, v, hg, by rw [hc]⟩, ec, d4, hcons, ?_⟩
        rcases ec with _ | e1
        · simp only [Exec.ret.injEq] at h
          exact Or.inr ⟨rfl, h.symm⟩
        · simp only [Exec.ret.injEq] at h
          exact Or.inl ⟨e1, rfl, h.symm⟩
      · simp only [Exec.ret.injEq] at hl
        subst hl
        simp only [Exec.ret.injEq] at h
        left
        exact ⟨hc, v, e1, d3, hg, h.symm⟩
    · simp only [hc, if_false, Exec.ret.injEq] at hl
      subst hl
      simp only at h
      rw [Exec.bind_eq_ret] at h
      obtain ⟨⟨ec, d4⟩, hcons, h⟩ := h
      right
      refine ⟨_, d2, Or.inr ⟨hc, rfl, rfl⟩, ec, d4, hcons, ?_⟩
      rcases ec with _ | e1
      · simp only [Exec.ret.injEq] at h
        exact Or.inr ⟨rfl, h.symm⟩
      · simp only [Exec.ret.injEq] at h
        exact Or.inl ⟨e1, rfl, h.symm⟩
  · left
    simp only [Exec.ret.injEq] at h
    exact ⟨e1, rfl, h.symm⟩

/-- The operations behind a return of `offsetLen`: `readUint16`, the
assignment of `ref`, then `getLen` when the field is 15. -/
theorem offsetLen_inv (d : decoder) (code : Byte) (f : Nat)
    (x : Result ⊕ (Nat × Nat × decoder)) (h : d.offsetLen code f = Exec.ret x) :
    ∃ back e d2, d.readUint16 = Exec.ret ((back, e), d2) ∧
      ((∃ e1, e = some e1 ∧ x = Sum.inl (some d2.dst, d2.finish (some e1))) ∨
       (e = none ∧
        ((code.val &&& mlMask = mlMask ∧ ∃ v e1 d3,
            decoder.getLen { d2 with ref := u32 (d2.dpos + 4294967296 - back) } f
              = Exec.ret ((v, some e1), d3) ∧
            x = Sum.inl (none, some Error.ErrCorrupt)) ∨
         (∃ length d3,
            ((code.val &&& mlMask = mlMask ∧ ∃ v,
                decoder.getLen { d2 with ref := u32 (d2.dpos + 4294967296 - back) } f
                  = Exec.ret ((v, none), d3) ∧
                length = u32 ((code.val &&& mlMask) + v)) ∨
             (code.val &&& mlMask ≠ mlMask ∧
                d3 = { d2 with ref := u32 (d2.dpos + 4294967296 - back) } ∧
                length = code.val &&& mlMask)) ∧
            x = Sum.inr (back, length, d3))))) := by
  unfold decoder.offsetLen at h
  rw [Exec.bind_eq_ret] at h
  obtain ⟨⟨⟨back, e⟩, d2⟩, hr, h⟩ := h
  refine ⟨back, e, d2, hr, ?_⟩
  simp only at h
  rcases e with _ | e1
  · right
    refine ⟨rfl, ?_⟩
    simp only at h
    rw [Exec.bind_eq_ret] at h
    obtain ⟨l, hl, h⟩ := h
    by_cases hc : code.val &&& mlMask = mlMask
    · simp only [hc, if_true] at hl
      rw [Exec.bind_eq_ret] at hl
      obtain ⟨⟨⟨v, eg⟩, d3⟩, hg, hl⟩ := hl
      rcases eg with _ | e1
      · simp only [Exec.ret.injEq] at hl
        subst hl
        simp only [Exec.ret.injEq] at h
        right
        exact ⟨_, d3, Or.inl ⟨hc, v, hg, by rw [hc]⟩, h.symm⟩
      · simp only [Exec.ret.injEq] at hl
        subst hl
        simp only [Exec.ret.injEq] at h
        left
        exact ⟨hc, v, e1, d3, hg, h.symm⟩
    · simp only [hc, if_false, Exec.ret.injEq] at hl
      subst hl
      simp only [Exec.ret.injEq] at h
      right
      exact ⟨_, _, Or.inr ⟨hc, rfl, rfl⟩, h.symm⟩
  · left
    simp only [Exec.ret.injEq] at h
    exact ⟨e1, rfl, h.symm⟩

/-- `backref` is `offsetLen` followed by `expand`. -/
theorem backref_offsetLen (d : decoder) (code : Byte) (f : Nat) :
    d.backref code f = (d.offsetLen code f).bind fun l =>
      match l with
      | Sum.inl res => Exec.ret (Sum.inl res)
      | Sum.inr (_, length, d2) => (d2.expand length).bind fun d4 => Exec.ret (Sum.inr d4) := by
  unfold decoder.backref decoder.offsetLen
  rcases d.readUint16 with ⟨⟨⟨back, e⟩, d2⟩⟩ | _ | _
  · simp only [Exec.ret_bind]
    rcases e with _ | e1
    · simp only
      by_cases hc : code.val &&& mlMask = mlMask
      · simp only [hc, if_true]
        rcases decoder.getLen { d2 with ref := u32 (d2.dpos + 4294967296 - back) } f
          with ⟨⟨⟨v, eg⟩, d3⟩⟩ | _ | _
        · simp only [Exec.ret_bind]
          rcases eg with _ | e1 <;> simp only [Exec.ret_bind]
        · rfl
        · rfl
      · simp only [hc, if_false, Exec.ret_bind]
    · simp only [Exec.ret_bind]
  · rfl
  · rfl

/-! ## The states of a run are among those of `Reach` -/

theorem literals_reach {dst : Option (List Byte)} {src : List Byte} {d d1 : decoder}
    {f : Nat} {c : Byte} (hR : Reach dst src d)
    (h : d.literals f = Exec.ret (Sum.inr (c, d1))) : Reach dst src d1 := by
  obtain ⟨b, e, d2, hr, h⟩ := literals_inv d f _ h
  have R2 := Reach.readByte hR hr
  rcases h with ⟨e1, -, hx⟩ | ⟨-, h⟩
  · exact Sum.noConfusion hx
  · rcases h with ⟨-, v, e1, d3, -, hx⟩ | ⟨length, d3, hlen, ec, d4, hcons, h⟩
    · exact Sum.noConfusion hx
    · have R3 : Reach dst src d3 := by
        rcases hlen with ⟨-, v, hg, -⟩ | ⟨-, rfl, -⟩
        · exact Reach.getLen R2 hg
        · exact R2
      rcases h with ⟨e1, -, hx⟩ | ⟨-, hx⟩
      · exact Sum.noConfusion hx
      · simp only [Sum.inr.injEq, Prod.mk.injEq] at hx
        rw [hx.2]
        exact Reach.consume R3 hcons

theorem offsetLen_reach {dst : Option (List Byte)} {src : List Byte} {d d2 : decoder}
    {f back length : Nat} {c : Byte} (hR : Reach dst src d)
    (h : d.offsetLen c f = Exec.ret (Sum.inr (back, length, d2))) :
    Reach dst src d2 ∧ length < 4294967296 := by
  obtain ⟨bk, e, d1, hr, h⟩ := offsetLen_inv d c f _ h
  have R1 := Reach.readUint16 hR hr
  have R1b := Reach.setRef bk R1
  rcases h with ⟨e1, -, hx⟩ | ⟨-, h⟩
  · exact Sum.noConfusion hx
  · rcases h with ⟨-, v, e1, d3, -, hx⟩ | ⟨len, d3, hlen, hx⟩
    · exact Sum.noConfusion hx
    · simp only [Sum.inr.injEq, Prod.mk.injEq] at hx
      obtain ⟨-, rfl, rfl⟩ := hx
      rcases hlen with ⟨-, v, hg, rfl⟩ | ⟨-, rfl, rfl⟩
      · exact ⟨Reach.getLen R1b hg, u32_lt _⟩
      · refine ⟨R1b, ?_⟩
        rw [and_mlMask]
        omega

theorem expand_reach {dst : Option (List Byte)} {src : List Byte} {d d4 : decoder}
    {length : Nat} (hR : Reach dst src d) (hl : length < 4294967296)
    (h : d.expand length = Exec.ret d4) : Reach dst src d4 := by
  unfold decoder.expand at h
  rw [Exec.bind_eq_ret] at h
  obtain ⟨p, hp, hcp⟩ := h
  split at hp
  · split at hp
    · exact Exec.noConfusion hp
    · rw [Exec.bind_eq_ret] at hp
      obtain ⟨d3, h3, hp⟩ := hp
      simp only [Exec.ret.injEq] at hp
      subst hp
      exact Reach.cp (Reach.cp hR (by decide) h3) hl hcp
  · simp only [Exec.ret.injEq] at hp
    subst hp
    exact Reach.cp hR (u32_lt _) hcp

theorem iteration_reach {dst : Option (List Byte)} {src : List Byte} {d d1 : decoder}
    {f : Nat} (hR : Reach dst src d) (h : d.iteration f = Exec.ret (Sum.inr d1)) :
    Reach dst src d1 := by
  unfold decoder.iteration at h
  rw [Exec.bind_eq_ret] at h
  obtain ⟨l, hl, h⟩ := h
  rcases l with res | ⟨c, d2⟩
  · simp only [Exec.ret.injEq] at h
    exact Sum.noConfusion h
  · simp only at h
    have R2 := literals_reach hR hl
    rw [backref_offsetLen, Exec.bind_eq_ret] at h
    obtain ⟨m, hm, h⟩ := h
    rcases m with res | ⟨back, length, d3⟩
    · simp only [Exec.ret.injEq] at h
      exact Sum.noConfusion h
    · simp only at h
      rw [Exec.bind_eq_ret] at h
      obtain ⟨d4, h4, h⟩ := h
      simp only [Exec.ret.injEq, Sum.inr.injEq] at h
      subst h
      obtain ⟨R3, hlen⟩ := offsetLen_reach R2 hm
      exact expand_reach R3 hlen h4

/-- The state at the head of the loop, after any number of passes, is a
state of `Reach`. -/
theorem passes_reach {dst : Option (List Byte)} {src : List Byte} (f : Nat) :
    ∀ (k : Nat) (d d1 : decoder), Reach dst src d → passes f k d = some d1 →
    Reach dst src d1 := by
  intro k
  induction k with
  | zero =>
    intro d d1 hR h
    simp only [passes, Option.some.injEq] at h
    rw [← h]; exact hR
  | succ k ih =>
    intro d d1 hR h
    obtain ⟨d2, h2, hp⟩ := passes_succ_inv h
    exact ih d2 d1 (iteration_reach hR h2) hp

/-- The state in which an offset is read is a state of `Reach`. -/
theorem offsetStates_reach {dst : Option (List Byte)} {src : List Byte} :
    ∀ (f : Nat) (d : decoder), Reach dst src d → ∀ d1 ∈ offsetStates f d, Reach dst src d1 := by
  intro f
  induction f with
  | zero => intro d _ d1 h; simp [offsetStates] at h
  | succ f ih =>
    intro d hR d1 h
    rcases hl : d.literals f with ⟨res | ⟨c, d2⟩⟩ | _ | _
    · simp [offsetStates, hl] at h
    · have R2 := literals_reach hR hl
      rcases hb : d2.backref c f with ⟨res | d3⟩ | _ | _
      · simp only [offsetStates, hl, hb, List.mem_singleton] at h
        rw [h]; exact R2
      · simp only [offsetStates, hl, hb, List.mem_cons] at h
        rcases h with h | h
        · rw [h]; exact R2
        · have hi : d.iteration f = Exec.ret (Sum.inr d3) := by
            simp only [decoder.iteration, hl, Exec.ret_bind, hb]
          exact ih d3 (iteration_reach hR hi) d1 h
      · simp only [offsetStates, hl, hb, List.mem_singleton] at h
        rw [h]; exact R2
      · simp only [offsetStates, hl, hb, List.mem_singleton] at h
        rw [h]; exact R2
    · simp [offsetStates, hl] at h
    · simp [offsetStates, hl] at h

/-- The state in which a match is copied is a state of `Reach`, and the
length handed to the copy is a `uint32`. -/
theorem matchCopies_reach {dst : Option (List Byte)} {src : List Byte} :
    ∀ (f : Nat) (d : decoder), Reach dst src d →
    ∀ m ∈ matchCopies f d, Reach dst src m.2.2 ∧ m.2.1 < 4294967296 := by
  intro f
  induction f with
  | zero => intro d _ m h; simp [matchCopies] at h
  | succ f ih =>
    intro d hR m h
    rcases hl : d.literals f with ⟨res | ⟨c, d1⟩⟩ | _ | _
    · simp [matchCopies, hl] at h
    · have R1 := literals_reach hR hl
      rcases ho : d1.offsetLen c f with ⟨res | ⟨back, length, d2⟩⟩ | _ | _
      · simp [matchCopies, hl, ho] at h
      · obtain ⟨R2, hlen⟩ := offsetLen_reach R1 ho
        rcases he : d2.expand length with d4 | _ | _
        · simp only [matchCopies, hl, ho, he, List.mem_cons] at h
          rcases h with rfl | h
          · exact ⟨R2, hlen⟩
          · exact ih d4 (expand_reach R2 hlen he) m h
        · simp only [matchCopies, hl, ho, he, List.mem_singleton] at h
          subst h
          exact ⟨R2, hlen⟩
        · simp only [matchCopies, hl, ho, he, List.mem_singleton] at h
          subst h
          exact ⟨R2, hlen⟩
      · simp [matchCopies, hl, ho] at h
      · simp [matchCopies, hl, ho] at h
    · simp [matchCopies, hl] at h
    · simp [matchCopies, hl] at h

/-- The state each call of `cp` is made on is a state of `Reach`. -/
theorem cpCalls_reach {dst : Option (List Byte)} {src : List Byte} (f : Nat) (d : decoder)
    (hR : Reach dst src d) : ∀ c ∈ cpCalls f d, Reach dst src c.1 := by
  intro c hc
  unfold cpCalls at hc
  rw [List.mem_flatten] at hc
  obtain ⟨l, hl, hc⟩ := hc
  rw [List.mem_map] at hl
  obtain ⟨m, hm, rfl⟩ := hl
  obtain ⟨R2, -⟩ := matchCopies_reach f d hR m hm
  unfold decoder.expandCalls at hc
  simp only at hc
  split at hc
  · split at hc
    · simp at hc
    · rename_i k hk
      rcases hcp : decoder.cp m.2.2 4 k with d3 | _ | _
      · simp only [hcp, List.mem_cons, List.mem_singleton, List.not_mem_nil, or_false] at hc
        rcases hc with rfl | rfl
        · exact R2
        · exact Reach.cp R2 (by decide) hcp
      · simp only [hcp, List.mem_singleton] at hc
        subst hc
        exact R2
      · simp only [hcp, List.mem_singleton] at hc
        subst hc
        exact R2
  · simp only [List.mem_singleton] at hc
    subst hc
    exact R2

/-- C15: the output-length invariant.  In every state `d` of a run of
`Decode` between two operations on the decoder whose output is shorter than
`2^32` bytes, `len(dst) = dpos`.  `Decode` starts with `dst` empty and
`dpos = 0`; `consume` run from `d` appends one byte for each increment of
`dpos`; and a call `cp(length, decr)` made on `d` that returns (no
out-of-range access) appends exactly `length` bytes and adds `length` to
`dpos`. -/
theorem Decode_len_dpos (dst : Option (List Byte)) (src : List Byte) (d : decoder)
    (hR : Reach dst src d) (hlt : d.dst.length < 4294967296) :
    d.dst.length = d.dpos ∧
    ((start dst src).dst = [] ∧ (start dst src).dpos = 0) ∧
    (∀ (n : Nat) (e : Option Error) (d1 : decoder), decoder.consume n d = Exec.ret (e, d1) →
      d1.dst.length < 4294967296 →
      ∃ M, d1.dst = d.dst ++ M ∧ d1.dpos = d.dpos + M.length ∧ d1.dst.length = d1.dpos ∧
        (e = none → M.length = n)) ∧
    (∀ (length k : Nat) (d1 : decoder), length < 4294967296 → d.cp length k = Exec.ret d1 →
      d1.dst.length < 4294967296 →
      ∃ M, d1.dst = d.dst ++ M ∧ M.length = length ∧ d1.dpos = d.dpos + length ∧
        d1.dst.length = d1.dpos) := by
  obtain ⟨hd, hr⟩ := reach_inv hR
  have hd2 : d.dst.length = d.dpos := by rw [hd, u32_of_lt hlt]
  refine ⟨hd2, by rw [start_eq]; exact ⟨rfl, rfl⟩, ?_, ?_⟩
  · intro n e d1 h hlt1
    obtain ⟨-, M, hM, hp, -, hn⟩ := consume_out _ _ _ _ h
    have h1 := (reach_inv (Reach.consume hR h)).1
    rw [u32_of_lt hlt1] at h1
    refine ⟨M, hM, ?_, h1.symm, hn⟩
    rw [h1, hM, List.length_append, hd2]
  · intro length k d1 hl h hlt1
    obtain ⟨-, -, -, -, M, hM, hlen⟩ := cp_frame _ _ _ _ h hr hl
    have h1 := (reach_inv (Reach.cp hR hl h)).1
    rw [u32_of_lt hlt1] at h1
    refine ⟨M, hM, hlen, ?_, h1.symm⟩
    rw [h1, hM, List.length_append, hd2, hlen]

/-- Witness for C15: the state after the one pass over `0x10 'A' 01 00`,
reached by `readByte`, `consume`, `readUint16`, the assignment of `ref` and
the fix-up copy. -/
theorem Decode_len_dpos_witness :
    Reach none [0x10, 65, 1, 0] (decoder.mk [0x10, 65, 1, 0] [65, 65, 65, 65, 65] 4 5 1) ∧
      passes 5 1 (start none [0x10, 65, 1, 0])
        = some (decoder.mk [0x10, 65, 1, 0] [65, 65, 65, 65, 65] 4 5 1) ∧
      (decoder.mk [0x10, 65, 1, 0] [65, 65, 65, 65, 65] 4 5 1).dst.length
        = (decoder.mk [0x10, 65, 1, 0] [65, 65, 65, 65, 65] 4 5 1).dpos := by
  have h1 : Reach none [0x10, 65, 1, 0] (decoder.mk [0x10, 65, 1, 0] [] 1 0 0) :=
    @Reach.readByte none [0x10, 65, 1, 0] (start none [0x10, 65, 1, 0])
      (decoder.mk [0x10, 65, 1, 0] [] 1 0 0) (0x10, none) Reach.start (by decide)
  have h2 : Reach none [0x10, 65, 1, 0] (decoder.mk [0x10, 65, 1, 0] [65] 2 1 0) :=
    @Reach.consume none [0x10, 65, 1, 0] (decoder.mk [0x10, 65, 1, 0] [] 1 0 0)
      (decoder.mk [0x10, 65, 1, 0] [65] 2 1 0) 1 none h1 (by decide)
  have h3 : Reach none [0x10, 65, 1, 0] (decoder.mk [0x10, 65, 1, 0] [65] 4 1 0) :=
    @Reach.readUint16 none [0x10, 65, 1, 0] (decoder.mk [0x10, 65, 1, 0] [65] 2 1 0)
      (decoder.mk [0x10, 65, 1, 0] [65] 4 1 0) (1, none) h2 (by decide)
  have h4 : Reach none [0x10, 65, 1, 0] (decoder.mk [0x10, 65, 1, 0] [65] 4 1 0) :=
    @Reach.setRef none [0x10, 65, 1, 0] (decoder.mk [0x10, 65, 1, 0] [65] 4 1 0) 1 h3
  have h5 : Reach none [0x10, 65, 1, 0] (decoder.mk [0x10, 65, 1, 0] [65, 65, 65, 65, 65] 4 5 1) :=
    @Reach.cp none [0x10, 65, 1, 0] (decoder.mk [0x10, 65, 1, 0] [65] 4 1 0)
      (decoder.mk [0x10, 65, 1, 0] [65, 65, 65, 65, 65] 4 5 1) 4 3 h4 (by decide) (by decide)
  exact ⟨h5, by decide,
    (Decode_len_dpos none [0x10, 65, 1, 0]
      (decoder.mk [0x10, 65, 1, 0] [65, 65, 65, 65, 65] 4 5 1) h5 (by decide)).1⟩

/-! ## Reads never leave the input -/

theorem readByte_safe (d : decoder) (hs : d.spos ≤ d.src.length) :
    d.readByte ≠ Exec.panic ∧
    ∀ r d1, d.readByte = Exec.ret (r, d1) → d1.src = d.src ∧ d1.spos ≤ d1.src.length := by
  unfold decoder.readByte
  by_cases h : d.spos = d.src.length
  · simp only [h, if_true]
    refine ⟨fun hc => Exec.noConfusion hc, ?_⟩
    intro r d1 hr
    simp only [Exec.ret.injEq, Prod.mk.injEq] at hr
    obtain ⟨-, rfl⟩ := hr
    exact ⟨rfl, hs⟩
  · have hlt : d.spos < d.src.length := by omega
    have hg : d.src[d.spos]? = some d.src[d.spos] := List.getElem?_eq_getElem hlt
    simp only [h, if_false, hg]
    refine ⟨fun hc => Exec.noConfusion hc, ?_⟩
    intro r d1 hr
    simp only [Exec.ret.injEq, Prod.mk.injEq] at hr
    obtain ⟨-, rfl⟩ := hr
    refine ⟨rfl, ?_⟩
    simp only
    unfold u32
    have := Nat.mod_le (d.spos + 1) 4294967296
    omega

theorem getLenLoop_safe : ∀ (f : Nat) (d : decoder) (acc : Nat) (ln : Byte),
    d.spos ≤ d.src.length →
    decoder.getLenLoop f d acc ln ≠ Exec.panic ∧
    ∀ r d1, decoder.getLenLoop f d acc ln = Exec.ret (r, d1) →
      d1.src = d.src ∧ d1.spos ≤ d1.src.length := by
  intro f
  induction f with
  | zero =>
    intro d acc ln hs
    simp only [decoder.getLenLoop]
    split
    · exact ⟨fun hc => Exec.noConfusion hc, fun r d1 hr => Exec.noConfusion hr⟩
    · refine ⟨fun hc => Exec.noConfusion hc, ?_⟩
      intro r d1 hr
      simp only [Exec.ret.injEq, Prod.mk.injEq] at hr
      obtain ⟨-, rfl⟩ := hr
      exact ⟨rfl, hs⟩
  | succ f ih =>
    intro d acc ln hs
    simp only [decoder.getLenLoop]
    split
    · obtain ⟨hn, hp⟩ := readByte_safe d hs
      rcases hr : d.readByte with ⟨⟨⟨b, e⟩, d2⟩⟩ | _ | _
      · obtain ⟨s2, p2⟩ := hp _ _ hr
        simp only [Exec.ret_bind]
        rcases e with _ | e1
        · simp only
          obtain ⟨hn3, hp3⟩ := ih d2 (u32 (acc + 255)) b p2
          refine ⟨hn3, ?_⟩
          intro r d1 h1
          obtain ⟨s3, p3⟩ := hp3 r d1 h1
          exact ⟨s3.trans s2, p3⟩
        · simp only
          refine ⟨fun hc => Exec.noConfusion hc, ?_⟩
          intro r d1 h1
          simp only [Exec.ret.injEq, Prod.mk.injEq] at h1
          obtain ⟨-, rfl⟩ := h1
          exact ⟨s2, p2⟩
      · exact absurd hr hn
      · exact ⟨fun hc => Exec.noConfusion hc, fun r d1 h1 => Exec.noConfusion h1⟩
    · refine ⟨fun hc => Exec.noConfusion hc, ?_⟩
      intro r d1 hr
      simp only [Exec.ret.injEq, Prod.mk.injEq] at hr
      obtain ⟨-, rfl⟩ := hr
      exact ⟨rfl, hs⟩

theorem getLen_safe (f : Nat) (d : decoder) (hs : d.spos ≤ d.src.length) :
    d.getLen f ≠ Exec.panic ∧
    ∀ r d1, d.getLen f = Exec.ret (r, d1) → d1.src = d.src ∧ d1.spos ≤ d1.src.length := by
  unfold decoder.getLen
  obtain ⟨hn, hp⟩ := readByte_safe d hs
  rcases hr : d.readByte with ⟨⟨⟨b, e⟩, d2⟩⟩ | _ | _
  · obtain ⟨s2, p2⟩ := hp _ _ hr
    simp only [Exec.ret_bind]
    rcases e with _ | e1
    · simp only
      obtain ⟨hn3, hp3⟩ := getLenLoop_safe f d2 0 b p2
      refine ⟨hn3, ?_⟩
      intro r d1 h1
      obtain ⟨s3, p3⟩ := hp3 r d1 h1
      exact ⟨s3.trans s2, p3⟩
    · simp only
      refine ⟨fun hc => Exec.noConfusion hc, ?_⟩
      intro r d1 h1
      simp only [Exec.ret.injEq, Prod.mk.injEq] at h1
      obtain ⟨-, rfl⟩ := h1
      exact ⟨s2, p2⟩
  · exact absurd hr hn
  · exact ⟨fun hc => Exec.noConfusion hc, fun r d1 h1 => Exec.noConfusion h1⟩

theorem consume_safe : ∀ (n : Nat) (d : decoder), d.spos ≤ d.src.length →
    decoder.consume n d ≠ Exec.panic ∧
    ∀ e d1, decoder.consume n d = Exec.ret (e, d1) →
      d1.src = d.src ∧ d1.spos ≤ d1.src.length := by
  intro n
  induction n with
  | zero =>
    intro d hs
    simp only [decoder.consume]
    refine ⟨fun hc => Exec.noConfusion hc, ?_⟩
    intro e d1 hr
    simp only [Exec.ret.injEq, Prod.mk.injEq] at hr
    obtain ⟨-, rfl⟩ := hr
    exact ⟨rfl, hs⟩
  | succ n ih =>
    intro d hs
    simp only [decoder.consume]
    obtain ⟨hn, hp⟩ := readByte_safe d hs
    rcases hr : d.readByte with ⟨⟨⟨b, e⟩, d2⟩⟩ | _ | _
    · obtain ⟨s2, p2⟩ := hp _ _ hr
      simp only [Exec.ret_bind]
      rcases e with _ | e1
      · simp only
        obtain ⟨hn3, hp3⟩ := ih { d2 with dst := d2.dst ++ [b], dpos := u32 (d2.dpos + 1) } p2
        refine ⟨hn3, ?_⟩
        intro r d1 h1
        obtain ⟨s3, p3⟩ := hp3 r d1 h1
        exact ⟨s3.trans s2, p3⟩
      · simp only
        refine ⟨fun hc => Exec.noConfusion hc, ?_⟩
        intro r d1 h1
        simp only [Exec.ret.injEq, Prod.mk.injEq] at h1
        obtain ⟨-, rfl⟩ := h1
        exact ⟨s2, p2⟩
    · exact absurd hr hn
    · exact ⟨fun hc => Exec.noConfusion hc, fun r d1 h1 => Exec.noConfusion h1⟩

theorem readUint16_safe (d : decoder) (hs : d.spos ≤ d.src.length) :
    d.readUint16 ≠ Exec.panic ∧ d.readUint16 ≠ Exec.timeout ∧
    ∀ r d1, d.readUint16 = Exec.ret (r, d1) → d1.src = d.src ∧ d1.spos ≤ d1.src.length := by
  unfold decoder.readUint16
  obtain ⟨hn, hp⟩ := readByte_safe d hs
  rcases hr : d.readByte with ⟨⟨⟨b, e⟩, d2⟩⟩ | _ | _
  · obtain ⟨s2, p2⟩ := hp _ _ hr
    simp only [Exec.ret_bind]
    rcases e with _ | e1
    · simp only
      obtain ⟨hn3, hp3⟩ := readByte_safe d2 p2
      rcases hr3 : d2.readByte with ⟨⟨⟨b3, e3⟩, d3⟩⟩ | _ | _
      · obtain ⟨s3, p3⟩ := hp3 _ _ hr3
        simp only [Exec.ret_bind]
        rcases e3 with _ | e4
        · simp only
          refine ⟨fun hc => Exec.noConfusion hc, fun hc => Exec.noConfusion hc, ?_⟩
          intro r d1 h1
          simp only [Exec.ret.injEq, Prod.mk.injEq] at h1
          obtain ⟨-, rfl⟩ := h1
          exact ⟨s3.trans s2, p3⟩
        · simp only
          refine ⟨fun hc => Exec.noConfusion hc, fun hc => Exec.noConfusion hc, ?_⟩
          intro r d1 h1
          simp only [Exec.ret.injEq, Prod.mk.injEq] at h1
          obtain ⟨-, rfl⟩ := h1
          exact ⟨s3.trans s2, p3⟩
      · exact absurd hr3 hn3
      · unfold decoder.readByte at hr3
        split at hr3
        · exact Exec.noConfusion hr3
        · split at hr3 <;> exact Exec.noConfusion hr3
    · simp only
      refine ⟨fun hc => Exec.noConfusion hc, fun hc => Exec.noConfusion hc, ?_⟩
      intro r d1 h1
      simp only [Exec.ret.injEq, Prod.mk.injEq] at h1
      obtain ⟨-, rfl⟩ := h1
      exact ⟨s2, p2⟩
  · exact absurd hr hn
  · unfold decoder.readByte at hr
    split at hr
    · exact Exec.noConfusion hr
    · split at hr <;> exact Exec.noConfusion hr

theorem literals_safe (f : Nat) (d : decoder) (hs : d.spos ≤ d.src.length) :
    d.literals f ≠ Exec.panic ∧
    ∀ c d1, d.literals f = Exec.ret (Sum.inr (c, d1)) →
      d1.src = d.src ∧ d1.spos ≤ d1.src.length := by
  constructor
  · unfold decoder.literals
    obtain ⟨hn, hp⟩ := readByte_safe d hs
    rcases hr : d.readByte with ⟨⟨⟨b, e⟩, d2⟩⟩ | _ | _
    · obtain ⟨s2, p2⟩ := hp _ _ hr
      simp only [Exec.ret_bind]
      rcases e with _ | e1
      · simp only
        by_cases hc : b.val >>> mlBits = runMask
        · simp only [hc, if_true]
          obtain ⟨hn3, hp3⟩ := getLen_safe f d2 p2
          rcases hg : d2.getLen f with ⟨⟨⟨v, eg⟩, d3⟩⟩ | _ | _
          · obtain ⟨s3, p3⟩ := hp3 _ _ hg
            simp only [Exec.ret_bind]
            rcases eg with _ | e1
            · simp only [Exec.ret_bind]
              obtain ⟨hn4, -⟩ := consume_safe (u32 (runMask + v)) d3 p3
              rcases hcs : decoder.consume (u32 (runMask + v)) d3 with ⟨⟨ec, d4⟩⟩ | _ | _
              · simp only [Exec.ret_bind]
                rcases ec with _ | e1
                · exact fun hc => Exec.noConfusion hc
                · exact fun hc => Exec.noConfusion hc
              · exact absurd hcs hn4
              · exact fun hc => Exec.noConfusion hc
            · simp only [Exec.ret_bind]
              exact fun hc => Exec.noConfusion hc
          · exact absurd hg hn3
          · exact fun hc => Exec.noConfusion hc
        · simp only [hc, if_false, Exec.ret_bind]
          obtain ⟨hn4, -⟩ := consume_safe (b.val >>> mlBits) d2 p2
          rcases hcs : decoder.consume (b.val >>> mlBits) d2 with ⟨⟨ec, d4⟩⟩ | _ | _
          · simp only [Exec.ret_bind]
            rcases ec with _ | e1
            · exact fun hc => Exec.noConfusion hc
            · exact fun hc => Exec.noConfusion hc
          · exact absurd hcs hn4
          · exact fun hc => Exec.noConfusion hc
      · simp only
        exact fun hc => Exec.noConfusion hc
    · exact absurd hr hn
    · exact fun hc => Exec.noConfusion hc
  · intro c d1 h
    obtain ⟨b, e, d2, hr, h⟩ := literals_inv d f _ h
    obtain ⟨s2, p2⟩ := (readByte_safe d hs).2 _ _ hr
    rcases h with ⟨e1, -, hx⟩ | ⟨-, h⟩
    · exact Sum.noConfusion hx
    · rcases h with ⟨-, v, e1, d3, -, hx⟩ | ⟨length, d3, hlen, ec, d4, hcons, h⟩
      · exact Sum.noConfusion hx
      · have h3 : d3.src = d.src ∧ d3.spos ≤ d3.src.length := by
          rcases hlen with ⟨-, v, hg, -⟩ | ⟨-, rfl, -⟩
          · obtain ⟨s3, p3⟩ := (getLen_safe f d2 p2).2 _ _ hg
            exact ⟨s3.trans s2, p3⟩
          · exact ⟨s2, p2⟩
        rcases h with ⟨e1, -, hx⟩ | ⟨-, hx⟩
        · exact Sum.noConfusion hx
        · simp only [Sum.inr.injEq, Prod.mk.injEq] at hx
          rw [hx.2]
          obtain ⟨s4, p4⟩ := (consume_safe length d3 h3.2).2 _ _ hcons
          exact ⟨s4.trans h3.1, p4⟩

theorem offsetLen_safe (f : Nat) (d : decoder) (c : Byte) (hs : d.spos ≤ d.src.length) :
    d.offsetLen c f ≠ Exec.panic ∧
    ∀ back length d1, d.offsetLen c f = Exec.ret (Sum.inr (back, length, d1)) →
      d1.src = d.src ∧ d1.spos ≤ d1.src.length ∧
      d1.ref = u32 (d1.dpos + 4294967296 - back) := by
  constructor
  · unfold decoder.offsetLen
    obtain ⟨hn, -, hp⟩ := readUint16_safe d hs
    rcases hr : d.readUint16 with ⟨⟨⟨v, e⟩, d2⟩⟩ | _ | _
    · obtain ⟨s2, p2⟩ := hp _ _ hr
      simp only [Exec.ret_bind]
      rcases e with _ | e1
      · simp only
        by_cases hc : c.val &&& mlMask = mlMask
        · simp only [hc, if_true]
          obtain ⟨hn3, -⟩ := getLen_safe f
            { d2 with ref := u32 (d2.dpos + 4294967296 - v) } p2
          rcases hg : decoder.getLen { d2 with ref := u32 (d2.dpos + 4294967296 - v) } f
            with ⟨⟨⟨v3, eg⟩, d3⟩⟩ | _ | _
          · simp only [Exec.ret_bind]
            rcases eg with _ | e1
            · simp only [Exec.ret_bind]
              exact fun hc => Exec.noConfusion hc
            · simp only [Exec.ret_bind]
              exact fun hc => Exec.noConfusion hc
          · exact absurd hg hn3
          · exact fun hc => Exec.noConfusion hc
        · simp only [hc, if_false, Exec.ret_bind]
          exact fun hc => Exec.noConfusion hc
      · simp only
        exact fun hc => Exec.noConfusion hc
    · exact absurd hr hn
    · exact fun hc => Exec.noConfusion hc
  · intro back length d1 h
    obtain ⟨bk, e, d2, hr, h⟩ := offsetLen_inv d c f _ h
    obtain ⟨s2, p2⟩ := (readUint16_safe d hs).2.2 _ _ hr
    rcases h with ⟨e1, -, hx⟩ | ⟨-, h⟩
    · exact Sum.noConfusion hx
    · rcases h with ⟨-, v, e1, d3, -, hx⟩ | ⟨len, d3, hlen, hx⟩
      · exact Sum.noConfusion hx
      · simp only [Sum.inr.injEq, Prod.mk.injEq] at hx
        obtain ⟨rfl, rfl, rfl⟩ := hx
        rcases hlen with ⟨-, v, hg, -⟩ | ⟨-, rfl, -⟩
        · obtain ⟨s3, p3⟩ := (getLen_safe f _ (by simp only; exact p2)).2 _ _ hg
          obtain ⟨-, b3, c3⟩ := getLen_out _ _ _ _ hg
          exact ⟨s3.trans s2, p3, by rw [c3, b3]⟩
        · exact ⟨s2, p2, rfl⟩

/-! ## C11: no out-of-range access on valid offsets -/

/-- The calls of `cp` made for one match whose offset is valid. -/
theorem expandCalls_safe (d : decoder) (length o : Nat) (hd : d.dpos = d.dst.length)
    (href : d.ref = u32 (d.dpos + 4294967296 - o)) (ho : 1 ≤ o) (ho2 : o ≤ d.dpos)
    (hb : d.dst.length + length + 4 < 4294967296) :
    (∃ d4, d.expand length = Exec.ret d4) ∧
    ∀ c ∈ d.expandCalls length, c.1.ref < c.1.dpos ∧ c.1.dpos = c.1.dst.length ∧
      c.1.ref + c.2.1 < 4294967296 ∧ ∃ d1, c.1.cp c.2.1 c.2.2 = Exec.ret d1 := by
  have hr : d.ref = d.dst.length - o := by
    rw [href, hd]
    have : d.dst.length + 4294967296 - o = (d.dst.length - o) + 4294967296 := by omega
    rw [this]
    unfold u32
    omega
  have hlit : u32 (d.dpos + 4294967296 - d.ref) = o := by
    rw [hr, hd]
    have : d.dst.length + 4294967296 - (d.dst.length - o) = o + 4294967296 := by omega
    rw [this]
    unfold u32
    omega
  constructor
  · obtain ⟨d4, h4, -⟩ := expand_valid d length o hd hr ho (by omega) hb
    exact ⟨d4, h4⟩
  · intro c hc
    unfold decoder.expandCalls at hc
    simp only [hlit] at hc
    by_cases h4 : o < 4
    · obtain ⟨k, hk⟩ := decr_some ho (by omega : o ≤ 3)
      have hcp := cp_eq d 4 k (Or.inr (by omega)) (by omega)
      simp only [h4, if_true, hk, hcp, List.mem_cons, List.mem_singleton, List.not_mem_nil,
        or_false] at hc
      rcases hc with rfl | rfl
      · exact ⟨by simp only; omega, hd, by simp only; omega, _, hcp⟩
      · have hk4 : k ≤ 3 ∧ 2 ≤ k := by
          rcases decr_cases ho (by omega : o ≤ 3) hk with ⟨-, rfl⟩ | ⟨-, rfl⟩ | ⟨-, rfl⟩ <;> omega
        have hu1 : u32 (d.dpos + 4) = d.dpos + 4 := u32_of_lt (by omega)
        have hu2 : u32 (4 + 4294967296 - k) = 4 - k := by
          have : 4 + 4294967296 - k = (4 - k) + 4294967296 := by omega
          rw [this]
          unfold u32
          omega
        have hu3 : u32 (d.ref + (4 - k)) = d.ref + (4 - k) := u32_of_lt (by omega)
        have hlen : (copyFrom d.dst d.ref 4).length = d.dst.length + 4 :=
          copyFrom_length 4 d.dst d.ref (by omega)
        simp only [hu1, hu2, hu3, hlen]
        refine ⟨by omega, by omega, by omega, ?_⟩
        exact ⟨_, cp_eq _ length 0 (Or.inr (by simp only [hlen]; omega)) (by simp only; omega)⟩
    · simp only [h4, if_false, List.mem_singleton] at hc
      subst hc
      have hu : u32 (length + 4) = length + 4 := u32_of_lt (by omega)
      simp only [hu]
      exact ⟨by omega, hd, by omega, _, cp_eq d (length + 4) 0 (Or.inr (by omega)) (by omega)⟩

theorem DecodeLoop_literals_inl (d : decoder) (F : Nat) (res : Result)
    (hl : d.literals F = Exec.ret (Sum.inl res)) : DecodeLoop (F + 1) d = Exec.ret res := by
  simp only [DecodeLoop_succ, decoder.iteration, hl, Exec.ret_bind]

theorem DecodeLoop_offsetLen_inl (d d1 : decoder) (c : Byte) (F : Nat) (res : Result)
    (hl : d.literals F = Exec.ret (Sum.inr (c, d1)))
    (ho : d1.offsetLen c F = Exec.ret (Sum.inl res)) :
    DecodeLoop (F + 1) d = Exec.ret res ∧ d1.backref c F = Exec.ret (Sum.inl res) := by
  have hb : d1.backref c F = Exec.ret (Sum.inl res) := by
    rw [backref_offsetLen, ho, Exec.ret_bind]
  simp only [DecodeLoop_succ, decoder.iteration, hl, Exec.ret_bind, hb, and_self]

theorem DecodeLoop_expand (d d1 d2 d4 : decoder) (c : Byte) (F back length : Nat)
    (hl : d.literals F = Exec.ret (Sum.inr (c, d1)))
    (ho : d1.offsetLen c F = Exec.ret (Sum.inr (back, length, d2)))
    (he : d2.expand length = Exec.ret d4) :
    DecodeLoop (F + 1) d = DecodeLoop F d4 ∧ d1.backref c F = Exec.ret (Sum.inr d4) ∧
      d.iteration F = Exec.ret (Sum.inr d4) := by
  have hb : d1.backref c F = Exec.ret (Sum.inr d4) := by
    rw [backref_offsetLen, ho, Exec.ret_bind]
    simp only [he, Exec.ret_bind]
  have hi : d.iteration F = Exec.ret (Sum.inr d4) := by
    simp only [decoder.iteration, hl, Exec.ret_bind, hb]
  refine ⟨?_, hb, hi⟩
  rw [DecodeLoop_succ, hi, Exec.ret_bind]

/-- A run all of whose offsets are valid never panics, and each of its
matches is entered in a state of `Reach` with `ref = dpos - offset`. -/
theorem DecodeLoop_safe {dst : Option (List Byte)} {src : List Byte} :
    ∀ (F : Nat) (d : decoder), Reach dst src d → d.spos ≤ d.src.length →
    (∀ m ∈ matchCopies F d, 1 ≤ m.1 ∧ m.1 ≤ m.2.2.dpos ∧
      m.2.2.dst.length + m.2.1 + 4 < 4294967296) →
    DecodeLoop F d ≠ Exec.panic ∧
    ∀ m ∈ matchCopies F d, m.2.2.dpos = m.2.2.dst.length ∧
      m.2.2.ref = u32 (m.2.2.dpos + 4294967296 - m.1) := by
  intro F
  induction F with
  | zero =>
    intro d _ _ _
    refine ⟨fun hc => Exec.noConfusion hc, ?_⟩
    intro m hm
    simp [matchCopies] at hm
  | succ F ih =>
    intro d hR hs hv
    rcases hl : d.literals F with ⟨res | ⟨c, d1⟩⟩ | _ | _
    · rw [DecodeLoop_literals_inl d F res hl]
      refine ⟨fun hc => Exec.noConfusion hc, ?_⟩
      intro m hm
      simp [matchCopies, hl] at hm
    · have R1 := literals_reach hR hl
      obtain ⟨s1, p1⟩ := (literals_safe F d hs).2 c d1 hl
      rcases ho : d1.offsetLen c F with ⟨res | ⟨back, length, d2⟩⟩ | _ | _
      · rw [(DecodeLoop_offsetLen_inl d d1 c F res hl ho).1]
        refine ⟨fun hc => Exec.noConfusion hc, ?_⟩
        intro m hm
        simp [matchCopies, hl, ho] at hm
      · obtain ⟨R2, hlen⟩ := offsetLen_reach R1 ho
        obtain ⟨s2, p2, href⟩ := (offsetLen_safe F d1 c p1).2 back length d2 ho
        have hhead : (back, length, d2) ∈ matchCopies (F + 1) d := by
          simp [matchCopies, hl, ho]
        obtain ⟨hb1, hb2, hb3⟩ := hv _ hhead
        simp only at hb1 hb2 hb3
        have hd2 : d2.dpos = d2.dst.length := by
          rw [(reach_inv R2).1, u32_of_lt (by omega)]
        obtain ⟨⟨d4, he⟩, -⟩ := expandCalls_safe d2 length back hd2 href hb1 hb2 hb3
        obtain ⟨s4, p4⟩ := expand_src_spos d2 d4 length he
        have R4 := expand_reach R2 hlen he
        have hmc : matchCopies (F + 1) d = (back, length, d2) :: matchCopies F d4 := by
          simp only [matchCopies, hl, ho, he]
        have hv4 : ∀ m ∈ matchCopies F d4, 1 ≤ m.1 ∧ m.1 ≤ m.2.2.dpos ∧
            m.2.2.dst.length + m.2.1 + 4 < 4294967296 := by
          intro m hm
          exact hv m (by rw [hmc]; exact List.mem_cons_of_mem _ hm)
        obtain ⟨hn, hm4⟩ := ih d4 R4 (by rw [p4, s4]; exact p2) hv4
        rw [(DecodeLoop_expand d d1 d2 d4 c F back length hl ho he).1]
        refine ⟨hn, ?_⟩
        intro m hm
        rw [hmc, List.mem_cons] at hm
        rcases hm with rfl | hm
        · exact ⟨hd2, href⟩
        · exact hm4 m hm
      · exact absurd ho (offsetLen_safe F d1 c p1).1
      · have hb : d1.backref c F = Exec.timeout := by
          rw [backref_offsetLen, ho]; rfl
        have hD : DecodeLoop (F + 1) d = Exec.timeout := by
          simp only [DecodeLoop_succ, decoder.iteration, hl, Exec.ret_bind, hb]
          rfl
        rw [hD]
        refine ⟨fun hc => Exec.noConfusion hc, ?_⟩
        intro m hm
        simp [matchCopies, hl, ho] at hm
    · exact absurd hl (literals_safe F d hs).1
    · have hD : DecodeLoop (F + 1) d = Exec.timeout := by
        simp only [DecodeLoop_succ, decoder.iteration, hl]
        rfl
      rw [hD]
      refine ⟨fun hc => Exec.noConfusion hc, ?_⟩
      intro m hm
      simp [matchCopies, hl] at hm

theorem mem_cpCalls {F : Nat} {d : decoder} {c : decoder × Nat × Nat} (h : c ∈ cpCalls F d) :
    ∃ m ∈ matchCopies F d, c ∈ m.2.2.expandCalls m.2.1 := by
  unfold cpCalls at h
  rw [List.mem_flatten] at h
  obtain ⟨l, hl, hc⟩ := h
  rw [List.mem_map] at hl
  obtain ⟨m, hm, rfl⟩ := hl
  exact ⟨m, hm, hc⟩

/-- C11: no out-of-range access on valid back-references.  Take an input in
which every offset read satisfies `1 ≤ offset ≤ dpos` when it is read, and
in which the lengths stay below `2^32` (the output up to the end of each
match).  Then `Decode` does not panic, whatever the fuel; at the start of
every call of `cp`, `ref < dpos = len(dst)`, `ref + length` does not wrap,
every index `ref + i` read in round `i` of the byte loop is below the length
`len(dst) + i` the output has then, and the call returns; and for an input
shorter than `2^32` bytes, with fuel above its length, `Decode` returns. -/
theorem Decode_valid_offsets_safe (src : List Byte) (dst : Option (List Byte)) (fuel : Nat)
    (hoff : ∀ m ∈ matchCopies fuel (start dst src), 1 ≤ m.1 ∧ m.1 ≤ m.2.2.dpos)
    (hout : ∀ m ∈ matchCopies fuel (start dst src),
      m.2.2.dst.length + m.2.1 + 4 < 4294967296) :
    Decode fuel dst src ≠ Exec.panic ∧
    (∀ c ∈ cpCalls fuel (start dst src), c.1.ref < c.1.dpos ∧ c.1.dpos = c.1.dst.length ∧
      c.1.ref + c.2.1 < 4294967296 ∧
      (∀ i, i < c.2.1 → c.1.ref + i < c.1.dst.length + i) ∧
      ∃ d1, c.1.cp c.2.1 c.2.2 = Exec.ret d1) ∧
    (src.length < 4294967296 → src.length < fuel → ∃ r, Decode fuel dst src = Exec.ret r) := by
  have hs : (start dst src).spos ≤ (start dst src).src.length := by
    rw [start_eq]; exact Nat.zero_le _
  have hv : ∀ m ∈ matchCopies fuel (start dst src), 1 ≤ m.1 ∧ m.1 ≤ m.2.2.dpos ∧
      m.2.2.dst.length + m.2.1 + 4 < 4294967296 :=
    fun m hm => ⟨(hoff m hm).1, (hoff m hm).2, hout m hm⟩
  obtain ⟨hn, hm⟩ := DecodeLoop_safe fuel (start dst src) Reach.start hs hv
  refine ⟨hn, ?_, ?_⟩
  · intro c hc
    obtain ⟨m, hmem, hcm⟩ := mem_cpCalls hc
    obtain ⟨hd, href⟩ := hm m hmem
    obtain ⟨h1, h2, h3⟩ := hv m hmem
    obtain ⟨q1, q2, q3, q4⟩ := (expandCalls_safe m.2.2 m.2.1 m.1 hd href h1 h2 h3).2 c hcm
    exact ⟨q1, q2, q3, fun i _ => by omega, q4⟩
  · intro hlen hfuel
    have hw := start_wf dst src hlen
    have ht : Decode fuel dst src ≠ Exec.timeout :=
      DecodeLoop_ne_timeout fuel (start dst src) hw (by rw [start_eq]; simpa using hfuel)
    rcases hD : Decode fuel dst src with r | _ | _
    · exact ⟨r, rfl⟩
    · exact absurd hD hn
    · exact absurd hD ht

/-- Witness for C11: a near match (offset 1) followed by a far match
(offset 4), three calls of `cp` in all. -/
theorem Decode_valid_offsets_safe_witness :
    (cpCalls 12 (start none [0x10, 65, 1, 0, 0x42, 97, 98, 99, 100, 4, 0])).length = 3 ∧
      Decode 12 none [0x10, 65, 1, 0, 0x42, 97, 98, 99, 100, 4, 0] ≠ Exec.panic ∧
      (∀ c ∈ cpCalls 12 (start none [0x10, 65, 1, 0, 0x42, 97, 98, 99, 100, 4, 0]),
        c.1.ref < c.1.dpos ∧ c.1.dpos = c.1.dst.length ∧ c.1.ref + c.2.1 < 4294967296 ∧
        (∀ i, i < c.2.1 → c.1.ref + i < c.1.dst.length + i) ∧
        ∃ d1, c.1.cp c.2.1 c.2.2 = Exec.ret d1) ∧
      (([0x10, 65, 1, 0, 0x42, 97, 98, 99, 100, 4, 0] : List Byte).length < 4294967296 →
        ([0x10, 65, 1, 0, 0x42, 97, 98, 99, 100, 4, 0] : List Byte).length < 12 →
        ∃ r, Decode 12 none [0x10, 65, 1, 0, 0x42, 97, 98, 99, 100, 4, 0] = Exec.ret r) :=
  ⟨by decide,
    Decode_valid_offsets_safe [0x10, 65, 1, 0, 0x42, 97, 98, 99, 100, 4, 0] none 12
      (by decide) (by decide)⟩

/-! ## Where a failed read leaves the cursor -/

theorem readByte_cases (d d1 : decoder) (b : Byte) (e : Option Error)
    (h : d.readByte = Exec.ret ((b, e), d1)) :
    (e = some Error.EOF ∧ d.spos = d.src.length ∧ d1 = d) ∨
    (e = none ∧ d.spos < d.src.length ∧ d1 = { d with spos := u32 (d.spos + 1) }) := by
  unfold decoder.readByte at h
  split at h
  · rename_i heq
    simp only [Exec.ret.injEq, Prod.mk.injEq] at h
    obtain ⟨⟨-, rfl⟩, rfl⟩ := h
    exact Or.inl ⟨rfl, heq, rfl⟩
  · rename_i hne
    split at h
    · exact Exec.noConfusion h
    · rename_i b0 hg
      simp only [Exec.ret.injEq, Prod.mk.injEq] at h
      obtain ⟨⟨-, rfl⟩, rfl⟩ := h
      refine Or.inr ⟨rfl, ?_, rfl⟩
      by_contra hc
      rw [List.getElem?_eq_none (by omega)] at hg
      exact Option.noConfusion hg

/-- A read that fails has found the end of an input shorter than `2^32`
bytes. -/
theorem readByte_fail (d d1 : decoder) (b : Byte) (e1 : Error)
    (h : d.readByte = Exec.ret ((b, some e1), d1)) (hp : d.spos < 4294967296) :
    d.src.length < 4294967296 := by
  rcases readByte_cases d d1 b _ h with ⟨-, hs, -⟩ | ⟨hc, -, -⟩
  · rw [← hs]; exact hp
  · exact Option.noConfusion hc

theorem getLenLoop_fail : ∀ (f : Nat) (d d1 : decoder) (acc : Nat) (ln : Byte) (v : Nat)
    (e1 : Error), decoder.getLenLoop f d acc ln = Exec.ret ((v, some e1), d1) →
    d.spos < 4294967296 → d.src.length < 4294967296 := by
  intro f
  induction f with
  | zero =>
    intro d d1 acc ln v e1 h hp
    simp only [decoder.getLenLoop] at h
    split at h
    · exact Exec.noConfusion h
    · simp only [Exec.ret.injEq, Prod.mk.injEq] at h
      exact Option.noConfusion h.1.2
  | succ f ih =>
    intro d d1 acc ln v e1 h hp
    simp only [decoder.getLenLoop] at h
    split at h
    · rw [Exec.bind_eq_ret] at h
      obtain ⟨⟨⟨b, e⟩, d2⟩, hr, h⟩ := h
      obtain ⟨s2, p2, -⟩ := readByte_ret d d2 b e hr
      rcases e with _ | e2
      · simp only at h
        rw [← s2]
        exact ih _ _ _ _ _ _ h (p2 hp)
      · exact readByte_fail d d2 b e2 hr hp
    · simp only [Exec.ret.injEq, Prod.mk.injEq] at h
      exact Option.noConfusion h.1.2

theorem getLen_fail (f : Nat) (d d1 : decoder) (v : Nat) (e1 : Error)
    (h : d.getLen f = Exec.ret ((v, some e1), d1)) (hp : d.spos < 4294967296) :
    d.src.length < 4294967296 := by
  unfold decoder.getLen at h
  rw [Exec.bind_eq_ret] at h
  obtain ⟨⟨⟨b, e⟩, d2⟩, hr, h⟩ := h
  obtain ⟨s2, p2, -⟩ := readByte_ret d d2 b e hr
  rcases e with _ | e2
  · simp only at h
    rw [← s2]
    exact getLenLoop_fail _ _ _ _ _ _ _ h (p2 hp)
  · exact readByte_fail d d2 b e2 hr hp

theorem consume_fail : ∀ (n : Nat) (d d1 : decoder) (e1 : Error),
    decoder.consume n d = Exec.ret (some e1, d1) → d.spos < 4294967296 →
    d.src.length < 4294967296 := by
  intro n
  induction n with
  | zero =>
    intro d d1 e1 h hp
    simp only [decoder.consume, Exec.ret.injEq, Prod.mk.injEq] at h
    exact Option.noConfusion h.1
  | succ n ih =>
    intro d d1 e1 h hp
    simp only [decoder.consume] at h
    rw [Exec.bind_eq_ret] at h
    obtain ⟨⟨⟨b, e⟩, d2⟩, hr, h⟩ := h
    obtain ⟨s2, p2, -⟩ := readByte_ret d d2 b e hr
    rcases e with _ | e2
    · simp only at h
      have := ih _ _ _ h (p2 hp)
      simp only at this
      rw [← s2]
      exact this
    · exact readByte_fail d d2 b e2 hr hp

/-- What the result of `readUint16` says about the bytes left: `io.EOF` is
none left, `ErrCorrupt` is exactly one left, and for an input shorter than
`2^32` bytes a value is at least two left. -/
theorem readUint16_shape (d d2 : decoder) (v : Nat) (e : Option Error)
    (h : d.readUint16 = Exec.ret ((v, e), d2)) (hp : d.spos < 4294967296) :
    (e = some Error.EOF → d.spos = d.src.length) ∧
    (e = some Error.ErrCorrupt → d.spos + 1 = d.src.length) ∧
    (e = none → d.src.length < 4294967296 → d.spos + 2 ≤ d.src.length) ∧
    (e ≠ none → d.src.length < 4294967296) := by
  unfold decoder.readUint16 at h
  rw [Exec.bind_eq_ret] at h
  obtain ⟨⟨⟨b, e1⟩, d1⟩, hr, h⟩ := h
  rcases readByte_cases d d1 b e1 hr with ⟨rfl, hs, rfl⟩ | ⟨rfl, hs, rfl⟩
  · simp only [Exec.ret.injEq, Prod.mk.injEq] at h
    obtain ⟨⟨-, rfl⟩, -⟩ := h
    refine ⟨fun _ => hs, fun hc => ?_, fun hc => ?_, fun _ => by rw [← hs]; exact hp⟩
    · simp at hc
    · simp at hc
  · simp only at h
    rw [Exec.bind_eq_ret] at h
    obtain ⟨⟨⟨b2, e2⟩, d3⟩, hr2, h⟩ := h
    rcases readByte_cases _ d3 b2 e2 hr2 with ⟨rfl, hs2, rfl⟩ | ⟨rfl, hs2, rfl⟩
    · simp only [Exec.ret.injEq, Prod.mk.injEq] at h
      obtain ⟨⟨-, rfl⟩, -⟩ := h
      simp only at hs2
      have hle : u32 (d.spos + 1) ≤ d.spos + 1 := Nat.mod_le _ _
      have hlt := u32_lt (d.spos + 1)
      have h1 : d.spos + 1 = d.src.length := by omega
      refine ⟨fun hc => ?_, fun _ => h1, fun hc => ?_, fun _ => by omega⟩
      · simp at hc
      · simp at hc
    · simp only [Exec.ret.injEq, Prod.mk.injEq] at h
      obtain ⟨⟨-, rfl⟩, -⟩ := h
      simp only at hs2
      refine ⟨fun hc => ?_, fun hc => ?_, fun _ hl => ?_, fun hc => absurd rfl hc⟩
      · simp at hc
      · simp at hc
      · rw [u32_of_lt (by omega)] at hs2
        omega

/-- When `literals` makes `Decode` return `ErrCorrupt`, the output returned
is nil and the input is shorter than `2^32` bytes. -/
theorem literals_corrupt_out (d : decoder) (f : Nat) (o : Option (List Byte))
    (h : d.literals f = Exec.ret (Sum.inl (o, some Error.ErrCorrupt)))
    (hp : d.spos < 4294967296) : o = none ∧ d.src.length < 4294967296 := by
  obtain ⟨b, e, d2, hr, h⟩ := literals_inv d f _ h
  obtain ⟨s2, p2, -⟩ := readByte_ret d d2 b e hr
  rcases h with ⟨e1, rfl, hx⟩ | ⟨-, h⟩
  · obtain ⟨rfl, -⟩ := readByte_err d b e1 d2 hr
    simp only [Sum.inl.injEq, Prod.mk.injEq, decoder.finish] at hx
    exact Option.noConfusion hx.2
  · rcases h with ⟨-, v, e1, d3, hg, hx⟩ | ⟨length, d3, hlen, ec, d4, hcons, h⟩
    · simp only [Sum.inl.injEq, Prod.mk.injEq] at hx
      refine ⟨hx.1, ?_⟩
      rw [← s2]
      exact getLen_fail f d2 d3 v e1 hg (p2 hp)
    · have h3 : d3.src = d.src ∧ d3.spos < 4294967296 := by
        rcases hlen with ⟨-, v, hg, -⟩ | ⟨-, rfl, -⟩
        · obtain ⟨s3, p3⟩ := getLen_ret f d2 d3 _ hg (p2 hp)
          exact ⟨s3.trans s2, p3⟩
        · exact ⟨s2, p2 hp⟩
      rcases h with ⟨e1, rfl, hx⟩ | ⟨-, hx⟩
      · simp only [Sum.inl.injEq, Prod.mk.injEq] at hx
        refine ⟨hx.1, ?_⟩
        rw [← h3.1]
        exact consume_fail length d3 d4 e1 hcons h3.2
      · exact Sum.noConfusion hx

/-- When the offset or the match length makes `Decode` return `ErrCorrupt`:
either exactly one byte was left for the offset and the output so far is
returned, or at least two were and the output returned is nil. -/
theorem offsetLen_corrupt_out (d : decoder) (c : Byte) (f : Nat) (o : Option (List Byte))
    (h : d.offsetLen c f = Exec.ret (Sum.inl (o, some Error.ErrCorrupt)))
    (hp : d.spos < 4294967296) :
    d.src.length < 4294967296 ∧
    ((o = some d.dst ∧ d.spos + 1 = d.src.length) ∨
     (o = none ∧ d.spos + 2 ≤ d.src.length)) := by
  obtain ⟨back, e, d2, hr, h⟩ := offsetLen_inv d c f _ h
  obtain ⟨s2, p2, -⟩ := readUint16_ret d d2 back e hr hp
  obtain ⟨q1, q2, q3, q4⟩ := readUint16_shape d d2 back e hr hp
  obtain ⟨a2, -, -⟩ := readUint16_out d d2 _ hr
  rcases h with ⟨e1, rfl, hx⟩ | ⟨rfl, h⟩
  · simp only [Sum.inl.injEq, Prod.mk.injEq] at hx
    obtain ⟨rfl, hfin⟩ := hx
    have he : e1 = Error.ErrCorrupt := by
      cases e1 with
      | EOF => simp [decoder.finish] at hfin
      | ErrCorrupt => rfl
    subst he
    exact ⟨q4 (by simp), Or.inl ⟨by rw [a2], q2 rfl⟩⟩
  · rcases h with ⟨-, v, e1, d3, hg, hx⟩ | ⟨length, d3, -, hx⟩
    · simp only [Sum.inl.injEq, Prod.mk.injEq] at hx
      have hl : d.src.length < 4294967296 := by
        have hgl := getLen_fail f _ d3 v e1 hg (by simp only; exact p2)
        simp only at hgl
        rw [← s2]
        exact hgl
      exact ⟨hl, Or.inr ⟨hx.1, q3 rfl hl⟩⟩
    · exact Sum.noConfusion hx

/-- A value read by `readUint16` leaves at least two bytes behind the
cursor it started from, when the input is shorter than `2^32` bytes. -/
theorem offsetLen_ok_two (d d2 : decoder) (c : Byte) (f back length : Nat)
    (h : d.offsetLen c f = Exec.ret (Sum.inr (back, length, d2)))
    (hp : d.spos < 4294967296) (hl : d.src.length < 4294967296) :
    d.spos + 2 ≤ d.src.length := by
  obtain ⟨bk, e, d1, hr, h⟩ := offsetLen_inv d c f _ h
  obtain ⟨-, -, q3, -⟩ := readUint16_shape d d1 bk e hr hp
  rcases h with ⟨e1, -, hx⟩ | ⟨rfl, -⟩
  · exact Sum.noConfusion hx
  · exact q3 rfl hl

/-! ## C18: the output returned with `ErrCorrupt` -/

theorem DecodeLoop_corrupt : ∀ (F : Nat) (d : decoder) (O : Option (List Byte)),
    DecodeLoop F d = Exec.ret (O, some Error.ErrCorrupt) → d.spos < 4294967296 →
    d.src.length < 4294967296 ∧
    ((O = none ∧ ∀ d1 ∈ offsetStates F d, d1.spos + 1 ≠ d.src.length) ∨
     (∃ d1 ∈ offsetStates F d, d1.spos + 1 = d.src.length ∧ O = some d1.dst)) := by
  intro F
  induction F with
  | zero => intro d O h; exact Exec.noConfusion h
  | succ F ih =>
    intro d O h hp
    rcases hl : d.literals F with ⟨res | ⟨c, d1⟩⟩ | _ | _
    · rw [DecodeLoop_literals_inl d F res hl] at h
      simp only [Exec.ret.injEq] at h
      subst h
      obtain ⟨hO, hlen⟩ := literals_corrupt_out d F O hl hp
      refine ⟨hlen, Or.inl ⟨hO, ?_⟩⟩
      intro d1 hm
      simp [offsetStates, hl] at hm
    · have h1 := literals_ret d F _ hl hp
      simp only at h1
      obtain ⟨s1, p1⟩ := h1
      rcases ho : d1.offsetLen c F with ⟨res | ⟨back, length, d2⟩⟩ | _ | _
      · obtain ⟨hD, hb⟩ := DecodeLoop_offsetLen_inl d d1 c F res hl ho
        rw [hD] at h
        simp only [Exec.ret.injEq] at h
        subst h
        obtain ⟨hlen, hc⟩ := offsetLen_corrupt_out d1 c F O ho p1
        rw [s1] at hlen hc
        have hos : offsetStates (F + 1) d = [d1] := by
          simp only [offsetStates, hl, hb]
        refine ⟨hlen, ?_⟩
        rcases hc with ⟨hO, hs⟩ | ⟨hO, hs⟩
        · exact Or.inr ⟨d1, by rw [hos]; exact List.mem_singleton.mpr rfl, hs, hO⟩
        · refine Or.inl ⟨hO, ?_⟩
          intro d3 hm
          rw [hos, List.mem_singleton] at hm
          subst hm
          omega
      · rcases he : d2.expand length with d4 | _ | _
        · obtain ⟨hD, hb, -⟩ := DecodeLoop_expand d d1 d2 d4 c F back length hl ho he
          rw [hD] at h
          have h4 := backref_ret d1 c F _ hb p1
          simp only at h4
          obtain ⟨s4, p4⟩ := h4
          obtain ⟨hlen, hc⟩ := ih d4 O h p4
          rw [s4, s1] at hlen hc
          have hos : offsetStates (F + 1) d = d1 :: offsetStates F d4 := by
            simp only [offsetStates, hl, hb]
          have h2 := offsetLen_ok_two d1 d2 c F back length ho p1 (by rw [s1]; exact hlen)
          rw [s1] at h2
          refine ⟨hlen, ?_⟩
          rcases hc with ⟨hO, hall⟩ | ⟨d5, hm, hs, hO⟩
          · refine Or.inl ⟨hO, ?_⟩
            intro d3 hm
            rw [hos, List.mem_cons] at hm
            rcases hm with rfl | hm
            · omega
            · exact hall d3 hm
          · exact Or.inr ⟨d5, by rw [hos]; exact List.mem_cons_of_mem _ hm, hs, hO⟩
        · simp only [DecodeLoop_succ, decoder.iteration, hl, backref_offsetLen, ho, he,
            Exec.ret_bind, Exec.panic_bind] at h
          exact Exec.noConfusion h
        · simp only [DecodeLoop_succ, decoder.iteration, hl, backref_offsetLen, ho, he,
            Exec.ret_bind, Exec.timeout_bind] at h
          exact Exec.noConfusion h
      · simp only [DecodeLoop_succ, decoder.iteration, hl, backref_offsetLen, ho,
          Exec.ret_bind, Exec.panic_bind] at h
        exact Exec.noConfusion h
      · simp only [DecodeLoop_succ, decoder.iteration, hl, backref_offsetLen, ho,
          Exec.ret_bind, Exec.timeout_bind] at h
        exact Exec.noConfusion h
    · simp only [DecodeLoop_succ, decoder.iteration, hl, Exec.panic_bind] at h
      exact Exec.noConfusion h
    · simp only [DecodeLoop_succ, decoder.iteration, hl, Exec.timeout_bind] at h
      exact Exec.noConfusion h

/-- C18: the output returned on failure.  When `Decode` returns `ErrCorrupt`,
either the output returned is nil and in no state in which an offset was
read was exactly one byte left, or the failure is a truncated offset: in the
state in which the offset is read exactly one byte is left, and the output
returned is the output of that state, the bytes decoded so far. -/
theorem Decode_corrupt_output (fuel : Nat) (dst : Option (List Byte)) (src : List Byte)
    (O : Option (List Byte)) (h : Decode fuel dst src = Exec.ret (O, some Error.ErrCorrupt)) :
    (O = none ∧ ∀ d1 ∈ offsetStates fuel (start dst src), d1.spos + 1 ≠ src.length) ∨
    (∃ d1 ∈ offsetStates fuel (start dst src), d1.spos + 1 = src.length ∧ O = some d1.dst) := by
  have h1 := (DecodeLoop_corrupt fuel (start dst src) O h
    (by rw [start_eq]; exact Nat.zero_lt_succ _)).2
  rw [start_eq] at h1 ⊢
  exact h1

/-- Witness for C18: `0x10 'A' 01` ends one byte into the offset and gives
the output `A` with `ErrCorrupt`; `F0 FF` ends inside the literal-length
escape and gives a nil output with `ErrCorrupt`. -/
theorem Decode_corrupt_output_witness :
    Decode 4 none [0x10, 65, 0x01] = Exec.ret (some [65], some Error.ErrCorrupt) ∧
      Decode 4 none [0xF0, 255] = Exec.ret (none, some Error.ErrCorrupt) ∧
      (((some [65] : Option (List Byte)) = none ∧
          ∀ d1 ∈ offsetStates 4 (start none [0x10, 65, 0x01]),
            d1.spos + 1 ≠ ([0x10, 65, 0x01] : List Byte).length) ∨
        (∃ d1 ∈ offsetStates 4 (start none [0x10, 65, 0x01]),
          d1.spos + 1 = ([0x10, 65, 0x01] : List Byte).length ∧
          (some [65] : Option (List Byte)) = some d1.dst)) :=
  ⟨by decide, by decide, Decode_corrupt_output 4 none [0x10, 65, 0x01] (some [65]) (by decide)⟩

/-! ## C17: the output only grows -/

/-- What `Decode` returns with a nil error extends the output of the state
the loop is entered in. -/
theorem DecodeLoop_extends : ∀ (F : Nat) (d : decoder) (o : Option (List Byte)), d.wf →
    d.src.length - d.spos < F → DecodeLoop F d = Exec.ret (o, none) →
    ∃ O, o = some O ∧ d.dst <+: O := by
  intro F
  induction F with
  | zero => intro d o _ _ h; exact Exec.noConfusion h
  | succ F ih =>
    intro d o hw hF hret
    have hrl := wf_rest_length d
    have hFr : (d.src.drop d.spos).length ≤ F := by rw [hrl]; omega
    have hit := iteration_eq d F _ rfl hw.1 hw.2.1 (wf_dpos_lt hw) hFr
    rw [DecodeLoop_succ] at hret
    rcases hi : d.iteration F with ⟨res | d1⟩ | _ | _
    · rw [hi] at hret
      simp only [Exec.ret_bind, Exec.ret.injEq] at hret
      subst hret
      rw [hi] at hit
      rcases hp : parseLit (d.src.drop d.spos) with _ | _ | ⟨c, lits, used⟩
      · rw [hp] at hit
        simp only [Exec.ret.injEq, Sum.inl.injEq, Prod.mk.injEq] at hit
        exact ⟨d.dst, hit.1, List.prefix_refl _⟩
      · rw [hp] at hit
        simp only [Exec.ret.injEq, Sum.inl.injEq, Prod.mk.injEq] at hit
        exact Option.noConfusion hit.2
      · rw [hp] at hit
        simp only [] at hit
        rcases hq : parseRef c ((d.src.drop d.spos).drop used) with _ | _ | _ | ⟨o1, m, used2⟩
        · rw [hq] at hit
          simp only [Exec.ret.injEq, Sum.inl.injEq, Prod.mk.injEq] at hit
          exact ⟨d.dst ++ lits, hit.1, List.prefix_append _ _⟩
        · rw [hq] at hit
          simp only [Exec.ret.injEq, Sum.inl.injEq, Prod.mk.injEq] at hit
          exact Option.noConfusion hit.2
        · rw [hq] at hit
          simp only [Exec.ret.injEq, Sum.inl.injEq, Prod.mk.injEq] at hit
          exact Option.noConfusion hit.2
        · rw [hq] at hit
          simp only [] at hit
          rcases he : decoder.expand (decoder.mk d.src (d.dst ++ lits) (d.spos + used + used2)
              (u32 (d.dpos + lits.length))
              (u32 (u32 (d.dpos + lits.length) + 4294967296 - o1))) m with d4 | _ | _
          · rw [he] at hit
            simp only [Exec.ret_bind, Exec.ret.injEq] at hit
            exact Sum.noConfusion hit
          · rw [he] at hit
            exact Exec.noConfusion hit
          · rw [he] at hit
            exact Exec.noConfusion hit
    · rw [hi] at hret
      simp only [Exec.ret_bind] at hret
      obtain ⟨w1, s1, p1, M, hM⟩ := iteration_wf d d1 F hw (by omega) hi
      have hs1 := w1.1
      rw [s1] at hs1
      obtain ⟨O, hO, hpre⟩ := ih d1 o w1 (by rw [s1]; omega) hret
      refine ⟨O, hO, ?_⟩
      rw [hM] at hpre
      exact List.IsPrefix.trans (List.prefix_append _ _) hpre
    · rw [hi] at hret
      exact Exec.noConfusion hret
    · rw [hi] at hret
      exact Exec.noConfusion hret

/-- The run on the first `n` bytes of the input and the run on the whole
input: when both return a nil error, the first output is a prefix of the
second. -/
theorem DecodeLoop_prefix_mono : ∀ (F : Nat) (d : decoder) (o op : Option (List Byte)) (n : Nat),
    d.wf → d.spos ≤ n → n ≤ d.src.length → d.src.length - d.spos < F →
    DecodeLoop F d = Exec.ret (o, none) →
    DecodeLoop F { d with src := d.src.take n } = Exec.ret (op, none) →
    ∃ Op O, op = some Op ∧ o = some O ∧ Op <+: O := by
  intro F
  induction F with
  | zero => intro d o op n _ _ _ _ h; exact Exec.noConfusion h
  | succ F ih =>
    intro d o op n hw hn hn2 hF hret hpre
    obtain ⟨O, hO, hext⟩ := DecodeLoop_extends (F + 1) d o hw hF hret
    have hrl := wf_rest_length d
    have hFr : (d.src.drop d.spos).length ≤ F := by rw [hrl]; omega
    have hit := iteration_eq d F _ rfl hw.1 hw.2.1 (wf_dpos_lt hw) hFr
    have hitp := iteration_take d n F hw hn hn2 (by omega)
    rw [DecodeLoop_succ] at hret hpre
    by_cases hlt : n = d.spos
    · have h0 : (d.src.drop d.spos).take (n - d.spos) = [] := by
        rw [hlt, Nat.sub_self, List.take_zero]
      rw [h0] at hitp
      simp only [parseLit] at hitp
      rw [hitp] at hpre
      simp only [Exec.ret_bind, Exec.ret.injEq, Prod.mk.injEq] at hpre
      exact ⟨d.dst, O, hpre.1.symm, hO, hext⟩
    · rcases hp : parseLit (d.src.drop d.spos) with _ | _ | ⟨c, lits, used⟩
      · have := parseLit_eof hp
        rw [this, List.length_nil] at hrl
        omega
      · rw [hp] at hit
        rw [hit] at hret
        simp at hret
      · rw [hp] at hit
        simp only [] at hit
        obtain ⟨hu1, hu2, -, -⟩ := parseLit_ok hp
        rw [hrl] at hu2
        by_cases hj : n - d.spos < used
        · rw [parseLit_cut _ c lits used (n - d.spos) hp (by omega) hj] at hitp
          rw [hitp] at hpre
          simp at hpre
        · rw [parseLit_local _ _ c lits used hp (take_take_le _ (by omega))] at hitp
          simp only [] at hitp
          have hdt : ((d.src.drop d.spos).take (n - d.spos)).drop used
              = ((d.src.drop d.spos).drop used).take (n - d.spos - used) :=
            List.drop_take _ _ _
          rw [hdt] at hitp
          rcases hq : parseRef c ((d.src.drop d.spos).drop used) with _ | _ | _ | ⟨o1, m, used2⟩
          · rw [hq] at hit
            rw [hit] at hret
            simp only [Exec.ret_bind, Exec.ret.injEq, Prod.mk.injEq] at hret
            have he := parseRef_eof hq
            rw [he, List.take_nil] at hitp
            simp only [parseRef] at hitp
            rw [hitp] at hpre
            simp only [Exec.ret_bind, Exec.ret.injEq, Prod.mk.injEq] at hpre
            exact ⟨d.dst ++ lits, d.dst ++ lits, hpre.1.symm, hret.1.symm, List.prefix_refl _⟩
          · rw [hq] at hit
            rw [hit] at hret
            simp at hret
          · rw [hq] at hit
            rw [hit] at hret
            simp at hret
          · rw [hq] at hit
            simp only [] at hit
            obtain ⟨hv1, hv2, -, hm, b1, b2, r, m0, h, hrest2, -, -, -, -⟩ := parseRef_ok hq
            rw [List.length_drop, hrl] at hv2
            rcases he : decoder.expand (decoder.mk d.src (d.dst ++ lits) (d.spos + used + used2)
                (u32 (d.dpos + lits.length))
                (u32 (u32 (d.dpos + lits.length) + 4294967296 - o1))) m with d4 | _ | _
            · rw [he] at hit
              simp only [Exec.ret_bind] at hit
              rw [hit] at hret
              simp only [Exec.ret_bind] at hret
              obtain ⟨w4, s4, p4, M4, hM4⟩ := iteration_wf d d4 F hw (by omega) hit
              obtain ⟨-, sp4⟩ := expand_src_spos _ _ _ he
              simp only at sp4
              obtain ⟨-, -, -, M, hM, -⟩ := expand_frame _ d4 m he (u32_lt _) hm
              simp only at hM
              have hs4 := w4.1
              rw [s4] at hs4
              obtain ⟨O4, hO4, hext4⟩ := DecodeLoop_extends F d4 o w4 (by rw [s4]; omega) hret
              by_cases hj2 : n - d.spos - used < used2
              · by_cases hzero : n - d.spos - used = 0
                · rw [hzero, List.take_zero] at hitp
                  simp only [parseRef] at hitp
                  rw [hitp] at hpre
                  simp only [Exec.ret_bind, Exec.ret.injEq, Prod.mk.injEq] at hpre
                  refine ⟨d.dst ++ lits, O4, hpre.1.symm, hO4, ?_⟩
                  rw [hM] at hext4
                  exact List.IsPrefix.trans (List.prefix_append _ _) hext4
                · by_cases hone : n - d.spos - used = 1
                  · rw [hone, hrest2] at hitp
                    simp only [List.take_succ_cons, List.take_zero, parseRef] at hitp
                    rw [hitp] at hpre
                    simp at hpre
                  · rw [parseRef_cut c _ o1 m used2 (n - d.spos - used) hq (by omega) hj2] at hitp
                    rw [hitp] at hpre
                    simp at hpre
              · rw [parseRef_local c _ _ o1 m used2 hq (take_take_le _ (by omega))] at hitp
                simp only [] at hitp
                have hes := expand_src (d.src.take n) (decoder.mk d.src (d.dst ++ lits)
                  (d.spos + used + used2) (u32 (d.dpos + lits.length))
                  (u32 (u32 (d.dpos + lits.length) + 4294967296 - o1))) m
                simp only [] at hes
                rw [hes, he] at hitp
                simp only [Exec.ret_bind] at hitp
                rw [hitp] at hpre
                simp only [Exec.ret_bind] at hpre
                have := ih d4 o op n w4 (by rw [sp4]; omega) (by rw [s4]; exact hn2)
                  (by rw [s4, sp4]; omega) hret (by rw [s4]; exact hpre)
                exact this
            · rw [he] at hit
              rw [hit] at hret
              simp at hret
            · rw [he] at hit
              rw [hit] at hret
              simp at hret

/-- C17: prefix monotonicity of the output.  For every input `src` and every
prefix `p` of it, when `Decode` returns a nil error on both, with outputs
`Op` and `O`, then `Op` is a prefix of `O`.  The destinations passed in and
the fuels of the two runs are free. -/
theorem Decode_prefix_mono (p src : List Byte) (f1 f2 : Nat) (dst1 dst2 : Option (List Byte))
    (op o : Option (List Byte)) (hp : p <+: src)
    (h1 : Decode f1 dst1 p = Exec.ret (op, none))
    (h2 : Decode f2 dst2 src = Exec.ret (o, none)) :
    ∃ Op O, op = some Op ∧ o = some O ∧ Op <+: O := by
  have hlen := Decode_ret_nil f2 dst2 src _ h2
  have hw := start_wf dst2 src hlen
  have hpt : p = src.take p.length := List.prefix_iff_eq_take.mp hp
  have hple : p.length ≤ src.length := hp.length_le
  have hF2 : Decode (max (max f1 f2) (src.length + 1)) dst2 src = Exec.ret (o, none) := by
    rw [Decode_mono f2 _ dst2 src (by omega) (by rw [h2]; exact fun hc => Exec.noConfusion hc)]
    exact h2
  have hF1 : Decode (max (max f1 f2) (src.length + 1)) dst1 p = Exec.ret (op, none) := by
    rw [Decode_mono f1 _ dst1 p (by omega) (by rw [h1]; exact fun hc => Exec.noConfusion hc)]
    exact h1
  have hss : start dst1 p = start dst2 p := by rw [start_eq, start_eq]
  have hsrc : (start dst2 src).src = src := by rw [start_eq]
  have hspos : (start dst2 src).spos = 0 := by rw [start_eq]
  have hst : ({ start dst2 src with src := (start dst2 src).src.take p.length } : decoder)
      = start dst2 p := by
    rw [start_eq, start_eq]
    simp only
    rw [← hpt]
  exact DecodeLoop_prefix_mono _ (start dst2 src) o op p.length hw (by rw [hspos]; omega)
    (by rw [hsrc]; exact hple) (by rw [hsrc, hspos]; omega) hF2 (by rw [hst, ← hss]; exact hF1)

/-- Witness for C17: `0x10 'A'` is a prefix of a block of two sequences; its
output `A` is a prefix of the output `AAAAABBBBB`. -/
theorem Decode_prefix_mono_witness :
    ([0x10, 65] : List Byte) <+: [0x10, 65, 1, 0, 0x10, 66, 1, 0] ∧
      Decode 3 none [0x10, 65] = Exec.ret (some [65], none) ∧
      Decode 9 none [0x10, 65, 1, 0, 0x10, 66, 1, 0]
        = Exec.ret (some [65, 65, 65, 65, 65, 66, 66, 66, 66, 66], none) ∧
      ∃ Op O, (some [65] : Option (List Byte)) = some Op ∧
        (some [65, 65, 65, 65, 65, 66, 66, 66, 66, 66] : Option (List Byte)) = some O ∧
        Op <+: O :=
  ⟨by decide, by decide, by decide,
    Decode_prefix_mono [0x10, 65] [0x10, 65, 1, 0, 0x10, 66, 1, 0] 3 9 none none _ _ (by decide)
      (by decide) (by decide)⟩

end lz4
